import Mathlib

/-!
Verification development for the edit-region detection engine of
`python-server/services/image_compare.py` and
`python-server/services/image_compare_lpips.py`.

Shallow embedding conventions:
  * numpy `uint8` image buffers become `NdImage`: an explicit `shape` list
    plus a total `data : ℕ → ℕ → ℕ → ℕ` function (row, column, channel);
  * the per-pixel difference field `delta_e` (a float matrix in the source)
    becomes a function `ℕ → ℕ → α` (row, column) over a linear ordered
    field `α`, so concrete runs can be evaluated exactly at `α = ℚ`;
  * Python's `round` (banker's rounding) is `pyRound`, `int()` truncation is
    `pyTrunc`, `round(x, 1)` is `round1`;
  * the iterative stack-based flood fill is a fuelled structural loop
    (`floodLoop`); the fuel `4*W*H + 1` dominates the loop's termination
    measure, so the fuelled loop equals the source's unbounded loop;
  * numeric kernels that compute irrational values or live outside this
    repository (Lanczos resampling in PIL, the LPIPS network, scipy's
    griddata interpolation, cv2 morphology/contour routines) are passed in
    as explicit function parameters, with theorems quantifying over them;
    everything else is translated directly from the source.
-/

namespace ImageCompare

/-! ## Python-style numeric and string helpers -/

/-- Python's built-in `round` to an integer: round half to even. -/
def pyRound {α : Type} [LinearOrderedField α] [FloorRing α] (x : α) : ℤ :=
  if x - (⌊x⌋ : α) < 1/2 then ⌊x⌋
  else if 1/2 < x - (⌊x⌋ : α) then ⌊x⌋ + 1
  else if ⌊x⌋ % 2 = 0 then ⌊x⌋ else ⌊x⌋ + 1

/-- Python's `int()` applied to a float: truncation toward zero. -/
def pyTrunc {α : Type} [LinearOrderedField α] [FloorRing α] (x : α) : ℤ :=
  if 0 ≤ x then ⌊x⌋ else ⌈x⌉

/-- Python's `round(x, 1)`: round to one decimal place (half to even). -/
def round1 {α : Type} [LinearOrderedField α] [FloorRing α] (x : α) : α :=
  (pyRound (x * 10) : α) / 10

/-- Render a value with one digit after the decimal point, as Python's
`f"{x:.1f}"` does for the (nonnegative) quantities the formatter prints. -/
def fmt1 {α : Type} [LinearOrderedField α] [FloorRing α] (x : α) : String :=
  let n : ℤ := pyRound (x * 10)
  toString (n / 10) ++ "." ++ toString (n % 10)

/-- Python's `str.join`. -/
def pyJoin (sep : String) : List String → String
  | [] => ""
  | [a] => a
  | a :: rest => a ++ sep ++ pyJoin sep rest

/-- Python's `repr` of a tuple of ints, as an f-string renders `array.shape`. -/
def pyTupleRepr (l : List ℕ) : String :=
  match l with
  | [] => "()"
  | [a] => "(" ++ toString a ++ ",)"
  | _ => "(" ++ pyJoin ", " (l.map toString) ++ ")"

/-- Python's `min` over a nonempty list of naturals (0 for an empty list). -/
def listMin : List ℕ → ℕ
  | [] => 0
  | a :: l => l.foldl Nat.min a

/-- Python's `max` over a nonempty list of naturals (0 for an empty list). -/
def listMax : List ℕ → ℕ
  | [] => 0
  | a :: l => l.foldl Nat.max a

/-- A running-maximum fold started at `z`, as the source's
`max_color_diff = 0.0` / `max(max_color_diff, d)` accumulation. -/
def foldMax {α : Type} [LinearOrder α] (z : α) (l : List α) : α :=
  l.foldl max z

/-! ## Stable descending sort

Python's `list.sort(key=..., reverse=True)` is a stable sort: the result is
ordered by descending key and elements with equal keys keep their original
(discovery) order. `insertDesc` walks past every element whose key is at
least the new element's key, so a later-discovered element lands after all
earlier elements of equal key. -/

def insertDesc {β κ : Type} [LinearOrder κ] (key : β → κ) (r : β) : List β → List β
  | [] => [r]
  | s :: rest => if key r ≤ key s then s :: insertDesc key r rest else r :: s :: rest

/-- Stable sort by descending key, modelling `sort(key=..., reverse=True)`. -/
def sortDesc {β κ : Type} [LinearOrder κ] (key : β → κ) (l : List β) : List β :=
  l.foldl (fun acc r => insertDesc key r acc) []

/-! ## Grid cells, 4-adjacency and reachability

`image_compare.py` stores masks as flat `uint8` arrays indexed by
`idx = y * width + x`; the embedding indexes the same cells by the pair
`(x, y)` (the bijection `idx ↔ (x, y)` for `x < width`). A mask is a
function `changed : ℕ → ℕ → Bool` on `(x, y)`.  `_flood_fill_pixels` and
`_flood_fill_blocks` are textually identical up to renaming
(pixel grid ↔ block grid), so one parameterised loop embeds both. -/

section Grid

variable (changed : ℕ → ℕ → Bool) (W H : ℕ)

/-- An in-bounds changed cell of the `W × H` grid. -/
def IsCell (p : ℕ × ℕ) : Prop := p.1 < W ∧ p.2 < H ∧ changed p.1 p.2 = true

instance (p : ℕ × ℕ) : Decidable (IsCell changed W H p) := by
  unfold IsCell; infer_instance

/-- 4-connectivity (up, down, left, right), the neighbourhood the
flood fill pushes. -/
def Adj (p q : ℕ × ℕ) : Prop :=
  (p.1 = q.1 ∧ (p.2 + 1 = q.2 ∨ q.2 + 1 = p.2)) ∨
  (p.2 = q.2 ∧ (p.1 + 1 = q.1 ∨ q.1 + 1 = p.1))

/-- One step between changed cells, both avoiding the visited set `V`. -/
def gstep (V : Finset (ℕ × ℕ)) (a b : ℕ × ℕ) : Prop :=
  IsCell changed W H a ∧ a ∉ V ∧ IsCell changed W H b ∧ b ∉ V ∧ Adj a b

/-- Reachability between changed cells along 4-connected paths that avoid
the visited set `V`. -/
def RA (V : Finset (ℕ × ℕ)) (s q : ℕ × ℕ) : Prop :=
  Relation.ReflTransGen (gstep changed W H V) s q ∧ IsCell changed W H s ∧ s ∉ V

/-- Plain reachability between changed cells (4-connected components). -/
def Reach (s q : ℕ × ℕ) : Prop := RA changed W H ∅ s q

/-- The changed in-bounds cells, as a finite set (used for the loop's
termination measure). -/
def gridCells : Finset (ℕ × ℕ) :=
  (Finset.range W ×ˢ Finset.range H).filter (fun p => changed p.1 p.2 = true)

/-- A visited set that is a union of whole components: closed under
adjacency into changed cells. -/
def ClosedUnder (V : Finset (ℕ × ℕ)) : Prop :=
  ∀ p ∈ V, ∀ q, IsCell changed W H q → Adj p q → q ∈ V

/-! ### The flood-fill loop

`_flood_fill_pixels(changed_mask, visited, width, height, start_x, start_y)`
keeps an explicit stack of signed coordinates (pushing `x - 1` at `x = 0`
produces `-1` in Python, caught by the bounds check), pops the most
recently pushed entry, and appends each newly visited cell to `pixels`.
The Python `while stack:` loop is embedded with a fuel parameter; each
iteration strictly decreases `4 * |unvisited changed cells| + |stack|`,
so fuel `4*W*H + 1` is never exhausted. -/

/-- The in-bounds test the source performs on a popped stack entry. -/
def okZ (t : ℤ × ℤ) : Prop := 0 ≤ t.1 ∧ t.1 < (W : ℤ) ∧ 0 ≤ t.2 ∧ t.2 < (H : ℤ)

instance (t : ℤ × ℤ) : Decidable (okZ W H t) := by
  unfold okZ; infer_instance

/-- The cell a (verified in-bounds) stack entry denotes. -/
def toCell (t : ℤ × ℤ) : ℕ × ℕ := (t.1.toNat, t.2.toNat)

/-- The body of `_flood_fill_pixels` / `_flood_fill_blocks`: pop an entry,
skip it when out of bounds, not changed, or already visited; otherwise mark
it visited, append it to the output, and push its four neighbours (the
source appends `(x+1,y), (x-1,y), (x,y+1), (x,y-1)` and pops from the end,
so `(x,y-1)` is on top). Returns the updated visited set with the visit
list. -/
def floodLoop : ℕ → List (ℤ × ℤ) → Finset (ℕ × ℕ) → List (ℕ × ℕ) →
    Finset (ℕ × ℕ) × List (ℕ × ℕ)
  | 0, _, visited, pixels => (visited, pixels)
  | _ + 1, [], visited, pixels => (visited, pixels)
  | fuel + 1, t :: stack, visited, pixels =>
    if t.1 < 0 ∨ (W : ℤ) ≤ t.1 ∨ t.2 < 0 ∨ (H : ℤ) ≤ t.2 then
      floodLoop fuel stack visited pixels
    else
      if changed (toCell t).1 (toCell t).2 = false ∨ toCell t ∈ visited then
        floodLoop fuel stack visited pixels
      else
        floodLoop fuel
          ((t.1, t.2 - 1) :: (t.1, t.2 + 1) :: (t.1 - 1, t.2) :: (t.1 + 1, t.2) :: stack)
          (insert (toCell t) visited) (pixels ++ [toCell t])

/-- `_flood_fill_pixels` / `_flood_fill_blocks`: run the loop from the
start cell with enough fuel; returns the updated visited set and the list
of member cells of the connected component, in visit order. -/
def floodFill (visited : Finset (ℕ × ℕ)) (sx sy : ℕ) :
    Finset (ℕ × ℕ) × List (ℕ × ℕ) :=
  floodLoop changed W H (4 * (W * H) + 1) [((sx : ℤ), (sy : ℤ))] visited []

/-- The scan of `_detect_pixel_based` / `_detect_block_based` over the grid
cells in row-major order: start a flood fill at each changed, unvisited
cell and keep the component when it reaches the minimum size. Returns the
kept components (member lists) in discovery order. -/
def scanCells (minsize : ℕ) : List (ℕ × ℕ) → Finset (ℕ × ℕ) → List (List (ℕ × ℕ))
  | [], _ => []
  | c :: rest, visited =>
    if changed c.1 c.2 = true ∧ c ∉ visited then
      if minsize ≤ (floodFill changed W H visited c.1 c.2).2.length then
        (floodFill changed W H visited c.1 c.2).2 ::
          scanCells minsize rest (floodFill changed W H visited c.1 c.2).1
      else scanCells minsize rest (floodFill changed W H visited c.1 c.2).1
    else scanCells minsize rest visited

end Grid

/-- The grid cells in row-major order (`for y: for x:`). -/
def rowMajor (W H : ℕ) : List (ℕ × ℕ) :=
  (List.range H).flatMap (fun y => (List.range W).map (fun x => (x, y)))

/-! ## The deterministic detector's data model -/

/-- `EditRegion`: a detected region (pixel-coordinate bounding box, centre,
member-pixel count, average/maximum difference, significance). -/
structure EditRegion (α : Type) where
  x : ℕ
  y : ℕ
  width : ℕ
  height : ℕ
  center_x : ℤ
  center_y : ℤ
  pixel_count : ℕ
  avg_color_diff : α
  max_color_diff : α
  significance : ℤ
  deriving DecidableEq

/-- `EditDetectionResult`. -/
structure EditDetectionResult (α : Type) where
  regions : List (EditRegion α)
  total_changed_pixels : ℕ
  percent_changed : α
  image_width : ℕ
  image_height : ℕ

/-- `EditDetectionOptions`, with the source's defaults. -/
structure EditDetectionOptions (α : Type) [LinearOrderedField α] where
  color_threshold : α := 12
  min_region_size : ℕ := 10
  use_block_comparison : Bool := true
  block_size : ℕ := 8
  min_block_density : α := 1/4
  min_block_count : ℕ := 2

section Detector

variable {α : Type} [LinearOrderedField α] [FloorRing α]

/-- `_compute_significance(area, avg_color_diff, pixel_count)`: the
40% size / 40% intensity / 20% density score, with the total clamped at
100 before Python's `round` (the source's `0.4`, `0.2` literals are the
rationals 2/5 and 1/5). -/
def _compute_significance (area : ℕ) (avg_color_diff : α) (pixel_count : ℕ) : ℤ :=
  let area_normalized : α := min ((area : α) / 10000) 1
  let intensity_normalized : α := avg_color_diff / 100
  let density_normalized : α := if 0 < area then (pixel_count : α) / (area : α) else 0
  let significance : α :=
    (area_normalized * (2/5) + intensity_normalized * (2/5) + density_normalized * (1/5)) * 100
  pyRound (min significance 100)

/-- `_compute_region_from_pixels(pixels, delta_e)`; the difference field
`d` is indexed `d row column`, matching `delta_e[y, x]`. -/
def _compute_region_from_pixels (pixels : List (ℕ × ℕ)) (d : ℕ → ℕ → α) : EditRegion α :=
  let xs := pixels.map (fun p => p.1)
  let ys := pixels.map (fun p => p.2)
  let min_x := listMin xs
  let max_x := listMax xs
  let min_y := listMin ys
  let max_y := listMax ys
  let total_color_diff : α := (pixels.map (fun p => d p.2 p.1)).sum
  let max_color_diff : α := foldMax 0 (pixels.map (fun p => d p.2 p.1))
  let width := max_x - min_x + 1
  let height := max_y - min_y + 1
  let avg_color_diff : α :=
    if pixels = [] then 0 else total_color_diff / (pixels.length : α)
  let area := width * height
  { x := min_x
    y := min_y
    width := width
    height := height
    center_x := pyRound (((min_x : α) + (max_x : α)) / 2)
    center_y := pyRound (((min_y : α) + (max_y : α)) / 2)
    pixel_count := pixels.length
    avg_color_diff := round1 avg_color_diff
    max_color_diff := round1 max_color_diff
    significance := _compute_significance area avg_color_diff pixels.length }

/-- The pixel-level changed mask `delta_e > color_threshold`, as a
predicate on `(x, y)`. -/
def changedMask (d : ℕ → ℕ → α) (t : α) : ℕ → ℕ → Bool :=
  fun x y => decide (t < d y x)

/-- The number of raw changed pixels, `int(np.sum(changed_pixels))`. -/
def totalChanged (d : ℕ → ℕ → α) (t : α) (W H : ℕ) : ℕ :=
  ((Finset.range W ×ˢ Finset.range H).filter (fun p => t < d p.2 p.1)).card

/-- The surviving 4-connected pixel components, in discovery order. -/
def pixelComponents (d : ℕ → ℕ → α) (t : α) (min_region_size W H : ℕ) :
    List (List (ℕ × ℕ)) :=
  scanCells (changedMask d t) W H min_region_size (rowMajor W H) ∅

/-- The pixel-strategy regions in discovery order, before the final sort. -/
def pixelDiscovery (d : ℕ → ℕ → α) (t : α) (min_region_size W H : ℕ) :
    List (EditRegion α) :=
  (pixelComponents d t min_region_size W H).map
    (fun l => _compute_region_from_pixels l d)

/-- `_detect_pixel_based(delta_e, color_threshold, min_region_size)`; the
grid dimensions `W H` stand for `delta_e.shape`. -/
def _detect_pixel_based (d : ℕ → ℕ → α) (color_threshold : α)
    (min_region_size W H : ℕ) : EditDetectionResult α :=
  let total_pixels := W * H
  let total_changed_pixels := totalChanged d color_threshold W H
  { regions := sortDesc (fun r => r.significance)
      (pixelDiscovery d color_threshold min_region_size W H)
    total_changed_pixels := total_changed_pixels
    percent_changed := ((total_changed_pixels : α) / (total_pixels : α)) * 100
    image_width := W
    image_height := H }

/-! ### Block strategy -/

/-- The pixels of grid block `(bx, by)` (edge blocks clipped to the
image). -/
def blockPixels (block_size W H bx b_y : ℕ) : Finset (ℕ × ℕ) :=
  Finset.Ico (bx * block_size) (min (bx * block_size + block_size) W) ×ˢ
    Finset.Ico (b_y * block_size) (min (b_y * block_size + block_size) H)

/-- The per-block statistics record built by `_detect_block_based`
(the dict with keys `changed`, `changed_pixel_count`, `total_color_diff`,
`max_color_diff`). -/
structure BlockStats (α : Type) where
  changed : Bool
  changed_pixel_count : ℕ
  total_color_diff : α
  max_color_diff : α

/-- The statistics of one block: count, difference sum and maximum over
its changed pixels, and the density test `density >= min_block_density`. -/
def blockStat (d : ℕ → ℕ → α) (t : α) (min_block_density : α)
    (block_size W H bx b_y : ℕ) : BlockStats α :=
  let px := blockPixels block_size W H bx b_y
  let ch := px.filter (fun p => t < d p.2 p.1)
  let density : α := (ch.card : α) / (px.card : α)
  { changed := decide (min_block_density ≤ density)
    changed_pixel_count := ch.card
    total_color_diff := ∑ p ∈ ch, d p.2 p.1
    max_color_diff := if h : ch.Nonempty then ch.sup' h (fun p => d p.2 p.1) else 0 }

/-- `math.ceil(width / block_size)`. -/
def ceilDiv (w block_size : ℕ) : ℕ := (w + block_size - 1) / block_size

/-- `_compute_region_from_blocks(blocks, block_size, block_stats,
blocks_x, image_width, image_height)`; `stat` looks a block's record up. -/
def _compute_region_from_blocks (blocks : List (ℕ × ℕ)) (block_size : ℕ)
    (stat : ℕ → ℕ → BlockStats α) (image_width image_height : ℕ) : EditRegion α :=
  let min_bx := listMin (blocks.map (fun b => b.1))
  let max_bx := listMax (blocks.map (fun b => b.1))
  let min_by := listMin (blocks.map (fun b => b.2))
  let max_by := listMax (blocks.map (fun b => b.2))
  let total_color_diff : α := (blocks.map (fun b => (stat b.1 b.2).total_color_diff)).sum
  let total_changed_pixels := (blocks.map (fun b => (stat b.1 b.2).changed_pixel_count)).sum
  let max_color_diff : α := foldMax 0 (blocks.map (fun b => (stat b.1 b.2).max_color_diff))
  let x := min_bx * block_size
  let y := min_by * block_size
  let right_edge := min ((max_bx + 1) * block_size) image_width
  let bottom_edge := min ((max_by + 1) * block_size) image_height
  let width := right_edge - x
  let height := bottom_edge - y
  let avg_color_diff : α :=
    if 0 < total_changed_pixels then total_color_diff / (total_changed_pixels : α) else 0
  let area := width * height
  { x := x
    y := y
    width := width
    height := height
    center_x := pyRound ((x : α) + (width : α) / 2)
    center_y := pyRound ((y : α) + (height : α) / 2)
    pixel_count := total_changed_pixels
    avg_color_diff := round1 avg_color_diff
    max_color_diff := round1 max_color_diff
    significance := _compute_significance area avg_color_diff total_changed_pixels }

/-- The block-level changed mask, as a predicate on `(bx, by)`. -/
def blockChangedMask (d : ℕ → ℕ → α) (t min_block_density : α)
    (block_size W H : ℕ) : ℕ → ℕ → Bool :=
  fun bx b_y => (blockStat d t min_block_density block_size W H bx b_y).changed

/-- The surviving clusters of changed blocks, in discovery order. -/
def blockComponents (d : ℕ → ℕ → α) (t min_block_density : α)
    (block_size min_block_count W H : ℕ) : List (List (ℕ × ℕ)) :=
  let blocks_x := ceilDiv W block_size
  let blocks_y := ceilDiv H block_size
  scanCells (blockChangedMask d t min_block_density block_size W H)
    blocks_x blocks_y min_block_count (rowMajor blocks_x blocks_y) ∅

/-- The block-strategy regions in discovery order, before the final sort. -/
def blockDiscovery (d : ℕ → ℕ → α) (t min_block_density : α)
    (block_size min_block_count W H : ℕ) : List (EditRegion α) :=
  (blockComponents d t min_block_density block_size min_block_count W H).map
    (fun bl => _compute_region_from_blocks bl block_size
      (fun bx b_y => blockStat d t min_block_density block_size W H bx b_y) W H)

/-- `_detect_block_based(delta_e, color_threshold, block_size,
min_block_density, min_block_count)`. -/
def _detect_block_based (d : ℕ → ℕ → α) (color_threshold : α) (block_size : ℕ)
    (min_block_density : α) (min_block_count W H : ℕ) : EditDetectionResult α :=
  let total_pixels := W * H
  let total_changed_pixels := totalChanged d color_threshold W H
  { regions := sortDesc (fun r => r.significance)
      (blockDiscovery d color_threshold min_block_density block_size min_block_count W H)
    total_changed_pixels := total_changed_pixels
    percent_changed := ((total_changed_pixels : α) / (total_pixels : α)) * 100
    image_width := W
    image_height := H }

end Detector

/-! ## The pipeline `detect_edit_regions` -/

/-- A numpy array of unsigned bytes: an explicit shape plus total data
(row, column, channel). -/
structure NdImage where
  shape : List ℕ
  data : ℕ → ℕ → ℕ → ℕ

/-- The Python exceptions the pipeline can raise. -/
inductive PyError where
  | valueError (msg : String)
  | indexError
  deriving DecidableEq

/-- The message of the shape-validation `ValueError`, naming the offending
shape as the f-string renders it. -/
def expectedRgbMsg (shape : List ℕ) : String :=
  "Expected RGB image with shape (H, W, 3), got " ++ pyTupleRepr shape

/-- The resize step of `detect_edit_regions`: when `original.shape[:2] !=
edited.shape[:2]`, resample the edited image to
`(original.shape[1], original.shape[0])`.  The PIL Lanczos resampler is
the `resample` parameter; accessing `shape[1]`/`shape[0]` of a
short shape raises `IndexError` as in Python. -/
def resizeIfNeeded (resample : NdImage → ℕ → ℕ → NdImage)
    (original edited : NdImage) : Except PyError NdImage :=
  if original.shape.take 2 ≠ edited.shape.take 2 then
    match original.shape.get? 1, original.shape.get? 0 with
    | some w, some h => Except.ok (resample edited w h)
    | _, _ => Except.error PyError.indexError
  else Except.ok edited

/-- Whether a shape passes the source's validation
`len(original.shape) == 3 and original.shape[2] >= 3`. -/
def shapeOk (shape : List ℕ) : Prop :=
  shape.length = 3 ∧ 3 ≤ shape.getD 2 0

instance (shape : List ℕ) : Decidable (shapeOk shape) := by
  unfold shapeOk; infer_instance

section Pipeline

variable {α : Type} [LinearOrderedField α] [FloorRing α]

/-- `detect_edit_regions(original, edited, options)`.  The colour-science
kernel `compute_delta_e` computes irrational cube roots, so it enters as
the `deltaFn` parameter (its output shape equals the original's, which is
what the claims about this function use); `resample` stands for PIL's
Lanczos resize.  Mirrors the source's order: resize first, then shape
validation (of the original only), then the chosen strategy on the
difference field. -/
def detect_edit_regions
    (deltaFn : (ℕ → ℕ → ℕ → ℕ) → (ℕ → ℕ → ℕ → ℕ) → ℕ → ℕ → α)
    (resample : NdImage → ℕ → ℕ → NdImage)
    (original edited : NdImage) (options : EditDetectionOptions α) :
    Except PyError (EditDetectionResult α) :=
  match resizeIfNeeded resample original edited with
  | Except.error e => Except.error e
  | Except.ok edited2 =>
    if shapeOk original.shape then
      let height := original.shape.getD 0 0
      let width := original.shape.getD 1 0
      let delta := deltaFn original.data edited2.data
      if options.use_block_comparison then
        Except.ok (_detect_block_based delta options.color_threshold
          options.block_size options.min_block_density options.min_block_count
          width height)
      else
        Except.ok (_detect_pixel_based delta options.color_threshold
          options.min_region_size width height)
    else Except.error (PyError.valueError (expectedRgbMsg original.shape))

/-! ## `format_edit_regions_for_prompt` -/

/-- The fixed sentence returned for an empty region list. -/
def noChangesSentinel : String :=
  "DETECTED EDIT LOCATIONS: No significant changes detected between images."

/-- One numbered region line of the report. -/
def regionLine (i : ℕ) (r : EditRegion α) : String :=
  "  " ++ toString i ++ ". Region from (" ++ toString r.x ++ ", " ++ toString r.y ++
  ") to (" ++ toString (r.x + r.width - 1) ++ ", " ++ toString (r.y + r.height - 1) ++
  "), center: (" ++ toString r.center_x ++ ", " ++ toString r.center_y ++
  "), size: " ++ toString r.width ++ "x" ++ toString r.height ++
  ", " ++ toString r.pixel_count ++ " pixels changed, intensity: avg=" ++
  fmt1 r.avg_color_diff ++ ", max=" ++ fmt1 r.max_color_diff ++
  ", significance: " ++ toString r.significance ++ "/100"

/-- The numbered region lines, starting from index `i` (Python's
`enumerate(result.regions, 1)`). -/
def regionLines (i : ℕ) : List (EditRegion α) → List String
  | [] => []
  | r :: rest => regionLine i r :: regionLines (i + 1) rest

/-- The trailing totals line. -/
def totalsLine (result : EditDetectionResult α) : String :=
  "Total: " ++ toString result.total_changed_pixels ++ " pixels changed (" ++
  fmt1 result.percent_changed ++ "% of image)"

/-- The trailing dimensions line. -/
def dimensionsLine (result : EditDetectionResult α) : String :=
  "Image dimensions: " ++ toString result.image_width ++ "x" ++
  toString result.image_height

/-- `format_edit_regions_for_prompt(result)`: the sentinel for an empty
region list, otherwise a header, `chr(10).join` of the numbered region
lines, a blank line and the totals block (the source's triple-quoted
f-string, written as explicit concatenation with `"\n"`). -/
def format_edit_regions_for_prompt (result : EditDetectionResult α) : String :=
  if result.regions.isEmpty then noChangesSentinel
  else
    "DETECTED EDIT LOCATIONS (sorted by significance):" ++ "\n" ++
    pyJoin "\n" (regionLines 1 result.regions) ++ "\n" ++ "\n" ++
    totalsLine result ++ "\n" ++ dimensionsLine result

end Pipeline

/-! ## The LPIPS pipeline (`image_compare_lpips.py`)

The LPIPS network, scipy's `griddata` interpolation and cv2's
morphology/contour routines are external numeric kernels; they enter as
explicit parameters (`score`, `interpN`/`interpC`, `CvOps`), and the
control flow around them is translated from the source. -/

namespace Lpips

/-- `EditRegionPolygon`. -/
structure PolyRegion (α : Type) where
  polygon : List (ℤ × ℤ)
  bounding_box : ℤ × ℤ × ℕ × ℕ
  center : ℤ × ℤ
  area : ℤ
  significance : α

/-- `LPIPSDetectionResult`. -/
structure LPIPSDetectionResult (α : Type) where
  regions : List (PolyRegion α)
  total_changed_area : ℤ
  percent_changed : α
  image_width : ℕ
  image_height : ℕ

/-- `LPIPSDetectionOptions`, with the source's defaults. -/
structure LPIPSDetectionOptions (α : Type) [LinearOrderedField α] where
  threshold : α := 1/10
  min_area : ℕ := 100
  patch_size : ℕ := 64
  stride : ℕ := 32
  morphology_kernel_size : ℕ := 5

/-- The cv2 routines `detect_edit_regions_lpips` calls, over an abstract
contour type `C`: `morphologyEx` (open/close), `findContours`
(external contours of a binary mask), `contourArea`, `arcLength`,
`approxPolyDP`, `boundingRect`, `moments` (`m00`, `m10`, `m01`) and the
filled-contour mask `drawContours(..., -1, 1, -1)` produces. -/
structure CvOps (α : Type) (C : Type) where
  morphOpen : (ℕ → ℕ → Bool) → ℕ → ℕ → ℕ → (ℕ → ℕ → Bool)
  morphClose : (ℕ → ℕ → Bool) → ℕ → ℕ → ℕ → (ℕ → ℕ → Bool)
  findContours : (ℕ → ℕ → Bool) → ℕ → ℕ → List C
  contourArea : C → α
  arcLength : C → α
  approxPolyDP : C → α → List (ℤ × ℤ)
  boundingRect : C → ℤ × ℤ × ℕ × ℕ
  moments : C → α × α × α
  fillMask : C → ℕ → ℕ → Bool

section LpipsDefs

variable {α : Type} [LinearOrderedField α] [FloorRing α] {C : Type}

/-- The torch normalisation `img / 127.5 - 1` (127.5 = 255/2). -/
def normImg (img : ℕ → ℕ → ℕ → ℕ) : ℕ → ℕ → ℕ → α :=
  fun yy xx c => (img yy xx c : α) / (255 / 2) - 1

/-- The patch window at offset `(y, x)` of a normalised image. -/
def patchAt (img : ℕ → ℕ → ℕ → α) (yy xx : ℕ) : ℕ → ℕ → ℕ → α :=
  fun dy dx c => img (yy + dy) (xx + dx) c

/-- Python's `range(0, stop, step)` (empty when `stop` would be `≤ 0`;
callers pass the already-truncated natural `stop`). -/
def rangeStep (stop step : ℕ) : List ℕ :=
  (List.range (ceilDiv stop step)).map (fun i => i * step)

/-- `compute_lpips_heatmap(original, edited, patch_size, stride)`:
raise the patch size to the fixed floor `MIN_PATCH_SIZE = 64` (adjusting
the stride), return an all-zero heatmap when either image dimension is
below the floor or no patch fits; fill uniformly from a single sample;
otherwise interpolate the sparse `(patch centre, score)` samples with
nearest-neighbour (2–3 samples) or cubic (≥ 4 samples) interpolation. -/
def compute_lpips_heatmap
    (score : (ℕ → ℕ → ℕ → α) → (ℕ → ℕ → ℕ → α) → α)
    (interpN interpC : List ((ℕ × ℕ) × α) → ℕ → ℕ → (ℕ → ℕ → α))
    (original edited : ℕ → ℕ → ℕ → ℕ) (H W patch_size stride : ℕ) :
    ℕ → ℕ → α :=
  let ps := if patch_size < 64 then 64 else patch_size
  let st := if patch_size < 64 then max stride (ps / 2) else stride
  if H < 64 ∨ W < 64 then fun _ _ => 0
  else
    let samples := (rangeStep (H + 1 - ps) st).flatMap (fun yy =>
      (rangeStep (W + 1 - ps) st).map (fun xx =>
        ((xx + ps / 2, yy + ps / 2),
         score (patchAt (normImg original) yy xx) (patchAt (normImg edited) yy xx))))
    if samples.length = 0 then fun _ _ => 0
    else if samples.length = 1 then fun _ _ => (samples.headD ((0, 0), 0)).2
    else if samples.length < 4 then interpN samples H W
    else interpC samples H W

/-- The cells of the `H × W` grid (as `(row, column)`) a binary mask
selects, modelling `heatmap[mask == 1]`. -/
def maskMembers (m : ℕ → ℕ → Bool) (H W : ℕ) : Finset (ℕ × ℕ) :=
  (Finset.range H ×ˢ Finset.range W).filter (fun p => m p.1 p.2 = true)

/-- The per-contour loop of `detect_edit_regions_lpips`: drop contours
below `min_area`, simplify with `epsilon = 0.02 * arcLength`, take the
bounding box, the moments centroid (falling back to the bounding-box
centre when `m00` is not positive), and score the region as
`100 × mean(heatmap inside the filled contour)` (0 for an empty mask). -/
def lpipsRawRegions (cv : CvOps α C) (heatmap : ℕ → ℕ → α)
    (min_area H W : ℕ) (contours : List C) : List (PolyRegion α) :=
  contours.filterMap (fun c =>
    if cv.contourArea c < (min_area : α) then none
    else
      let epsilon := (1/50 : α) * cv.arcLength c
      let approx := cv.approxPolyDP c epsilon
      let bb := cv.boundingRect c
      let m := cv.moments c
      let center : ℤ × ℤ :=
        if 0 < m.1 then (pyTrunc (m.2.1 / m.1), pyTrunc (m.2.2 / m.1))
        else (bb.1 + ((bb.2.2.1 / 2 : ℕ) : ℤ), bb.2.1 + ((bb.2.2.2 / 2 : ℕ) : ℤ))
      let members := maskMembers (cv.fillMask c) H W
      let significance : α :=
        if 0 < members.card then
          ((∑ p ∈ members, heatmap p.1 p.2) / (members.card : α)) * 100
        else 0
      some { polygon := approx
             bounding_box := bb
             center := center
             area := pyTrunc (cv.contourArea c)
             significance := significance })

/-- `detect_edit_regions_lpips(original, edited, options)`: resize,
validate the original's shape, build the heatmap, threshold it, clean the
binary mask with morphological opening then closing, extract external
contours, build the polygon regions, and sort by descending
significance. -/
def detect_edit_regions_lpips (cv : CvOps α C)
    (resample : NdImage → ℕ → ℕ → NdImage)
    (score : (ℕ → ℕ → ℕ → α) → (ℕ → ℕ → ℕ → α) → α)
    (interpN interpC : List ((ℕ × ℕ) × α) → ℕ → ℕ → (ℕ → ℕ → α))
    (original edited : NdImage) (options : LPIPSDetectionOptions α) :
    Except PyError (LPIPSDetectionResult α) :=
  match resizeIfNeeded resample original edited with
  | Except.error e => Except.error e
  | Except.ok edited2 =>
    if shapeOk original.shape then
      let height := original.shape.getD 0 0
      let width := original.shape.getD 1 0
      let heatmap := compute_lpips_heatmap score interpN interpC
        original.data edited2.data height width options.patch_size options.stride
      let binary : ℕ → ℕ → Bool := fun yy xx => decide (options.threshold < heatmap yy xx)
      let cleaned := cv.morphClose
        (cv.morphOpen binary options.morphology_kernel_size height width)
        options.morphology_kernel_size height width
      let contours := cv.findContours cleaned height width
      let sorted := sortDesc (fun r => r.significance)
        (lpipsRawRegions cv heatmap options.min_area height width contours)
      let total_area : ℤ := (sorted.map (fun r => r.area)).sum
      let percent : α :=
        if 0 < height * width then
          ((total_area : α) / ((height * width : ℕ) : α)) * 100
        else 0
      Except.ok { regions := sorted
                  total_changed_area := total_area
                  percent_changed := percent
                  image_width := width
                  image_height := height }
    else Except.error (PyError.valueError (expectedRgbMsg original.shape))

/-- The raw (discovery-order) region list of `detect_edit_regions_lpips`,
before the final sort: the contour loop applied to the run's heatmap and
cleaned mask, for the already-resized edited image `ed2`. -/
def lpipsDiscovery (cv : CvOps α C)
    (score : (ℕ → ℕ → ℕ → α) → (ℕ → ℕ → ℕ → α) → α)
    (interpN interpC : List ((ℕ × ℕ) × α) → ℕ → ℕ → (ℕ → ℕ → α))
    (original ed2 : NdImage) (options : LPIPSDetectionOptions α) :
    List (PolyRegion α) :=
  lpipsRawRegions cv
    (compute_lpips_heatmap score interpN interpC original.data ed2.data
      (original.shape.getD 0 0) (original.shape.getD 1 0)
      options.patch_size options.stride)
    options.min_area (original.shape.getD 0 0) (original.shape.getD 1 0)
    (cv.findContours
      (cv.morphClose
        (cv.morphOpen
          (fun yy xx => decide (options.threshold <
            compute_lpips_heatmap score interpN interpC original.data ed2.data
              (original.shape.getD 0 0) (original.shape.getD 1 0)
              options.patch_size options.stride yy xx))
          options.morphology_kernel_size
          (original.shape.getD 0 0) (original.shape.getD 1 0))
        options.morphology_kernel_size
        (original.shape.getD 0 0) (original.shape.getD 1 0))
      (original.shape.getD 0 0) (original.shape.getD 1 0))

/-- One numbered region line of the LPIPS report. -/
def regionLine (i : ℕ) (r : PolyRegion α) : String :=
  "  " ++ toString i ++ ". Region centered at (" ++ toString r.center.1 ++ ", " ++
  toString r.center.2 ++ "), bounding box from (" ++ toString r.bounding_box.1 ++
  ", " ++ toString r.bounding_box.2.1 ++ ") to (" ++
  toString (r.bounding_box.1 + r.bounding_box.2.2.1 - 1) ++ ", " ++
  toString (r.bounding_box.2.1 + r.bounding_box.2.2.2 - 1) ++
  "), size: " ++ toString r.bounding_box.2.2.1 ++ "x" ++
  toString r.bounding_box.2.2.2 ++ ", area: " ++ toString r.area ++
  "px, significance: " ++ fmt1 r.significance ++ "/100"

/-- The numbered LPIPS region lines starting from index `i`. -/
def regionLines (i : ℕ) : List (PolyRegion α) → List String
  | [] => []
  | r :: rest => regionLine i r :: regionLines (i + 1) rest

/-- The trailing totals line of the LPIPS report. -/
def totalsLine (result : LPIPSDetectionResult α) : String :=
  "Total changed area: " ++ toString result.total_changed_area ++ "px (" ++
  fmt1 result.percent_changed ++ "% of image)"

/-- The trailing dimensions line of the LPIPS report. -/
def dimensionsLine (result : LPIPSDetectionResult α) : String :=
  "Image dimensions: " ++ toString result.image_width ++ "x" ++
  toString result.image_height

/-- `format_edit_regions_for_prompt(result)` of `image_compare_lpips.py`. -/
def format_edit_regions_for_prompt (result : LPIPSDetectionResult α) : String :=
  if result.regions.isEmpty then noChangesSentinel
  else
    "DETECTED EDIT LOCATIONS (by perceptual difference, sorted by significance):" ++
    "\n" ++ pyJoin "\n" (regionLines 1 result.regions) ++ "\n" ++ "\n" ++
    totalsLine result ++ "\n" ++ dimensionsLine result

end LpipsDefs

end Lpips

/-! ## Spec-side definitions

These definitions transcribe formulas and predicates from the
specification's words (not from the source), for comparison with the
embedded code. -/

section SpecSide

variable {α : Type} [LinearOrderedField α] [FloorRing α]

/-- The significance formula exactly as the specification states it:
`100 × (0.4×min(area/10000,1) + 0.4×min(avg_diff/100,1) +
0.2×(pixel_count/area))`, rounded to the nearest integer — note the inner
clamp on the intensity term and the absence of an outer clamp. -/
def specSignificanceClaimed (area : ℕ) (avg_diff : α) (pixel_count : ℕ) : ℤ :=
  pyRound ((min ((area : α) / 10000) 1 * (2/5) + min (avg_diff / 100) 1 * (2/5) +
    ((pixel_count : α) / (area : α)) * (1/5)) * 100)

/-- The amended significance formula (what the code computes, for a region
of positive area): `100 × (0.4×min(area/10000,1) + 0.4×(avg_diff/100) +
0.2×(pixel_count/area))` — intensity unclamped — with the total clamped at
100 before rounding. -/
def specSignificanceAmended (area : ℕ) (avg_diff : α) (pixel_count : ℕ) : ℤ :=
  pyRound (min ((min ((area : α) / 10000) 1 * (2/5) + (avg_diff / 100) * (2/5) +
    ((pixel_count : α) / (area : α)) * (1/5)) * 100) 100)

/-- A malformed input shape in the claim's sense: not a 3-dimensional
colour array with 3 or 4 channels. -/
def specMalformedShape (shape : List ℕ) : Prop :=
  ¬ (shape.length = 3 ∧ (shape.getD 2 0 = 3 ∨ shape.getD 2 0 = 4))

instance (shape : List ℕ) : Decidable (specMalformedShape shape) := by
  unfold specMalformedShape; infer_instance

/-- The member pixels of a block cluster: the changed pixels of its member
blocks (the pixels whose statistics the cluster aggregates). -/
def clusterPixels (d : ℕ → ℕ → α) (t : α) (block_size W H : ℕ)
    (blocks : List (ℕ × ℕ)) : Finset (ℕ × ℕ) :=
  blocks.toFinset.biUnion (fun b =>
    (blockPixels block_size W H b.1 b.2).filter (fun p => t < d p.2 p.1))

/-- A concrete instantiation of the cv2 routines describing their
behaviour on the all-true 64×64 mask (one external contour tracing the
image border, area `63 × 63`, filled mask covering the whole image), used
to exhibit an unclamped perceptual significance. -/
def cvFull : Lpips.CvOps ℚ Unit :=
  { morphOpen := fun m _ _ _ => m
    morphClose := fun m _ _ _ => m
    findContours := fun _ _ _ => [()]
    contourArea := fun _ => 3969
    arcLength := fun _ => 252
    approxPolyDP := fun _ _ => [(0, 0), (63, 0), (63, 63), (0, 63)]
    boundingRect := fun _ => (0, 0, 64, 64)
    moments := fun _ => (3969, 124953, 124953)
    fillMask := fun _ _ _ => true }

/-- A concrete instantiation of the cv2 routines on which every mask has
no contours (as cv2 behaves on an all-zero mask). -/
def cvEmpty : Lpips.CvOps ℚ Unit :=
  { morphOpen := fun m _ _ _ => m
    morphClose := fun m _ _ _ => m
    findContours := fun _ _ _ => []
    contourArea := fun _ => 0
    arcLength := fun _ => 0
    approxPolyDP := fun _ _ => []
    boundingRect := fun _ => (0, 0, 0, 0)
    moments := fun _ => (0, 0, 0)
    fillMask := fun _ _ _ => false }

/-- A resampler stand-in that returns an image of the requested
dimensions (the only property of PIL's Lanczos resize the claims use). -/
def resampleStub (img : NdImage) (w h : ℕ) : NdImage :=
  { shape := [h, w, 3], data := img.data }

/-- A 2×2 difference field with a single changed pixel at the origin:
below every useful minimum region size, so it filters to no regions while
the raw changed-pixel count is 1. -/
def c10Field : ℕ → ℕ → ℚ := fun y x => if y = 0 ∧ x = 0 then 50 else 0

/-- A 100×100 mask difference field holding two 10×10 changed squares far
apart (the spec's two-disjoint-squares scenario). -/
def twoSquaresField : ℕ → ℕ → ℚ := fun y x =>
  if (10 ≤ x ∧ x < 20 ∧ 10 ≤ y ∧ y < 20) ∨ (60 ≤ x ∧ x < 70 ∧ 60 ≤ y ∧ y < 70)
  then 50 else 0

/-- A 100×100 difference field holding one L-shaped 4-connected changed
set: a 3-wide vertical bar and a 10-wide horizontal bar sharing a corner
(the spec's L-shape scenario). -/
def lShapeField : ℕ → ℕ → ℚ := fun y x =>
  if (10 ≤ x ∧ x < 13 ∧ 10 ≤ y ∧ y < 20) ∨ (10 ≤ x ∧ x < 20 ∧ 17 ≤ y ∧ y < 20)
  then 50 else 0

/-- A 64×64 all-black image (at the LPIPS minimum patch floor). -/
def img64 : NdImage := { shape := [64, 64, 3], data := fun _ _ _ => 0 }

/-- A 10×10 5-channel array: malformed in the specification's sense
(neither 3 nor 4 channels), yet accepted by the code's validation. -/
def img5 : NdImage := { shape := [10, 10, 5], data := fun _ _ _ => 0 }

/-- A small 10×10 RGB image (below the LPIPS minimum patch floor). -/
def img10 : NdImage := { shape := [10, 10, 3], data := fun _ _ _ => 0 }

/-- The first stamped square of the spec's two-squares scenario, as a set
of `(x, y)` pixels. -/
def square1 : Finset (ℕ × ℕ) := Finset.Icc 10 19 ×ˢ Finset.Icc 10 19

/-- The second stamped square of the two-squares scenario. -/
def square2 : Finset (ℕ × ℕ) := Finset.Icc 60 69 ×ˢ Finset.Icc 60 69

/-- The L-shaped pixel set of the L-shape scenario: a 3-wide vertical bar
and a 10-wide horizontal bar sharing their corner. -/
def lSet : Finset (ℕ × ℕ) :=
  Finset.Icc 10 12 ×ˢ Finset.Icc 10 19 ∪ Finset.Icc 10 19 ×ˢ Finset.Icc 17 19

/-- The 30×30 stamped square of the gray-vs-white scenario: pixels with
`x, y ∈ [20, 49]`. -/
def c4Square : Finset (ℕ × ℕ) := Finset.Icc 20 49 ×ˢ Finset.Icc 20 49

/-- The colour-difference field of the gray-vs-white scenario: the
gray-vs-white Delta-E `D` inside the stamped square, 0 (the Delta-E of
identical pixels) outside. -/
def c4Field (D : α) : ℕ → ℕ → α := fun y x =>
  if 20 ≤ x ∧ x < 50 ∧ 20 ≤ y ∧ y < 50 then D else 0

end SpecSide

/-! # Theorems -/

/-! ## Rounding and folding lemmas -/

section RoundLemmas

variable {α : Type} [LinearOrderedField α] [FloorRing α]

theorem pyRound_nonneg {x : α} (hx : 0 ≤ x) : 0 ≤ pyRound x := by
  unfold pyRound
  have h0 : (0 : ℤ) ≤ ⌊x⌋ := Int.le_floor.mpr (by simpa using hx)
  split
  · exact h0
  · split
    · omega
    · split <;> omega

theorem pyRound_le {x : α} {n : ℤ} (hx : x ≤ (n : α)) : pyRound x ≤ n := by
  unfold pyRound
  have hf : ⌊x⌋ ≤ n := by
    have := Int.floor_le_floor hx
    simpa using this
  have hstep : (1:α)/2 ≤ x - (⌊x⌋ : α) → ⌊x⌋ + 1 ≤ n := by
    intro h2
    have hlt : (⌊x⌋ : α) < x := by
      have h12 : (0:α) < 1/2 := by norm_num
      linarith
    have hn : ⌊x⌋ < n := by
      have := lt_of_lt_of_le hlt hx
      exact_mod_cast this
    omega
  split
  · exact hf
  · next hlt1 =>
    split
    · next hgt => exact hstep (le_of_lt hgt)
    · split
      · exact hf
      · exact hstep (le_of_not_lt hlt1)

theorem pyRound_intCast (n : ℤ) : pyRound (n : α) = n := by
  unfold pyRound
  rw [Int.floor_intCast]
  norm_num

theorem pyRound_eq_low {x : α} {n : ℤ} (h1 : (n : α) ≤ x) (h2 : x < (n : α) + 1/2) :
    pyRound x = n := by
  have hfl : ⌊x⌋ = n := Int.floor_eq_iff.mpr ⟨h1, by linarith⟩
  unfold pyRound
  rw [hfl, if_pos (by linarith)]

theorem pyRound_eq_high {x : α} {n : ℤ} (h1 : (n : α) + 1/2 < x) (h2 : x < (n : α) + 1) :
    pyRound x = n + 1 := by
  have hfl : ⌊x⌋ = n := Int.floor_eq_iff.mpr ⟨by linarith, h2⟩
  unfold pyRound
  rw [hfl, if_neg (by push_neg; linarith), if_pos (by linarith)]

end RoundLemmas

/-! ## List minimum / maximum lemmas -/

theorem natMin_choice (a b : ℕ) : Nat.min a b = a ∨ Nat.min a b = b := by
  by_cases h : a ≤ b
  · left; exact Nat.min_eq_left h
  · right; exact Nat.min_eq_right (Nat.le_of_not_le h)

theorem natMax_choice (a b : ℕ) : Nat.max a b = a ∨ Nat.max a b = b := by
  by_cases h : a ≤ b
  · right; exact Nat.max_eq_right h
  · left; exact Nat.max_eq_left (Nat.le_of_not_le h)

theorem foldl_min_l1 : ∀ (l : List ℕ) (a : ℕ), l.foldl Nat.min a = a ∨ l.foldl Nat.min a ∈ l := by
  intro l
  induction l with
  | nil => intro a; left; rfl
  | cons b l ih =>
    intro a
    rcases ih (Nat.min a b) with h | h
    · rcases natMin_choice a b with hm | hm
      · left; rw [List.foldl_cons, h, hm]
      · right; rw [List.foldl_cons, h, hm]; exact List.mem_cons_self b l
    · right; exact List.mem_cons_of_mem b h

theorem foldl_min_le : ∀ (l : List ℕ) (a : ℕ), l.foldl Nat.min a ≤ a := by
  intro l
  induction l with
  | nil => intro a; exact le_refl a
  | cons b l ih =>
    intro a
    exact le_trans (ih (Nat.min a b)) (Nat.min_le_left a b)

theorem foldl_min_le_mem : ∀ (l : List ℕ) (a x : ℕ), x ∈ l → l.foldl Nat.min a ≤ x := by
  intro l
  induction l with
  | nil => intro a x hx; cases hx
  | cons b l ih =>
    intro a x hx
    rcases List.mem_cons.mp hx with rfl | hx
    · exact le_trans (foldl_min_le l (Nat.min a x)) (Nat.min_le_right a x)
    · exact ih (Nat.min a b) x hx

theorem listMin_mem {l : List ℕ} (h : l ≠ []) : listMin l ∈ l := by
  match l with
  | [] => exact absurd rfl h
  | a :: l =>
    rcases foldl_min_l1 l a with h1 | h1
    · simp [listMin, h1]
    · simp [listMin, h1]

theorem listMin_le {l : List ℕ} {x : ℕ} (hx : x ∈ l) : listMin l ≤ x := by
  match l with
  | [] => cases hx
  | a :: l =>
    rcases List.mem_cons.mp hx with rfl | hx
    · exact foldl_min_le l x
    · exact foldl_min_le_mem l a x hx

theorem foldl_max_l1 : ∀ (l : List ℕ) (a : ℕ), l.foldl Nat.max a = a ∨ l.foldl Nat.max a ∈ l := by
  intro l
  induction l with
  | nil => intro a; left; rfl
  | cons b l ih =>
    intro a
    rcases ih (Nat.max a b) with h | h
    · rcases natMax_choice a b with hm | hm
      · left; rw [List.foldl_cons, h, hm]
      · right; rw [List.foldl_cons, h, hm]; exact List.mem_cons_self b l
    · right; exact List.mem_cons_of_mem b h

theorem foldl_le_max : ∀ (l : List ℕ) (a : ℕ), a ≤ l.foldl Nat.max a := by
  intro l
  induction l with
  | nil => intro a; exact le_refl a
  | cons b l ih =>
    intro a
    exact le_trans (Nat.le_max_left a b) (ih (Nat.max a b))

theorem mem_le_foldl_max : ∀ (l : List ℕ) (a x : ℕ), x ∈ l → x ≤ l.foldl Nat.max a := by
  intro l
  induction l with
  | nil => intro a x hx; cases hx
  | cons b l ih =>
    intro a x hx
    rcases List.mem_cons.mp hx with rfl | hx
    · exact le_trans (Nat.le_max_right a x) (foldl_le_max l (Nat.max a x))
    · exact ih (Nat.max a b) x hx

theorem listMax_mem {l : List ℕ} (h : l ≠ []) : listMax l ∈ l := by
  match l with
  | [] => exact absurd rfl h
  | a :: l =>
    rcases foldl_max_l1 l a with h1 | h1
    · simp [listMax, h1]
    · simp [listMax, h1]

theorem le_listMax {l : List ℕ} {x : ℕ} (hx : x ∈ l) : x ≤ listMax l := by
  match l with
  | [] => cases hx
  | a :: l =>
    rcases List.mem_cons.mp hx with rfl | hx
    · exact foldl_le_max l x
    · exact mem_le_foldl_max l a x hx

theorem listMin_eq {l : List ℕ} {m : ℕ} (hmem : m ∈ l) (hlb : ∀ x ∈ l, m ≤ x) :
    listMin l = m := by
  have h1 : listMin l ≤ m := listMin_le hmem
  have h2 : m ≤ listMin l := hlb _ (listMin_mem (by rintro rfl; cases hmem))
  omega

theorem listMax_eq {l : List ℕ} {m : ℕ} (hmem : m ∈ l) (hub : ∀ x ∈ l, x ≤ m) :
    listMax l = m := by
  have h1 : m ≤ listMax l := le_listMax hmem
  have h2 : listMax l ≤ m := hub _ (listMax_mem (by rintro rfl; cases hmem))
  omega

/-! ## `pyJoin` lemmas -/

theorem pyJoin_cons {s a : String} {l : List String} (h : l ≠ []) :
    pyJoin s (a :: l) = a ++ s ++ pyJoin s l := by
  match l with
  | [] => exact absurd rfl h
  | b :: l => rfl

theorem pyJoin_append {s : String} {l1 l2 : List String} (h1 : l1 ≠ []) (h2 : l2 ≠ []) :
    pyJoin s (l1 ++ l2) = pyJoin s l1 ++ s ++ pyJoin s l2 := by
  induction l1 with
  | nil => exact absurd rfl h1
  | cons a l1 ih =>
    match l1 with
    | [] =>
      simp only [List.nil_append, List.cons_append]
      rw [pyJoin_cons h2]
      rfl
    | b :: l1 =>
      have hne : (b :: l1) ++ l2 ≠ [] := by simp
      rw [List.cons_append, pyJoin_cons hne, ih (by simp), pyJoin_cons (by simp : b :: l1 ≠ [])]
      simp [String.append_assoc]

/-! ## Stable descending sort lemmas -/

section SortLemmas

variable {β κ : Type} [LinearOrder κ] (key : β → κ)

theorem insertDesc_perm (r : β) (l : List β) : List.Perm (insertDesc key r l) (r :: l) := by
  induction l with
  | nil => exact List.Perm.refl [r]
  | cons s rest ih =>
    rw [insertDesc]
    split
    · exact (ih.cons s).trans (List.Perm.swap r s rest)
    · exact List.Perm.refl _

theorem insertDesc_mem {r b : β} {l : List β} :
    b ∈ insertDesc key r l ↔ b = r ∨ b ∈ l := by
  rw [(insertDesc_perm key r l).mem_iff]
  simp

theorem insertDesc_sorted {r : β} {l : List β}
    (hl : List.Pairwise (fun a b => key b ≤ key a) l) :
    List.Pairwise (fun a b => key b ≤ key a) (insertDesc key r l) := by
  induction l with
  | nil => simp [insertDesc]
  | cons s rest ih =>
    rw [insertDesc]
    rcases List.pairwise_cons.mp hl with ⟨hs, hrest⟩
    split
    · next hle =>
      refine List.pairwise_cons.mpr ⟨?_, ih hrest⟩
      intro b hb
      rcases (insertDesc_mem key).mp hb with rfl | hb
      · exact hle
      · exact hs b hb
    · next hgt =>
      refine List.pairwise_cons.mpr ⟨?_, hl⟩
      intro b hb
      rcases List.mem_cons.mp hb with rfl | hb
      · exact le_of_lt (lt_of_not_le hgt)
      · exact le_trans (hs b hb) (le_of_lt (lt_of_not_le hgt))

theorem sortDesc_perm (l : List β) : List.Perm (sortDesc key l) l := by
  suffices h : ∀ (l acc : List β),
      List.Perm (l.foldl (fun acc r => insertDesc key r acc) acc) (acc ++ l) by
    simpa using h l []
  intro l
  induction l with
  | nil => intro acc; simp
  | cons r rest ih =>
    intro acc
    have h1 : List.Perm (rest.foldl (fun acc r => insertDesc key r acc) (insertDesc key r acc))
        (insertDesc key r acc ++ rest) := ih _
    have h2 : List.Perm (insertDesc key r acc ++ rest) ((r :: acc) ++ rest) :=
      (insertDesc_perm key r acc).append_right rest
    have h3 : List.Perm (acc ++ r :: rest) (r :: (acc ++ rest)) := List.perm_middle
    exact (h1.trans h2).trans h3.symm

theorem sortDesc_sorted (l : List β) :
    List.Pairwise (fun a b => key b ≤ key a) (sortDesc key l) := by
  suffices h : ∀ (l acc : List β), List.Pairwise (fun a b => key b ≤ key a) acc →
      List.Pairwise (fun a b => key b ≤ key a)
        (l.foldl (fun acc r => insertDesc key r acc) acc) by
    exact h l [] (by simp)
  intro l
  induction l with
  | nil => intro acc h; exact h
  | cons r rest ih =>
    intro acc h
    exact ih _ (insertDesc_sorted key h)

theorem filter_eq_nil_of_keys_ne {k : κ} {l : List β} (h : ∀ b ∈ l, key b ≠ k) :
    l.filter (fun r => decide (key r = k)) = [] := by
  rw [List.filter_eq_nil_iff]
  intro b hb
  simpa using h b hb

theorem insertDesc_filter {k : κ} {r : β} {l : List β}
    (hl : List.Pairwise (fun a b => key b ≤ key a) l) :
    (insertDesc key r l).filter (fun s => decide (key s = k)) =
      if key r = k then l.filter (fun s => decide (key s = k)) ++ [r]
      else l.filter (fun s => decide (key s = k)) := by
  induction l with
  | nil =>
    by_cases hk : key r = k <;> simp [insertDesc, hk]
  | cons s rest ih =>
    rcases List.pairwise_cons.mp hl with ⟨hs, hrest⟩
    rw [insertDesc]
    split
    · next hle =>
      by_cases hsk : key s = k <;> by_cases hrk : key r = k <;>
        simp [List.filter_cons, hsk, hrk, ih hrest]
    · next hgt =>
      have hlt : key s < key r := lt_of_not_le hgt
      by_cases hrk : key r = k
      · have hnil : (s :: rest).filter (fun t => decide (key t = k)) = [] := by
          refine filter_eq_nil_of_keys_ne key ?_
          intro b hb
          rcases List.mem_cons.mp hb with rfl | hb
          · exact ne_of_lt (hrk ▸ hlt)
          · exact ne_of_lt (hrk ▸ lt_of_le_of_lt (hs b hb) hlt)
        simp [List.filter_cons, hrk, hnil]
      · simp [List.filter_cons, hrk]

theorem sortDesc_stable (l : List β) (k : κ) :
    (sortDesc key l).filter (fun r => decide (key r = k)) =
      l.filter (fun r => decide (key r = k)) := by
  suffices h : ∀ (l acc : List β), List.Pairwise (fun a b => key b ≤ key a) acc →
      (l.foldl (fun acc r => insertDesc key r acc) acc).filter (fun r => decide (key r = k)) =
        acc.filter (fun r => decide (key r = k)) ++ l.filter (fun r => decide (key r = k)) by
    simpa using h l [] (by simp)
  intro l
  induction l with
  | nil => intro acc h; simp
  | cons r rest ih =>
    intro acc h
    rw [List.foldl_cons, ih _ (insertDesc_sorted key h), insertDesc_filter key h]
    by_cases hrk : key r = k <;> simp [List.filter_cons, hrk]

end SortLemmas

/-! ## Reachability lemmas -/

section GridLemmas

variable {changed : ℕ → ℕ → Bool} {W H : ℕ}

theorem Adj_symm {p q : ℕ × ℕ} (h : Adj p q) : Adj q p := by
  unfold Adj at h ⊢
  tauto

theorem RA_isCell_right {V : Finset (ℕ × ℕ)} {s q : ℕ × ℕ}
    (h : RA changed W H V s q) : IsCell changed W H q ∧ q ∉ V := by
  obtain ⟨hrtg, hs, hsV⟩ := h
  rcases Relation.ReflTransGen.cases_tail hrtg with heq | ⟨c, _, hstep⟩
  · rw [heq]; exact ⟨hs, hsV⟩
  · exact ⟨hstep.2.2.1, hstep.2.2.2.1⟩

theorem RA_refl {V : Finset (ℕ × ℕ)} {s : ℕ × ℕ}
    (hc : IsCell changed W H s) (hV : s ∉ V) : RA changed W H V s s :=
  ⟨Relation.ReflTransGen.refl, hc, hV⟩

theorem RA_head {V : Finset (ℕ × ℕ)} {p n q : ℕ × ℕ}
    (hp : IsCell changed W H p) (hpV : p ∉ V) (hadj : Adj p n)
    (h : RA changed W H V n q) : RA changed W H V p q := by
  obtain ⟨hrtg, hn, hnV⟩ := h
  exact ⟨Relation.ReflTransGen.head ⟨hp, hpV, hn, hnV, hadj⟩ hrtg, hp, hpV⟩

theorem RA_mono {V V2 : Finset (ℕ × ℕ)} {s q : ℕ × ℕ}
    (hVV : V ⊆ V2) (h : RA changed W H V2 s q) : RA changed W H V s q := by
  obtain ⟨hrtg, hs, hsV⟩ := h
  refine ⟨Relation.ReflTransGen.mono ?_ hrtg, hs, fun hmem => hsV (hVV hmem)⟩
  rintro a b ⟨ha, haV, hb, hbV, hadj⟩
  exact ⟨ha, fun hm => haV (hVV hm), hb, fun hm => hbV (hVV hm), hadj⟩

theorem RA_trans {V : Finset (ℕ × ℕ)} {s m q : ℕ × ℕ}
    (h1 : RA changed W H V s m) (h2 : RA changed W H V m q) : RA changed W H V s q :=
  ⟨h1.1.trans h2.1, h1.2.1, h1.2.2⟩

theorem RA_symm {V : Finset (ℕ × ℕ)} {s q : ℕ × ℕ}
    (h : RA changed W H V s q) : RA changed W H V q s := by
  have hq := RA_isCell_right h
  obtain ⟨hrtg, hs, hsV⟩ := h
  have hsym : Symmetric (gstep changed W H V) := by
    rintro a b ⟨ha, haV, hb, hbV, hadj⟩
    exact ⟨hb, hbV, ha, haV, Adj_symm hadj⟩
  exact ⟨Relation.ReflTransGen.symmetric hsym hrtg, hq.1, hq.2⟩

theorem RA_insert_split_aux {V : Finset (ℕ × ℕ)} {p q : ℕ × ℕ} (hq : q ≠ p) :
    ∀ {s : ℕ × ℕ}, Relation.ReflTransGen (gstep changed W H V) s q →
      IsCell changed W H s → s ∉ V →
      RA changed W H (insert p V) s q ∨
        ∃ n, Adj p n ∧ RA changed W H (insert p V) n q := by
  intro s h
  induction h using Relation.ReflTransGen.head_induction_on with
  | refl =>
    intro hcell hV
    left
    exact ⟨Relation.ReflTransGen.refl, hcell, by simp [Finset.mem_insert, hq, hV]⟩
  | @head a c hstep hrest ih =>
    intro hcell hV
    obtain ⟨ha, haV, hc, hcV, hadj⟩ := hstep
    rcases ih hc hcV with hleft | hright
    · by_cases hap : a = p
      · right
        exact ⟨c, hap ▸ hadj, hleft⟩
      · left
        obtain ⟨hrtg2, hc2, hcV2⟩ := hleft
        refine ⟨Relation.ReflTransGen.head ⟨hcell, ?_, hc2, hcV2, hadj⟩ hrtg2, hcell, ?_⟩
        · simp [Finset.mem_insert, hap, hV]
        · simp [Finset.mem_insert, hap, hV]
    · right; exact hright

theorem RA_insert_split {V : Finset (ℕ × ℕ)} {s q p : ℕ × ℕ}
    (h : RA changed W H V s q) (hq : q ≠ p) :
    RA changed W H (insert p V) s q ∨
      ∃ n, Adj p n ∧ RA changed W H (insert p V) n q := by
  obtain ⟨hrtg, hs, hsV⟩ := h
  exact RA_insert_split_aux hq hrtg hs hsV

theorem RA_of_reach_aux {V : Finset (ℕ × ℕ)} {q : ℕ × ℕ}
    (hcl : ClosedUnder changed W H V) :
    ∀ {s : ℕ × ℕ}, Relation.ReflTransGen (gstep changed W H ∅) s q →
      IsCell changed W H s → s ∉ V → RA changed W H V s q := by
  intro s h
  induction h using Relation.ReflTransGen.head_induction_on with
  | refl =>
    intro hcell hV
    exact RA_refl hcell hV
  | head hstep hrest ih =>
    intro hcell hV
    obtain ⟨ha, _, hc, _, hadj⟩ := hstep
    have hcV : _ ∉ V := fun hmem => hV (hcl _ hmem _ hcell (Adj_symm hadj))
    exact RA_head hcell hV hadj (ih hc hcV)

/-- Flood fill from a fresh start in a visited set that is a union of
whole components explores plain reachability. -/
theorem RA_closed_iff {V : Finset (ℕ × ℕ)} {s q : ℕ × ℕ}
    (hcl : ClosedUnder changed W H V) (hsV : s ∉ V) :
    RA changed W H V s q ↔ Reach changed W H s q := by
  constructor
  · intro h
    exact RA_mono (Finset.empty_subset V) h
  · intro h
    obtain ⟨hrtg, hs, _⟩ := h
    exact RA_of_reach_aux hcl hrtg hs hsV

theorem Reach_class_eq {s p : ℕ × ℕ} (h : Reach changed W H s p) :
    ∀ q, Reach changed W H s q ↔ Reach changed W H p q := by
  intro q
  exact ⟨fun h2 => RA_trans (RA_symm h) h2, fun h2 => RA_trans h h2⟩

theorem mem_gridCells {p : ℕ × ℕ} :
    p ∈ gridCells changed W H ↔ p.1 < W ∧ p.2 < H ∧ changed p.1 p.2 = true := by
  unfold gridCells
  simp only [Finset.mem_filter, Finset.mem_product, Finset.mem_range]
  tauto

/-- The flood-fill loop, run with fuel at least its termination measure,
returns exactly the cells reachable (avoiding the incoming visited set)
from the in-bounds stack entries: they are appended to the pixel list
without duplicates and added to the visited set. -/
theorem floodLoop_spec :
    ∀ (fuel : ℕ) (stack : List (ℤ × ℤ)) (V : Finset (ℕ × ℕ)) (pix : List (ℕ × ℕ)),
      4 * ((gridCells changed W H) \ V).card + stack.length ≤ fuel →
      ∃ Δ : List (ℕ × ℕ),
        (floodLoop changed W H fuel stack V pix).2 = pix ++ Δ ∧
        (floodLoop changed W H fuel stack V pix).1 = V ∪ Δ.toFinset ∧
        Δ.Nodup ∧
        (∀ p ∈ Δ, ∃ t ∈ stack, okZ W H t ∧ RA changed W H V (toCell t) p) ∧
        (∀ q : ℕ × ℕ, (∃ t ∈ stack, okZ W H t ∧ RA changed W H V (toCell t) q) → q ∈ Δ) := by
  intro fuel
  induction fuel with
  | zero =>
    intro stack V pix hb
    have hstack : stack = [] := List.length_eq_zero.mp (by omega)
    subst hstack
    refine ⟨[], by simp [floodLoop], by simp [floodLoop], List.nodup_nil, ?_, ?_⟩
    · intro p hp; cases hp
    · rintro q ⟨t, ht, _⟩; cases ht
  | succ fuel ih =>
    intro stack V pix hb
    match stack with
    | [] =>
      refine ⟨[], by simp [floodLoop], by simp [floodLoop], List.nodup_nil, ?_, ?_⟩
      · intro p hp; cases hp
      · rintro q ⟨t, ht, _⟩; cases ht
    | t :: stack =>
      have hblen : 4 * ((gridCells changed W H) \ V).card + stack.length ≤ fuel := by
        simp only [List.length_cons] at hb; omega
      by_cases hoob : t.1 < 0 ∨ (W : ℤ) ≤ t.1 ∨ t.2 < 0 ∨ (H : ℤ) ≤ t.2
      · have heq : floodLoop changed W H (fuel + 1) (t :: stack) V pix
            = floodLoop changed W H fuel stack V pix := by
          simp only [floodLoop, if_pos hoob]
        obtain ⟨Δ, h1, h2, h3, h4, h5⟩ := ih stack V pix hblen
        refine ⟨Δ, heq ▸ h1, heq ▸ h2, h3, ?_, ?_⟩
        · intro p hp
          obtain ⟨t2, ht2, hok, hra⟩ := h4 p hp
          exact ⟨t2, List.mem_cons_of_mem t ht2, hok, hra⟩
        · rintro q ⟨t0, ht0, hok0, hra0⟩
          rcases List.mem_cons.mp ht0 with rfl | ht0
          · exfalso; unfold okZ at hok0; omega
          · exact h5 q ⟨t0, ht0, hok0, hra0⟩
      · by_cases hskip : changed (toCell t).1 (toCell t).2 = false ∨ toCell t ∈ V
        · have heq : floodLoop changed W H (fuel + 1) (t :: stack) V pix
              = floodLoop changed W H fuel stack V pix := by
            simp only [floodLoop]
            rw [if_neg hoob, if_pos hskip]
          obtain ⟨Δ, h1, h2, h3, h4, h5⟩ := ih stack V pix hblen
          refine ⟨Δ, heq ▸ h1, heq ▸ h2, h3, ?_, ?_⟩
          · intro p hp
            obtain ⟨t2, ht2, hok, hra⟩ := h4 p hp
            exact ⟨t2, List.mem_cons_of_mem t ht2, hok, hra⟩
          · rintro q ⟨t0, ht0, hok0, hra0⟩
            rcases List.mem_cons.mp ht0 with rfl | ht0
            · exfalso
              rcases hskip with hf | hmem
              · exact absurd hra0.2.1.2.2 (by simp [hf])
              · exact hra0.2.2 hmem
            · exact h5 q ⟨t0, ht0, hok0, hra0⟩
        · have hch : changed (toCell t).1 (toCell t).2 = true := by
            rcases Bool.eq_false_or_eq_true (changed (toCell t).1 (toCell t).2) with htr | hf
            · exact htr
            · exact absurd (Or.inl hf) hskip
          have hpV : toCell t ∉ V := fun hmem => hskip (Or.inr hmem)
          have hpcell : IsCell changed W H (toCell t) := by
            refine ⟨?_, ?_, hch⟩ <;> (unfold toCell; simp only []; omega)
          have hokt : okZ W H t := by unfold okZ; omega
          have heq : floodLoop changed W H (fuel + 1) (t :: stack) V pix
              = floodLoop changed W H fuel
                  ((t.1, t.2 - 1) :: (t.1, t.2 + 1) :: (t.1 - 1, t.2) :: (t.1 + 1, t.2) :: stack)
                  (insert (toCell t) V) (pix ++ [toCell t]) := by
            simp only [floodLoop]
            rw [if_neg hoob, if_neg hskip]
          have hpgrid : toCell t ∈ gridCells changed W H \ V := by
            rw [Finset.mem_sdiff, mem_gridCells]
            exact ⟨⟨hpcell.1, hpcell.2.1, hch⟩, hpV⟩
          have hcard : (gridCells changed W H \ insert (toCell t) V).card + 1
              = ((gridCells changed W H) \ V).card := by
            have hrw : gridCells changed W H \ insert (toCell t) V
                = (gridCells changed W H \ V).erase (toCell t) := by
              ext q
              simp only [Finset.mem_sdiff, Finset.mem_erase, Finset.mem_insert]
              tauto
            rw [hrw, Finset.card_erase_of_mem hpgrid]
            have hpos : 0 < ((gridCells changed W H) \ V).card :=
              Finset.card_pos.mpr ⟨_, hpgrid⟩
            omega
          obtain ⟨Δ2, h1, h2, h3, h4, h5⟩ := ih
            ((t.1, t.2 - 1) :: (t.1, t.2 + 1) :: (t.1 - 1, t.2) :: (t.1 + 1, t.2) :: stack)
            (insert (toCell t) V) (pix ++ [toCell t])
            (by simp only [List.length_cons] at hb ⊢; omega)
          refine ⟨toCell t :: Δ2, ?_, ?_, ?_, ?_, ?_⟩
          · rw [heq, h1]; simp
          · rw [heq, h2]
            ext q
            simp only [Finset.mem_union, Finset.mem_insert, List.toFinset_cons,
              List.mem_toFinset]
            tauto
          · refine List.nodup_cons.mpr ⟨?_, h3⟩
            intro hmem
            obtain ⟨t2, _, _, hra⟩ := h4 _ hmem
            exact (RA_isCell_right hra).2 (Finset.mem_insert_self _ _)
          · intro pp hpp
            rcases List.mem_cons.mp hpp with rfl | hpp
            · exact ⟨t, List.mem_cons_self t stack, hokt, RA_refl hpcell hpV⟩
            · obtain ⟨t2, ht2, hok2, hra2⟩ := h4 pp hpp
              have hsub : RA changed W H V (toCell t2) pp :=
                RA_mono (Finset.subset_insert _ _) hra2
              simp only [List.mem_cons] at ht2
              unfold okZ at hok2
              rcases ht2 with rfl | rfl | rfl | rfl | ht2
              · refine ⟨t, List.mem_cons_self t stack, hokt,
                  RA_head hpcell hpV ?_ hsub⟩
                unfold Adj toCell
                left
                refine ⟨by omega, Or.inr (by omega)⟩
              · refine ⟨t, List.mem_cons_self t stack, hokt,
                  RA_head hpcell hpV ?_ hsub⟩
                unfold Adj toCell
                left
                refine ⟨by omega, Or.inl (by omega)⟩
              · refine ⟨t, List.mem_cons_self t stack, hokt,
                  RA_head hpcell hpV ?_ hsub⟩
                unfold Adj toCell
                right
                refine ⟨by omega, Or.inr (by omega)⟩
              · refine ⟨t, List.mem_cons_self t stack, hokt,
                  RA_head hpcell hpV ?_ hsub⟩
                unfold Adj toCell
                right
                refine ⟨by omega, Or.inl (by omega)⟩
              · exact ⟨t2, List.mem_cons_of_mem t ht2, hok2, hsub⟩
          · rintro q ⟨t0, ht0, hok0, hra0⟩
            by_cases hqp : q = toCell t
            · rw [hqp]; exact List.mem_cons_self _ _
            · rcases RA_insert_split hra0 hqp with hsplit | ⟨n, hadj, hra2⟩
              · rcases List.mem_cons.mp ht0 with rfl | ht0
                · exact absurd (Finset.mem_insert_self _ _) hsplit.2.2
                · refine List.mem_cons_of_mem _ (h5 q ⟨t0, ?_, hok0, hsplit⟩)
                  simp only [List.mem_cons]
                  tauto
              · have hncell : IsCell changed W H n := hra2.2.1
                obtain ⟨n1, n2⟩ := n
                rcases hadj with ⟨ha1, ha2 | ha2⟩ | ⟨ha1, ha2 | ha2⟩
                · refine List.mem_cons_of_mem _ (h5 q ⟨(t.1, t.2 + 1), by simp, ?_, ?_⟩)
                  · unfold okZ
                    have hn2 : n2 < H := hncell.2.1
                    simp only [toCell] at ha1 ha2
                    omega
                  · have hcc : toCell (t.1, t.2 + 1) = (n1, n2) := by
                      simp only [toCell, Prod.mk.injEq] at ha1 ha2 ⊢
                      constructor <;> omega
                    rw [hcc]; exact hra2
                · refine List.mem_cons_of_mem _ (h5 q ⟨(t.1, t.2 - 1), by simp, ?_, ?_⟩)
                  · unfold okZ
                    simp only [toCell] at ha1 ha2
                    omega
                  · have hcc : toCell (t.1, t.2 - 1) = (n1, n2) := by
                      simp only [toCell, Prod.mk.injEq] at ha1 ha2 ⊢
                      constructor <;> omega
                    rw [hcc]; exact hra2
                · refine List.mem_cons_of_mem _ (h5 q ⟨(t.1 + 1, t.2), by simp, ?_, ?_⟩)
                  · unfold okZ
                    have hn1 : n1 < W := hncell.1
                    simp only [toCell] at ha1 ha2
                    omega
                  · have hcc : toCell (t.1 + 1, t.2) = (n1, n2) := by
                      simp only [toCell, Prod.mk.injEq] at ha1 ha2 ⊢
                      constructor <;> omega
                    rw [hcc]; exact hra2
                · refine List.mem_cons_of_mem _ (h5 q ⟨(t.1 - 1, t.2), by simp, ?_, ?_⟩)
                  · unfold okZ
                    simp only [toCell] at ha1 ha2
                    omega
                  · have hcc : toCell (t.1 - 1, t.2) = (n1, n2) := by
                      simp only [toCell, Prod.mk.injEq] at ha1 ha2 ⊢
                      constructor <;> omega
                    rw [hcc]; exact hra2

/-- `_flood_fill_pixels` / `_flood_fill_blocks` from a changed, unvisited
start cell: the returned list holds, without duplicates, exactly the cells
reachable from the start avoiding the incoming visited set, and the
visited set grows by exactly those cells. -/
theorem floodFill_spec {V : Finset (ℕ × ℕ)} {sx sy : ℕ}
    (hc : IsCell changed W H (sx, sy)) (hV : (sx, sy) ∉ V) :
    (floodFill changed W H V sx sy).1 = V ∪ (floodFill changed W H V sx sy).2.toFinset ∧
    (floodFill changed W H V sx sy).2.Nodup ∧
    (∀ q, q ∈ (floodFill changed W H V sx sy).2 ↔ RA changed W H V (sx, sy) q) := by
  have hbound : 4 * ((gridCells changed W H) \ V).card +
      ([((sx : ℤ), (sy : ℤ))] : List (ℤ × ℤ)).length ≤ 4 * (W * H) + 1 := by
    have h1 : ((gridCells changed W H) \ V).card ≤ (gridCells changed W H).card :=
      Finset.card_le_card (Finset.sdiff_subset)
    have h2 : (gridCells changed W H).card ≤ W * H := by
      have := Finset.card_filter_le (Finset.range W ×ˢ Finset.range H)
        (fun p => changed p.1 p.2 = true)
      simpa [gridCells, Finset.card_product] using this
    simp only [List.length_cons, List.length_nil]
    omega
  obtain ⟨Δ, h1, h2, h3, h4, h5⟩ := floodLoop_spec (4 * (W * H) + 1)
    [((sx : ℤ), (sy : ℤ))] V [] hbound
  have hres : (floodFill changed W H V sx sy).2 = Δ := by
    unfold floodFill
    rw [h1, List.nil_append]
  have hcell0 : toCell ((sx : ℤ), (sy : ℤ)) = (sx, sy) := by
    unfold toCell; simp
  have hok0 : okZ W H ((sx : ℤ), (sy : ℤ)) := by
    unfold okZ
    have h1 := hc.1
    have h2 := hc.2.1
    simp only []
    omega
  refine ⟨by unfold floodFill; rw [h2, h1, List.nil_append], ?_, ?_⟩
  · rw [hres]; exact h3
  · intro q
    rw [hres]
    constructor
    · intro hq
      obtain ⟨t, ht, _, hra⟩ := h4 q hq
      rcases List.mem_cons.mp ht with rfl | ht
      · rwa [hcell0] at hra
      · cases ht
    · intro hra
      exact h5 q ⟨_, List.mem_cons_self _ _, hok0, by rwa [hcell0]⟩

/-- The row-major scan: its output lists are pairwise disjoint, each is a
complete 4-connected component (of size at least `minsize`) given as the
reachability class of some cell, and every component of size at least
`minsize` whose cells are not yet visited appears. -/
theorem scanCells_spec (minsize : ℕ) :
    ∀ (todo : List (ℕ × ℕ)) (V : Finset (ℕ × ℕ)),
      ClosedUnder changed W H V →
      (∀ p : ℕ × ℕ, IsCell changed W H p → p ∉ V → p ∈ todo) →
      (∀ p ∈ todo, p.1 < W ∧ p.2 < H) →
      (∀ l ∈ scanCells changed W H minsize todo V, ∃ s,
          IsCell changed W H s ∧ (∀ q, q ∈ l ↔ Reach changed W H s q) ∧
          l.Nodup ∧ minsize ≤ l.length ∧ ∀ q ∈ l, q ∉ V) ∧
      List.Pairwise (fun l1 l2 => ∀ q, q ∈ l1 → q ∉ l2)
        (scanCells changed W H minsize todo V) ∧
      (∀ p : ℕ × ℕ, IsCell changed W H p → p ∉ V →
        minsize ≤ Set.ncard {q | Reach changed W H p q} →
        ∃ l ∈ scanCells changed W H minsize todo V, p ∈ l) := by
  intro todo
  induction todo with
  | nil =>
    intro V hcl hcov htodo
    refine ⟨?_, ?_, ?_⟩
    · intro l hl; rw [scanCells] at hl; cases hl
    · rw [scanCells]; exact List.Pairwise.nil
    · intro p hc hV _
      exact absurd (hcov p hc hV) (by intro h; cases h)
  | cons c rest ih =>
    intro V hcl hcov htodo
    by_cases hg : changed c.1 c.2 = true ∧ c ∉ V
    · have hcb := htodo c (List.mem_cons_self c rest)
      have hccell : IsCell changed W H c := ⟨hcb.1, hcb.2, hg.1⟩
      have hcc : ((c.1, c.2) : ℕ × ℕ) = c := rfl
      obtain ⟨hvis, hnd, hmem⟩ := @floodFill_spec changed W H V c.1 c.2
        (by rw [hcc]; exact hccell) (by rw [hcc]; exact hg.2)
      have hmemR : ∀ q, q ∈ (floodFill changed W H V c.1 c.2).2 ↔
          Reach changed W H c q := by
        intro q
        rw [hmem q, hcc, RA_closed_iff hcl hg.2]
      have hcmem : c ∈ (floodFill changed W H V c.1 c.2).2 :=
        (hmemR c).mpr (RA_refl hccell (by simp))
      have hsubV : V ⊆ (floodFill changed W H V c.1 c.2).1 := by
        rw [hvis]; exact Finset.subset_union_left
      have hmemV2 : ∀ q, q ∈ (floodFill changed W H V c.1 c.2).1 ↔
          q ∈ V ∨ q ∈ (floodFill changed W H V c.1 c.2).2 := by
        intro q
        rw [hvis]
        simp [Finset.mem_union, List.mem_toFinset]
      have hcl2 : ClosedUnder changed W H (floodFill changed W H V c.1 c.2).1 := by
        intro p hp q hq hadj
        rcases (hmemV2 p).mp hp with hpV | hpm
        · exact (hmemV2 q).mpr (Or.inl (hcl p hpV q hq hadj))
        · refine (hmemV2 q).mpr (Or.inr ?_)
          rw [hmemR]
          have hreach : Reach changed W H c p := (hmemR p).mp hpm
          have hpcell : IsCell changed W H p := (RA_isCell_right hreach).1
          exact RA_trans hreach
            (RA_head hpcell (by simp) hadj (RA_refl hq (by simp)))
      have hcov2 : ∀ p : ℕ × ℕ, IsCell changed W H p →
          p ∉ (floodFill changed W H V c.1 c.2).1 → p ∈ rest := by
        intro p hc2 hV2
        have hpV : p ∉ V := fun hmem => hV2 (hsubV hmem)
        rcases List.mem_cons.mp (hcov p hc2 hpV) with rfl | hm
        · exact absurd ((hmemV2 p).mpr (Or.inr hcmem)) hV2
        · exact hm
      have htodo2 : ∀ p ∈ rest, p.1 < W ∧ p.2 < H := by
        intro p hp; exact htodo p (List.mem_cons_of_mem c hp)
      obtain ⟨A2, B2, C2⟩ := ih (floodFill changed W H V c.1 c.2).1 hcl2 hcov2 htodo2
      have hnotV : ∀ q ∈ (floodFill changed W H V c.1 c.2).2, q ∉ V := by
        intro q hq
        exact (RA_isCell_right ((hmem q).mp hq)).2
      by_cases hlen : minsize ≤ (floodFill changed W H V c.1 c.2).2.length
      · have hout : scanCells changed W H minsize (c :: rest) V =
            (floodFill changed W H V c.1 c.2).2 ::
              scanCells changed W H minsize rest (floodFill changed W H V c.1 c.2).1 := by
          rw [scanCells, if_pos hg, if_pos hlen]
        rw [hout]
        refine ⟨?_, ?_, ?_⟩
        · intro l hl
          rcases List.mem_cons.mp hl with rfl | hl
          · exact ⟨c, hccell, hmemR, hnd, hlen, hnotV⟩
          · obtain ⟨s, hs1, hs2, hs3, hs4, hs5⟩ := A2 l hl
            exact ⟨s, hs1, hs2, hs3, hs4, fun q hq hqV => hs5 q hq (hsubV hqV)⟩
        · refine List.pairwise_cons.mpr ⟨?_, B2⟩
          intro l2 hl2 q hq1 hq2
          obtain ⟨_, _, _, _, _, hs5⟩ := A2 l2 hl2
          exact hs5 q hq2 ((hmemV2 q).mpr (Or.inr hq1))
        · intro p hc2 hpV hbig
          by_cases hpm : p ∈ (floodFill changed W H V c.1 c.2).2
          · exact ⟨_, List.mem_cons_self _ _, hpm⟩
          · have hpV2 : p ∉ (floodFill changed W H V c.1 c.2).1 := by
              rw [hmemV2]; tauto
            obtain ⟨l, hl, hpl⟩ := C2 p hc2 hpV2 hbig
            exact ⟨l, List.mem_cons_of_mem _ hl, hpl⟩
      · have hout : scanCells changed W H minsize (c :: rest) V =
            scanCells changed W H minsize rest (floodFill changed W H V c.1 c.2).1 := by
          rw [scanCells, if_pos hg, if_neg hlen]
        rw [hout]
        refine ⟨?_, B2, ?_⟩
        · intro l hl
          obtain ⟨s, hs1, hs2, hs3, hs4, hs5⟩ := A2 l hl
          exact ⟨s, hs1, hs2, hs3, hs4, fun q hq hqV => hs5 q hq (hsubV hqV)⟩
        · intro p hc2 hpV hbig
          by_cases hpm : p ∈ (floodFill changed W H V c.1 c.2).2
          · exfalso
            have hreach : Reach changed W H c p := (hmemR p).mp hpm
            have hclass : {q | Reach changed W H p q} = {q | Reach changed W H c q} := by
              ext q
              exact (Reach_class_eq hreach q).symm
            have hset : {q | Reach changed W H c q} =
                ((floodFill changed W H V c.1 c.2).2.toFinset : Set (ℕ × ℕ)) := by
              ext q
              simp only [Set.mem_setOf_eq, Finset.mem_coe, List.mem_toFinset]
              exact (hmemR q).symm
            rw [hclass, hset, Set.ncard_coe_Finset,
              List.toFinset_card_of_nodup hnd] at hbig
            exact hlen hbig
          · have hpV2 : p ∉ (floodFill changed W H V c.1 c.2).1 := by
              rw [hmemV2]; tauto
            exact C2 p hc2 hpV2 hbig
    · have hout : scanCells changed W H minsize (c :: rest) V =
          scanCells changed W H minsize rest V := by
        rw [scanCells, if_neg hg]
      have hcov2 : ∀ p : ℕ × ℕ, IsCell changed W H p → p ∉ V → p ∈ rest := by
        intro p hc2 hpV
        rcases List.mem_cons.mp (hcov p hc2 hpV) with rfl | hm
        · exact absurd ⟨hc2.2.2, hpV⟩ hg
        · exact hm
      have htodo2 : ∀ p ∈ rest, p.1 < W ∧ p.2 < H := by
        intro p hp; exact htodo p (List.mem_cons_of_mem c hp)
      rw [hout]
      exact ih V hcl hcov2 htodo2

end GridLemmas

/-! ## Detector-level glue lemmas -/

theorem mem_rowMajor {W H : ℕ} {p : ℕ × ℕ} :
    p ∈ rowMajor W H ↔ p.1 < W ∧ p.2 < H := by
  unfold rowMajor
  constructor
  · intro h
    simp only [List.mem_flatMap, List.mem_map, List.mem_range] at h
    obtain ⟨y, hy, x, hx, rfl⟩ := h
    exact ⟨hx, hy⟩
  · intro ⟨h1, h2⟩
    simp only [List.mem_flatMap, List.mem_map, List.mem_range]
    exact ⟨p.2, h2, p.1, h1, rfl⟩

/-- The scan over the whole grid in row-major order with an empty initial
visited set: its outputs are the complete components of size at least
`minsize`, pairwise disjoint, and every such component appears. -/
theorem components_spec {changed : ℕ → ℕ → Bool} {W H : ℕ} (minsize : ℕ) :
    (∀ l ∈ scanCells changed W H minsize (rowMajor W H) ∅, ∃ s,
        IsCell changed W H s ∧ (∀ q, q ∈ l ↔ Reach changed W H s q) ∧
        l.Nodup ∧ minsize ≤ l.length) ∧
    List.Pairwise (fun l1 l2 => ∀ q, q ∈ l1 → q ∉ l2)
      (scanCells changed W H minsize (rowMajor W H) ∅) ∧
    (∀ p : ℕ × ℕ, IsCell changed W H p →
      minsize ≤ Set.ncard {q | Reach changed W H p q} →
      ∃ l ∈ scanCells changed W H minsize (rowMajor W H) ∅, p ∈ l) := by
  have hcl : ClosedUnder changed W H ∅ := by
    intro p hp; simp at hp
  have hcov : ∀ p : ℕ × ℕ, IsCell changed W H p → p ∉ (∅ : Finset (ℕ × ℕ)) →
      p ∈ rowMajor W H := by
    intro p hp _
    exact mem_rowMajor.mpr ⟨hp.1, hp.2.1⟩
  have htodo : ∀ p ∈ rowMajor W H, p.1 < W ∧ p.2 < H := by
    intro p hp
    exact ⟨(mem_rowMajor.mp hp).1, (mem_rowMajor.mp hp).2⟩
  obtain ⟨A, B, C⟩ := scanCells_spec minsize (rowMajor W H) ∅ hcl hcov htodo
  refine ⟨?_, B, ?_⟩
  · intro l hl
    obtain ⟨s, h1, h2, h3, h4, _⟩ := A l hl
    exact ⟨s, h1, h2, h3, h4⟩
  · intro p hp hbig
    exact C p hp (by simp) hbig

/-! ## Reachability helpers for the concrete scenarios -/

section ReachScenarios

variable {changed : ℕ → ℕ → Bool} {W H : ℕ}

/-- One adjacency step between changed cells is reachability. -/
theorem Reach_adj {p q : ℕ × ℕ} (hp : IsCell changed W H p)
    (hq : IsCell changed W H q) (h : Adj p q) : Reach changed W H p q :=
  RA_head hp (by simp) h (RA_refl hq (by simp))

/-- Walking right along a fully changed row segment. -/
theorem Reach_row (x y k : ℕ)
    (h : ∀ i, i ≤ k → IsCell changed W H (x + i, y)) :
    Reach changed W H (x, y) (x + k, y) := by
  induction k with
  | zero => exact RA_refl (h 0 (Nat.zero_le 0)) (by simp)
  | succ k ih =>
    refine RA_trans (ih (fun i hi => h i (le_trans hi (Nat.le_succ k)))) ?_
    refine Reach_adj (h k (Nat.le_succ k)) (h (k + 1) (le_refl _)) ?_
    exact Or.inr ⟨rfl, Or.inl rfl⟩

/-- Walking down along a fully changed column segment. -/
theorem Reach_col (x y k : ℕ)
    (h : ∀ j, j ≤ k → IsCell changed W H (x, y + j)) :
    Reach changed W H (x, y) (x, y + k) := by
  induction k with
  | zero => exact RA_refl (h 0 (Nat.zero_le 0)) (by simp)
  | succ k ih =>
    refine RA_trans (ih (fun j hj => h j (le_trans hj (Nat.le_succ k)))) ?_
    refine Reach_adj (h k (Nat.le_succ k)) (h (k + 1) (le_refl _)) ?_
    exact Or.inl ⟨rfl, Or.inl rfl⟩

theorem Reach_row_le {x1 x2 y : ℕ} (hle : x1 ≤ x2)
    (h : ∀ i, x1 ≤ i → i ≤ x2 → IsCell changed W H (i, y)) :
    Reach changed W H (x1, y) (x2, y) := by
  have hr := Reach_row x1 y (x2 - x1)
    (fun i hi => h (x1 + i) (Nat.le_add_right _ _) (by omega))
  have hx : x1 + (x2 - x1) = x2 := by omega
  rwa [hx] at hr

theorem Reach_col_le {x y1 y2 : ℕ} (hle : y1 ≤ y2)
    (h : ∀ j, y1 ≤ j → j ≤ y2 → IsCell changed W H (x, j)) :
    Reach changed W H (x, y1) (x, y2) := by
  have hr := Reach_col x y1 (y2 - y1)
    (fun j hj => h (y1 + j) (Nat.le_add_right _ _) (by omega))
  have hy : y1 + (y2 - y1) = y2 := by omega
  rwa [hy] at hr

/-- Between any two columns of a fully changed row segment. -/
theorem Reach_row_between {x1 x2 y : ℕ}
    (h : ∀ i, min x1 x2 ≤ i → i ≤ max x1 x2 → IsCell changed W H (i, y)) :
    Reach changed W H (x1, y) (x2, y) := by
  rcases le_total x1 x2 with hle | hle
  · exact Reach_row_le hle (fun i h1 h2 => h i (by omega) (by omega))
  · exact RA_symm (Reach_row_le hle (fun i h1 h2 => h i (by omega) (by omega)))

/-- Between any two rows of a fully changed column segment. -/
theorem Reach_col_between {x y1 y2 : ℕ}
    (h : ∀ j, min y1 y2 ≤ j → j ≤ max y1 y2 → IsCell changed W H (x, j)) :
    Reach changed W H (x, y1) (x, y2) := by
  rcases le_total y1 y2 with hle | hle
  · exact Reach_col_le hle (fun j h1 h2 => h j (by omega) (by omega))
  · exact RA_symm (Reach_col_le hle (fun j h1 h2 => h j (by omega) (by omega)))

/-- Any two cells of a fully changed rectangle are connected. -/
theorem Reach_rect (x0 x1 y0 y1 : ℕ)
    (hall : ∀ i j, x0 ≤ i → i ≤ x1 → y0 ≤ j → j ≤ y1 → IsCell changed W H (i, j))
    {p q : ℕ × ℕ}
    (hp : x0 ≤ p.1 ∧ p.1 ≤ x1 ∧ y0 ≤ p.2 ∧ p.2 ≤ y1)
    (hq : x0 ≤ q.1 ∧ q.1 ≤ x1 ∧ y0 ≤ q.2 ∧ q.2 ≤ y1) :
    Reach changed W H p q := by
  have h1 : Reach changed W H (p.1, p.2) (p.1, q.2) :=
    Reach_col_between (fun j hj1 hj2 => hall p.1 j hp.1 hp.2.1 (by omega) (by omega))
  have h2 : Reach changed W H (p.1, q.2) (q.1, q.2) :=
    Reach_row_between (fun i hi1 hi2 => hall i q.2 (by omega) (by omega) hq.2.2.1 hq.2.2.2)
  have h3 := RA_trans h1 h2
  rwa [Prod.mk.eta, Prod.mk.eta] at h3

/-- A reachability class stays inside any adjacency-closed set containing
its seed. -/
theorem Reach_subset_closed {M : Set (ℕ × ℕ)}
    (hM : ∀ p ∈ M, ∀ q, IsCell changed W H q → Adj p q → q ∈ M)
    {s q : ℕ × ℕ} (hs : s ∈ M) (h : Reach changed W H s q) : q ∈ M := by
  obtain ⟨hrtg, _, _⟩ := h
  induction hrtg with
  | refl => exact hs
  | tail hab hbc ih => exact hM _ ih _ hbc.2.2.1 hbc.2.2.2.2

/-- Pairwise-disjoint nonempty lists have pairwise distinct member sets. -/
theorem nodup_map_toFinset {ps : List (List (ℕ × ℕ))}
    (hpw : List.Pairwise (fun l1 l2 => ∀ q, q ∈ l1 → q ∉ l2) ps)
    (hne : ∀ l ∈ ps, l ≠ []) :
    (ps.map List.toFinset).Nodup := by
  have h2 : ps.Pairwise (fun l1 l2 => l1.toFinset ≠ l2.toFinset) := by
    refine List.Pairwise.imp_of_mem ?_ hpw
    intro l1 l2 h1mem h2mem hdisj heq
    obtain ⟨a, ha⟩ := List.exists_mem_of_ne_nil l1 (hne l1 h1mem)
    exact hdisj a ha (List.mem_toFinset.mp (heq ▸ List.mem_toFinset.mpr ha))
  show List.Pairwise (fun a b => a ≠ b) (ps.map List.toFinset)
  exact List.pairwise_map.mpr h2

/-- Counting a list of component member-lists through their member sets. -/
theorem length_eq_card_classes {ps : List (List (ℕ × ℕ))}
    {T : Finset (Finset (ℕ × ℕ))}
    (hnd : (ps.map List.toFinset).Nodup)
    (hmem : ∀ l ∈ ps, l.toFinset ∈ T)
    (hsurj : ∀ S ∈ T, ∃ l ∈ ps, l.toFinset = S) :
    ps.length = T.card := by
  have h1 : (ps.map List.toFinset).toFinset = T := by
    ext S
    simp only [List.mem_toFinset, List.mem_map]
    constructor
    · rintro ⟨l, hl, rfl⟩
      exact hmem l hl
    · intro hS
      exact hsurj S hS
  calc ps.length = (ps.map List.toFinset).length := by rw [List.length_map]
    _ = (ps.map List.toFinset).toFinset.card := (List.toFinset_card_of_nodup hnd).symm
    _ = T.card := by rw [h1]

/-- Threshold test against a two-level stamped field. -/
theorem lt_stamp_iff {α : Type} [LinearOrderedField α] {c : Prop} [Decidable c]
    {t v : α} (h0 : 0 < t) (hv : t < v) :
    (t < if c then v else 0) ↔ c := by
  split <;> rename_i hc
  · exact iff_of_true hv hc
  · exact iff_of_false (fun hlt => absurd (lt_trans hlt h0) (lt_irrefl t)) hc

end ReachScenarios

/-! ## The concrete pixel-strategy scenarios -/

section Scenarios

/-- The two-squares mask cells are exactly the two stamped squares. -/
theorem twoSquares_cell_iff {p : ℕ × ℕ} :
    IsCell (changedMask twoSquaresField (25:ℚ)) 100 100 p ↔
      p ∈ square1 ∨ p ∈ square2 := by
  simp only [IsCell, changedMask, twoSquaresField, decide_eq_true_eq,
    lt_stamp_iff (show (0:ℚ) < 25 by norm_num) (show (25:ℚ) < 50 by norm_num),
    square1, square2, Finset.mem_product, Finset.mem_Icc]
  omega

/-- In the two-squares scenario, the class of a first-square cell is the
first square. -/
theorem twoSquares_class1 {s : ℕ × ℕ} (hs : s ∈ square1) :
    ∀ q, Reach (changedMask twoSquaresField (25:ℚ)) 100 100 s q ↔ q ∈ square1 := by
  intro q
  have hs' := hs
  simp only [square1, Finset.mem_product, Finset.mem_Icc] at hs'
  constructor
  · intro h
    have hcl : ∀ a ∈ (↑square1 : Set (ℕ × ℕ)), ∀ b,
        IsCell (changedMask twoSquaresField (25:ℚ)) 100 100 b → Adj a b →
        b ∈ (↑square1 : Set (ℕ × ℕ)) := by
      intro a ha b hb hadj
      have ha2 : a ∈ square1 := ha
      simp only [square1, Finset.mem_product, Finset.mem_Icc] at ha2
      rcases twoSquares_cell_iff.mp hb with h1 | h2
      · exact h1
      · exfalso
        simp only [square2, Finset.mem_product, Finset.mem_Icc] at h2
        simp only [Adj] at hadj
        rcases hadj with ⟨he, hd⟩ | ⟨he, hd⟩ <;> omega
    exact Reach_subset_closed hcl hs h
  · intro hq
    have hq' := hq
    simp only [square1, Finset.mem_product, Finset.mem_Icc] at hq'
    refine Reach_rect 10 19 10 19 ?_ ?_ ?_
    · intro i j h1 h2 h3 h4
      exact twoSquares_cell_iff.mpr (Or.inl (Finset.mem_product.mpr
        ⟨Finset.mem_Icc.mpr ⟨h1, h2⟩, Finset.mem_Icc.mpr ⟨h3, h4⟩⟩))
    · exact ⟨hs'.1.1, hs'.1.2, hs'.2.1, hs'.2.2⟩
    · exact ⟨hq'.1.1, hq'.1.2, hq'.2.1, hq'.2.2⟩

/-- In the two-squares scenario, the class of a second-square cell is the
second square. -/
theorem twoSquares_class2 {s : ℕ × ℕ} (hs : s ∈ square2) :
    ∀ q, Reach (changedMask twoSquaresField (25:ℚ)) 100 100 s q ↔ q ∈ square2 := by
  intro q
  have hs' := hs
  simp only [square2, Finset.mem_product, Finset.mem_Icc] at hs'
  constructor
  · intro h
    have hcl : ∀ a ∈ (↑square2 : Set (ℕ × ℕ)), ∀ b,
        IsCell (changedMask twoSquaresField (25:ℚ)) 100 100 b → Adj a b →
        b ∈ (↑square2 : Set (ℕ × ℕ)) := by
      intro a ha b hb hadj
      have ha2 : a ∈ square2 := ha
      simp only [square2, Finset.mem_product, Finset.mem_Icc] at ha2
      rcases twoSquares_cell_iff.mp hb with h1 | h2
      · exfalso
        simp only [square1, Finset.mem_product, Finset.mem_Icc] at h1
        simp only [Adj] at hadj
        rcases hadj with ⟨he, hd⟩ | ⟨he, hd⟩ <;> omega
      · exact h2
    exact Reach_subset_closed hcl hs h
  · intro hq
    have hq' := hq
    simp only [square2, Finset.mem_product, Finset.mem_Icc] at hq'
    refine Reach_rect 60 69 60 69 ?_ ?_ ?_
    · intro i j h1 h2 h3 h4
      exact twoSquares_cell_iff.mpr (Or.inr (Finset.mem_product.mpr
        ⟨Finset.mem_Icc.mpr ⟨h1, h2⟩, Finset.mem_Icc.mpr ⟨h3, h4⟩⟩))
    · exact ⟨hs'.1.1, hs'.1.2, hs'.2.1, hs'.2.2⟩
    · exact ⟨hq'.1.1, hq'.1.2, hq'.2.1, hq'.2.2⟩

/-- The L-shape mask cells are exactly the L set. -/
theorem lShape_cell_iff {p : ℕ × ℕ} :
    IsCell (changedMask lShapeField (25:ℚ)) 100 100 p ↔ p ∈ lSet := by
  simp only [IsCell, changedMask, lShapeField, decide_eq_true_eq,
    lt_stamp_iff (show (0:ℚ) < 25 by norm_num) (show (25:ℚ) < 50 by norm_num),
    lSet, Finset.mem_union, Finset.mem_product, Finset.mem_Icc]
  omega

/-- Every cell of the L reaches the shared corner `(10, 17)`. -/
theorem lShape_reach_corner {p : ℕ × ℕ} (hp : p ∈ lSet) :
    Reach (changedMask lShapeField (25:ℚ)) 100 100 p (10, 17) := by
  have hp' := hp
  simp only [lSet, Finset.mem_union, Finset.mem_product, Finset.mem_Icc] at hp'
  rcases hp' with h | h
  · have h1 : Reach (changedMask lShapeField (25:ℚ)) 100 100 (p.1, p.2) (p.1, 17) :=
      Reach_col_between (fun j hj1 hj2 => lShape_cell_iff.mpr
        (Finset.mem_union_left _ (Finset.mem_product.mpr
          ⟨Finset.mem_Icc.mpr ⟨h.1.1, h.1.2⟩, Finset.mem_Icc.mpr ⟨by omega, by omega⟩⟩)))
    have h2 : Reach (changedMask lShapeField (25:ℚ)) 100 100 (p.1, 17) (10, 17) :=
      Reach_row_between (fun i hi1 hi2 => lShape_cell_iff.mpr
        (Finset.mem_union_left _ (Finset.mem_product.mpr
          ⟨Finset.mem_Icc.mpr ⟨by omega, by omega⟩,
           Finset.mem_Icc.mpr ⟨by norm_num, by norm_num⟩⟩)))
    have h3 := RA_trans h1 h2
    rwa [Prod.mk.eta] at h3
  · have h1 : Reach (changedMask lShapeField (25:ℚ)) 100 100 (p.1, p.2) (p.1, 17) :=
      Reach_col_between (fun j hj1 hj2 => lShape_cell_iff.mpr
        (Finset.mem_union_right _ (Finset.mem_product.mpr
          ⟨Finset.mem_Icc.mpr ⟨h.1.1, h.1.2⟩, Finset.mem_Icc.mpr ⟨by omega, by omega⟩⟩)))
    have h2 : Reach (changedMask lShapeField (25:ℚ)) 100 100 (p.1, 17) (10, 17) :=
      Reach_row_between (fun i hi1 hi2 => lShape_cell_iff.mpr
        (Finset.mem_union_right _ (Finset.mem_product.mpr
          ⟨Finset.mem_Icc.mpr ⟨by omega, by omega⟩,
           Finset.mem_Icc.mpr ⟨by norm_num, by norm_num⟩⟩)))
    have h3 := RA_trans h1 h2
    rwa [Prod.mk.eta] at h3

/-- In the L scenario, every cell's class is the whole L. -/
theorem lShape_class {s : ℕ × ℕ} (hs : s ∈ lSet) :
    ∀ q, Reach (changedMask lShapeField (25:ℚ)) 100 100 s q ↔ q ∈ lSet := by
  intro q
  constructor
  · intro h
    exact lShape_cell_iff.mp (RA_isCell_right h).1
  · intro hq
    exact RA_trans (lShape_reach_corner hs) (RA_symm (lShape_reach_corner hq))

/-- The two-squares scenario has exactly two surviving components. -/
theorem twoSquares_components_length :
    (pixelComponents twoSquaresField (25:ℚ) 10 100 100).length = 2 := by
  obtain ⟨A, B, C⟩ := @components_spec (changedMask twoSquaresField (25:ℚ)) 100 100 10
  have hdef : pixelComponents twoSquaresField (25:ℚ) 10 100 100 =
      scanCells (changedMask twoSquaresField (25:ℚ)) 100 100 10 (rowMajor 100 100) ∅ := rfl
  have hmem : ∀ l ∈ scanCells (changedMask twoSquaresField (25:ℚ)) 100 100 10
      (rowMajor 100 100) ∅,
      l.toFinset ∈ ({square1, square2} : Finset (Finset (ℕ × ℕ))) := by
    intro l hl
    obtain ⟨s, hs1, hs2, hs3, hs4⟩ := A l hl
    rcases twoSquares_cell_iff.mp hs1 with h1 | h2
    · have he : l.toFinset = square1 := by
        ext q
        rw [List.mem_toFinset, hs2 q, twoSquares_class1 h1 q]
      rw [he]
      exact Finset.mem_insert_self _ _
    · have he : l.toFinset = square2 := by
        ext q
        rw [List.mem_toFinset, hs2 q, twoSquares_class2 h2 q]
      rw [he]
      exact Finset.mem_insert_of_mem (Finset.mem_singleton_self _)
  have hne : ∀ l ∈ scanCells (changedMask twoSquaresField (25:ℚ)) 100 100 10
      (rowMajor 100 100) ∅, l ≠ [] := by
    intro l hl hnil
    obtain ⟨s, hs1, hs2, hs3, hs4⟩ := A l hl
    rw [hnil] at hs4
    exact absurd hs4 (by decide)
  have hnd := nodup_map_toFinset B hne
  have hsurj : ∀ S ∈ ({square1, square2} : Finset (Finset (ℕ × ℕ))),
      ∃ l ∈ scanCells (changedMask twoSquaresField (25:ℚ)) 100 100 10
        (rowMajor 100 100) ∅, l.toFinset = S := by
    intro S hS
    rcases Finset.mem_insert.mp hS with rfl | hS2
    · have hp1 : ((10, 10) : ℕ × ℕ) ∈ square1 := by decide
      have hcell : IsCell (changedMask twoSquaresField (25:ℚ)) 100 100 (10, 10) :=
        twoSquares_cell_iff.mpr (Or.inl hp1)
      have hbig : 10 ≤ Set.ncard
          {q | Reach (changedMask twoSquaresField (25:ℚ)) 100 100 (10, 10) q} := by
        have hclass : {q | Reach (changedMask twoSquaresField (25:ℚ)) 100 100 (10, 10) q} =
            (↑square1 : Set (ℕ × ℕ)) := by
          ext q
          exact twoSquares_class1 hp1 q
        rw [hclass, Set.ncard_coe_Finset]
        decide
      obtain ⟨l, hl, hpl⟩ := C (10, 10) hcell hbig
      refine ⟨l, hl, ?_⟩
      obtain ⟨s, hs1, hs2, _, _⟩ := A l hl
      ext q
      rw [List.mem_toFinset, hs2 q, Reach_class_eq ((hs2 _).mp hpl) q,
        twoSquares_class1 hp1 q]
    · rw [Finset.mem_singleton.mp hS2]
      have hp2 : ((60, 60) : ℕ × ℕ) ∈ square2 := by decide
      have hcell : IsCell (changedMask twoSquaresField (25:ℚ)) 100 100 (60, 60) :=
        twoSquares_cell_iff.mpr (Or.inr hp2)
      have hbig : 10 ≤ Set.ncard
          {q | Reach (changedMask twoSquaresField (25:ℚ)) 100 100 (60, 60) q} := by
        have hclass : {q | Reach (changedMask twoSquaresField (25:ℚ)) 100 100 (60, 60) q} =
            (↑square2 : Set (ℕ × ℕ)) := by
          ext q
          exact twoSquares_class2 hp2 q
        rw [hclass, Set.ncard_coe_Finset]
        decide
      obtain ⟨l, hl, hpl⟩ := C (60, 60) hcell hbig
      refine ⟨l, hl, ?_⟩
      obtain ⟨s, hs1, hs2, _, _⟩ := A l hl
      ext q
      rw [List.mem_toFinset, hs2 q, Reach_class_eq ((hs2 _).mp hpl) q,
        twoSquares_class2 hp2 q]
  have hT : ({square1, square2} : Finset (Finset (ℕ × ℕ))).card = 2 := by
    have hne12 : square1 ∉ ({square2} : Finset (Finset (ℕ × ℕ))) := by
      simp only [Finset.mem_singleton]
      decide
    rw [Finset.card_insert_of_not_mem hne12, Finset.card_singleton]
  rw [hdef, length_eq_card_classes hnd hmem hsurj, hT]

/-- The L-shape scenario has exactly one surviving component. -/
theorem lShape_components_length :
    (pixelComponents lShapeField (25:ℚ) 10 100 100).length = 1 := by
  obtain ⟨A, B, C⟩ := @components_spec (changedMask lShapeField (25:ℚ)) 100 100 10
  have hdef : pixelComponents lShapeField (25:ℚ) 10 100 100 =
      scanCells (changedMask lShapeField (25:ℚ)) 100 100 10 (rowMajor 100 100) ∅ := rfl
  have hmem : ∀ l ∈ scanCells (changedMask lShapeField (25:ℚ)) 100 100 10
      (rowMajor 100 100) ∅,
      l.toFinset ∈ ({lSet} : Finset (Finset (ℕ × ℕ))) := by
    intro l hl
    obtain ⟨s, hs1, hs2, _, _⟩ := A l hl
    have he : l.toFinset = lSet := by
      ext q
      rw [List.mem_toFinset, hs2 q, lShape_class (lShape_cell_iff.mp hs1) q]
    rw [he]
    exact Finset.mem_singleton_self _
  have hne : ∀ l ∈ scanCells (changedMask lShapeField (25:ℚ)) 100 100 10
      (rowMajor 100 100) ∅, l ≠ [] := by
    intro l hl hnil
    obtain ⟨s, hs1, hs2, hs3, hs4⟩ := A l hl
    rw [hnil] at hs4
    exact absurd hs4 (by decide)
  have hnd := nodup_map_toFinset B hne
  have hsurj : ∀ S ∈ ({lSet} : Finset (Finset (ℕ × ℕ))),
      ∃ l ∈ scanCells (changedMask lShapeField (25:ℚ)) 100 100 10
        (rowMajor 100 100) ∅, l.toFinset = S := by
    intro S hS
    rw [Finset.mem_singleton.mp hS]
    have hp1 : ((10, 10) : ℕ × ℕ) ∈ lSet := by decide
    have hcell : IsCell (changedMask lShapeField (25:ℚ)) 100 100 (10, 10) :=
      lShape_cell_iff.mpr hp1
    have hbig : 10 ≤ Set.ncard
        {q | Reach (changedMask lShapeField (25:ℚ)) 100 100 (10, 10) q} := by
      have hclass : {q | Reach (changedMask lShapeField (25:ℚ)) 100 100 (10, 10) q} =
          (↑lSet : Set (ℕ × ℕ)) := by
        ext q
        exact lShape_class hp1 q
      rw [hclass, Set.ncard_coe_Finset]
      decide
    obtain ⟨l, hl, hpl⟩ := C (10, 10) hcell hbig
    refine ⟨l, hl, ?_⟩
    obtain ⟨s, hs1, hs2, _, _⟩ := A l hl
    ext q
    rw [List.mem_toFinset, hs2 q, Reach_class_eq ((hs2 _).mp hpl) q, lShape_class hp1 q]
  rw [hdef, length_eq_card_classes hnd hmem hsurj, Finset.card_singleton]

/-- The gray-vs-white mask cells are exactly the stamped square. -/
theorem c4_cell_iff {α : Type} [LinearOrderedField α] [FloorRing α] {D t : α}
    (ht0 : 0 < t) (htD : t < D) {p : ℕ × ℕ} :
    IsCell (changedMask (c4Field D) t) 200 200 p ↔ p ∈ c4Square := by
  simp only [IsCell, changedMask, c4Field, decide_eq_true_eq,
    lt_stamp_iff ht0 htD, c4Square, Finset.mem_product, Finset.mem_Icc]
  omega

/-- In the gray-vs-white scenario, each square cell's class is the whole
stamped square. -/
theorem c4_class {α : Type} [LinearOrderedField α] [FloorRing α] {D t : α}
    (ht0 : 0 < t) (htD : t < D) {s : ℕ × ℕ} (hs : s ∈ c4Square) :
    ∀ q, Reach (changedMask (c4Field D) t) 200 200 s q ↔ q ∈ c4Square := by
  intro q
  constructor
  · intro h
    exact (c4_cell_iff ht0 htD).mp (RA_isCell_right h).1
  · intro hq
    have hs' := hs
    have hq' := hq
    simp only [c4Square, Finset.mem_product, Finset.mem_Icc] at hs' hq'
    refine Reach_rect 20 49 20 49 ?_ ?_ ?_
    · intro i j h1 h2 h3 h4
      exact (c4_cell_iff ht0 htD).mpr (Finset.mem_product.mpr
        ⟨Finset.mem_Icc.mpr ⟨h1, h2⟩, Finset.mem_Icc.mpr ⟨h3, h4⟩⟩)
    · exact ⟨hs'.1.1, hs'.1.2, hs'.2.1, hs'.2.2⟩
    · exact ⟨hq'.1.1, hq'.1.2, hq'.2.1, hq'.2.2⟩

/-- The gray-vs-white scenario has exactly one surviving component, whose
members are the stamped square. -/
theorem c4_components {α : Type} [LinearOrderedField α] [FloorRing α] {D t : α}
    (ht0 : 0 < t) (htD : t < D) :
    ∃ l, pixelComponents (c4Field D) t 10 200 200 = [l] ∧
      l.Nodup ∧ ∀ q, q ∈ l ↔ q ∈ c4Square := by
  obtain ⟨A, B, C⟩ := @components_spec (changedMask (c4Field D) t) 200 200 10
  have hdef : pixelComponents (c4Field D) t 10 200 200 =
      scanCells (changedMask (c4Field D) t) 200 200 10 (rowMajor 200 200) ∅ := rfl
  have hmemT : ∀ l ∈ scanCells (changedMask (c4Field D) t) 200 200 10
      (rowMajor 200 200) ∅,
      l.toFinset ∈ ({c4Square} : Finset (Finset (ℕ × ℕ))) := by
    intro l hl
    obtain ⟨s, hs1, hs2, _, _⟩ := A l hl
    have he : l.toFinset = c4Square := by
      ext q
      rw [List.mem_toFinset, hs2 q, c4_class ht0 htD ((c4_cell_iff ht0 htD).mp hs1) q]
    rw [he]
    exact Finset.mem_singleton_self _
  have hne : ∀ l ∈ scanCells (changedMask (c4Field D) t) 200 200 10
      (rowMajor 200 200) ∅, l ≠ [] := by
    intro l hl hnil
    obtain ⟨s, hs1, hs2, hs3, hs4⟩ := A l hl
    rw [hnil] at hs4
    exact absurd hs4 (by decide)
  have hnd := nodup_map_toFinset B hne
  have hsurj : ∀ S ∈ ({c4Square} : Finset (Finset (ℕ × ℕ))),
      ∃ l ∈ scanCells (changedMask (c4Field D) t) 200 200 10
        (rowMajor 200 200) ∅, l.toFinset = S := by
    intro S hS
    rw [Finset.mem_singleton.mp hS]
    have hp1 : ((20, 20) : ℕ × ℕ) ∈ c4Square := by decide
    have hcell : IsCell (changedMask (c4Field D) t) 200 200 (20, 20) :=
      (c4_cell_iff ht0 htD).mpr hp1
    have hbig : 10 ≤ Set.ncard
        {q | Reach (changedMask (c4Field D) t) 200 200 (20, 20) q} := by
      have hclass : {q | Reach (changedMask (c4Field D) t) 200 200 (20, 20) q} =
          (↑c4Square : Set (ℕ × ℕ)) := by
        ext q
        exact c4_class ht0 htD hp1 q
      rw [hclass, Set.ncard_coe_Finset]
      unfold c4Square
      rw [Finset.card_product, Nat.card_Icc]
      norm_num
    obtain ⟨l, hl, hpl⟩ := C (20, 20) hcell hbig
    refine ⟨l, hl, ?_⟩
    obtain ⟨s, hs1, hs2, _, _⟩ := A l hl
    ext q
    rw [List.mem_toFinset, hs2 q, Reach_class_eq ((hs2 _).mp hpl) q,
      c4_class ht0 htD hp1 q]
  have hlen : (scanCells (changedMask (c4Field D) t) 200 200 10
      (rowMajor 200 200) ∅).length = 1 := by
    rw [length_eq_card_classes hnd hmemT hsurj, Finset.card_singleton]
  obtain ⟨l, hl⟩ := List.length_eq_one.mp hlen
  have hml : l ∈ scanCells (changedMask (c4Field D) t) 200 200 10 (rowMajor 200 200) ∅ := by
    rw [hl]
    exact List.mem_cons_self _ _
  obtain ⟨s, hs1, hs2, hnd2, _⟩ := A l hml
  refine ⟨l, by rw [hdef, hl], hnd2, ?_⟩
  intro q
  rw [hs2 q, c4_class ht0 htD ((c4_cell_iff ht0 htD).mp hs1) q]

end Scenarios

section DetectorGlue

variable {α : Type} [LinearOrderedField α] [FloorRing α]

theorem sortDesc_singleton {β κ : Type} [LinearOrder κ] (key : β → κ) (r : β) :
    sortDesc key [r] = [r] := rfl

/-- The block strategy's region list is the significance-sorted
discovery-order list. -/
theorem detect_block_regions_eq (d : ℕ → ℕ → α) (t : α) (bs : ℕ) (mdens : α)
    (mcount W H : ℕ) :
    (_detect_block_based d t bs mdens mcount W H).regions =
      sortDesc (fun r => r.significance)
        (blockDiscovery d t mdens bs mcount W H) := rfl

/-- The pixel strategy's region list is the significance-sorted image of
its surviving components. -/
theorem detect_pixel_regions_eq (d : ℕ → ℕ → α) (t : α) (msize W H : ℕ) :
    (_detect_pixel_based d t msize W H).regions =
      sortDesc (fun r => r.significance)
        ((pixelComponents d t msize W H).map
          (fun l => _compute_region_from_pixels l d)) := rfl

/-- Every region of the pixel strategy comes from one of the surviving
components. -/
theorem pixel_regions_mem {d : ℕ → ℕ → α} {t : α} {msize W H : ℕ} {r : EditRegion α}
    (hr : r ∈ (_detect_pixel_based d t msize W H).regions) :
    ∃ l ∈ pixelComponents d t msize W H, r = _compute_region_from_pixels l d := by
  have hreg : (_detect_pixel_based d t msize W H).regions =
      sortDesc (fun r => r.significance) (pixelDiscovery d t msize W H) := rfl
  rw [hreg, (sortDesc_perm _ _).mem_iff] at hr
  unfold pixelDiscovery at hr
  obtain ⟨l, hl, rfl⟩ := List.mem_map.mp hr
  exact ⟨l, hl, rfl⟩

/-- Every region of the block strategy comes from one of the surviving
block clusters. -/
theorem block_regions_mem {d : ℕ → ℕ → α} {t mdens : α} {bs mcount W H : ℕ}
    {r : EditRegion α}
    (hr : r ∈ (_detect_block_based d t bs mdens mcount W H).regions) :
    ∃ bl ∈ blockComponents d t mdens bs mcount W H,
      r = _compute_region_from_blocks bl bs
        (fun bx b_y => blockStat d t mdens bs W H bx b_y) W H := by
  have hreg : (_detect_block_based d t bs mdens mcount W H).regions =
      sortDesc (fun r => r.significance)
        (blockDiscovery d t mdens bs mcount W H) := rfl
  rw [hreg, (sortDesc_perm _ _).mem_iff] at hr
  unfold blockDiscovery at hr
  obtain ⟨bl, hbl, rfl⟩ := List.mem_map.mp hr
  exact ⟨bl, hbl, rfl⟩

/-- The code's clamped significance agrees with the amended formula on
regions of positive area. -/
theorem compute_significance_eq_amended (area pc : ℕ) (avg : α) (ha : 0 < area) :
    _compute_significance area avg pc = specSignificanceAmended area avg pc := by
  unfold _compute_significance specSignificanceAmended
  rw [if_pos ha]

theorem compute_significance_bounds (area pc : ℕ) {avg : α} (havg : 0 ≤ avg) :
    0 ≤ _compute_significance area avg pc ∧ _compute_significance area avg pc ≤ 100 := by
  have heq : _compute_significance area avg pc =
      pyRound (min ((min ((area : α) / 10000) 1 * (2/5) + avg / 100 * (2/5) +
        (if 0 < area then (pc : α) / (area : α) else 0) * (1/5)) * 100) 100) := rfl
  rw [heq]
  constructor
  · apply pyRound_nonneg
    refine le_min ?_ (by norm_num)
    have h1 : (0:α) ≤ min ((area : α) / 10000) 1 :=
      le_min (by positivity) zero_le_one
    have h2 : (0:α) ≤ avg / 100 := by positivity
    have h3 : (0:α) ≤ (if 0 < area then (pc : α) / (area : α) else 0) := by
      split
      · positivity
      · exact le_refl 0
    have h4 : (0:α) ≤ 2/5 := by norm_num
    have h5 : (0:α) ≤ 1/5 := by norm_num
    have h6 : (0:α) ≤ 100 := by norm_num
    exact mul_nonneg
      (add_nonneg (add_nonneg (mul_nonneg h1 h4) (mul_nonneg h2 h4)) (mul_nonneg h3 h5)) h6
  · apply pyRound_le
    exact (min_le_right _ _).trans_eq (by norm_num)

end DetectorGlue

/-! ## Region aggregate lemmas -/

theorem mul_lt_of_lt_ceilDiv {b W bs : ℕ} (hbs : 0 < bs) (h : b < ceilDiv W bs) :
    b * bs < W := by
  by_contra hle
  push_neg at hle
  have hdiv : (W + bs - 1) / bs < b + 1 := by
    rw [Nat.div_lt_iff_lt_mul hbs]
    have : (b + 1) * bs = b * bs + bs := by ring
    omega
  unfold ceilDiv at h
  omega

theorem blockPixels_disjoint {bs W H : ℕ} (hbs : 0 < bs) {b1 b2 : ℕ × ℕ}
    (hne : b1 ≠ b2) :
    Disjoint (blockPixels bs W H b1.1 b1.2) (blockPixels bs W H b2.1 b2.2) := by
  rw [Finset.disjoint_left]
  intro p h1 h2
  unfold blockPixels at h1 h2
  rw [Finset.mem_product, Finset.mem_Ico, Finset.mem_Ico] at h1 h2
  apply hne
  have e1 : b1.1 = b2.1 := by
    have d1 : p.1 / bs = b1.1 := by
      refine Nat.div_eq_of_lt_le h1.1.1 ?_
      have hm := min_le_left (b1.1 * bs + bs) W
      have hr : (b1.1 + 1) * bs = b1.1 * bs + bs := by ring
      have := h1.1.2
      omega
    have d2 : p.1 / bs = b2.1 := by
      refine Nat.div_eq_of_lt_le h2.1.1 ?_
      have hm := min_le_left (b2.1 * bs + bs) W
      have hr : (b2.1 + 1) * bs = b2.1 * bs + bs := by ring
      have := h2.1.2
      omega
    omega
  have e2 : b1.2 = b2.2 := by
    have d1 : p.2 / bs = b1.2 := by
      refine Nat.div_eq_of_lt_le h1.2.1 ?_
      have hm := min_le_left (b1.2 * bs + bs) H
      have hr : (b1.2 + 1) * bs = b1.2 * bs + bs := by ring
      have := h1.2.2
      omega
    have d2 : p.2 / bs = b2.2 := by
      refine Nat.div_eq_of_lt_le h2.2.1 ?_
      have hm := min_le_left (b2.2 * bs + bs) H
      have hr : (b2.2 + 1) * bs = b2.2 * bs + bs := by ring
      have := h2.2.2
      omega
    omega
  exact Prod.ext e1 e2

section RegionAggregates

variable {α : Type} [LinearOrderedField α] [FloorRing α]

/-- `_compute_region_from_pixels` of a duplicate-free nonempty member
list: its pixel count is the member count, its bounding-box area is
positive, and its significance is the code's formula applied to the area,
the mean difference over the members, and the member count. -/
theorem region_from_pixels_spec {d : ℕ → ℕ → α} {l : List (ℕ × ℕ)}
    (hnd : l.Nodup) (hne : l ≠ []) :
    (_compute_region_from_pixels l d).pixel_count = l.toFinset.card ∧
    0 < (_compute_region_from_pixels l d).width *
      (_compute_region_from_pixels l d).height ∧
    (_compute_region_from_pixels l d).significance =
      _compute_significance
        ((_compute_region_from_pixels l d).width * (_compute_region_from_pixels l d).height)
        ((∑ p ∈ l.toFinset, d p.2 p.1) / (l.toFinset.card : α)) l.toFinset.card := by
  have hcard : l.toFinset.card = l.length := List.toFinset_card_of_nodup hnd
  have hsum : (∑ p ∈ l.toFinset, d p.2 p.1) = (l.map (fun p => d p.2 p.1)).sum :=
    List.sum_toFinset _ hnd
  have hw : (_compute_region_from_pixels l d).width =
      listMax (l.map (fun p => p.1)) - listMin (l.map (fun p => p.1)) + 1 := rfl
  have hh : (_compute_region_from_pixels l d).height =
      listMax (l.map (fun p => p.2)) - listMin (l.map (fun p => p.2)) + 1 := rfl
  refine ⟨by rw [hcard]; rfl, by rw [hw, hh]; positivity, ?_⟩
  have hsig : (_compute_region_from_pixels l d).significance =
      _compute_significance
        ((listMax (l.map (fun p => p.1)) - listMin (l.map (fun p => p.1)) + 1) *
          (listMax (l.map (fun p => p.2)) - listMin (l.map (fun p => p.2)) + 1))
        (if l = [] then 0 else (l.map (fun p => d p.2 p.1)).sum / (l.length : α))
        l.length := rfl
  rw [hsig, hw, hh, if_neg hne, hcard, hsum]

/-- `_compute_region_from_blocks` of a duplicate-free nonempty in-grid
cluster: its pixel count is the number of changed pixels inside its
member blocks, its bounding-box area is positive, and its significance is
the code's formula applied to the area, the mean difference over those
pixels, and their count. -/
theorem region_from_blocks_spec {d : ℕ → ℕ → α} {t : α} (mdens : α) {bs W H : ℕ}
    (hbs : 0 < bs) {bl : List (ℕ × ℕ)} (hnd : bl.Nodup) (hne : bl ≠ [])
    (hcells : ∀ b ∈ bl, b.1 < ceilDiv W bs ∧ b.2 < ceilDiv H bs) :
    (_compute_region_from_blocks bl bs
        (fun bx b_y => blockStat d t mdens bs W H bx b_y) W H).pixel_count =
      (clusterPixels d t bs W H bl).card ∧
    0 < (_compute_region_from_blocks bl bs
        (fun bx b_y => blockStat d t mdens bs W H bx b_y) W H).width *
      (_compute_region_from_blocks bl bs
        (fun bx b_y => blockStat d t mdens bs W H bx b_y) W H).height ∧
    (_compute_region_from_blocks bl bs
        (fun bx b_y => blockStat d t mdens bs W H bx b_y) W H).significance =
      _compute_significance
        ((_compute_region_from_blocks bl bs
            (fun bx b_y => blockStat d t mdens bs W H bx b_y) W H).width *
          (_compute_region_from_blocks bl bs
            (fun bx b_y => blockStat d t mdens bs W H bx b_y) W H).height)
        (if 0 < (clusterPixels d t bs W H bl).card then
          (∑ p ∈ clusterPixels d t bs W H bl, d p.2 p.1) /
            ((clusterPixels d t bs W H bl).card : α)
        else 0)
        (clusterPixels d t bs W H bl).card := by
  have hdisj : ∀ b1 ∈ bl.toFinset, ∀ b2 ∈ bl.toFinset, b1 ≠ b2 →
      Disjoint ((blockPixels bs W H b1.1 b1.2).filter (fun p => t < d p.2 p.1))
        ((blockPixels bs W H b2.1 b2.2).filter (fun p => t < d p.2 p.1)) := by
    intro b1 _ b2 _ hne12
    exact Disjoint.mono (Finset.filter_subset _ _) (Finset.filter_subset _ _)
      (blockPixels_disjoint hbs hne12)
  have hcnt : (clusterPixels d t bs W H bl).card =
      (bl.map (fun b => (blockStat d t mdens bs W H b.1 b.2).changed_pixel_count)).sum := by
    unfold clusterPixels
    rw [Finset.card_biUnion hdisj]
    exact List.sum_toFinset _ hnd
  have hsum : (∑ p ∈ clusterPixels d t bs W H bl, d p.2 p.1) =
      (bl.map (fun b => (blockStat d t mdens bs W H b.1 b.2).total_color_diff)).sum := by
    unfold clusterPixels
    rw [Finset.sum_biUnion]
    · exact List.sum_toFinset _ hnd
    · intro b1 hb1 b2 hb2 hne12
      exact hdisj b1 hb1 b2 hb2 hne12
  have hpc : (_compute_region_from_blocks bl bs
      (fun bx b_y => blockStat d t mdens bs W H bx b_y) W H).pixel_count =
      (bl.map (fun b => (blockStat d t mdens bs W H b.1 b.2).changed_pixel_count)).sum := rfl
  -- bounding box positivity
  have hxne : bl.map (fun b => b.1) ≠ [] := by
    intro h
    exact hne (List.map_eq_nil.mp h)
  have hyne : bl.map (fun b => b.2) ≠ [] := by
    intro h
    exact hne (List.map_eq_nil.mp h)
  obtain ⟨bx0, hbx0mem⟩ := List.exists_mem_of_ne_nil _ hxne
  have hminmem := listMin_mem hxne
  obtain ⟨bmin, hbminmem, hbmineq⟩ := List.mem_map.mp hminmem
  have hminmax : listMin (bl.map (fun b => b.1)) ≤ listMax (bl.map (fun b => b.1)) :=
    le_trans (listMin_le hminmem) (le_listMax hminmem)
  have hminW : listMin (bl.map (fun b => b.1)) * bs < W := by
    rw [← hbmineq]
    exact mul_lt_of_lt_ceilDiv hbs (hcells bmin hbminmem).1
  have hymem := listMin_mem hyne
  obtain ⟨bymin, hbyminmem, hbymineq⟩ := List.mem_map.mp hymem
  have hyminmax : listMin (bl.map (fun b => b.2)) ≤ listMax (bl.map (fun b => b.2)) :=
    le_trans (listMin_le hymem) (le_listMax hymem)
  have hminH : listMin (bl.map (fun b => b.2)) * bs < H := by
    rw [← hbymineq]
    exact mul_lt_of_lt_ceilDiv hbs (hcells bymin hbyminmem).2
  have hwpos : 0 < (_compute_region_from_blocks bl bs
      (fun bx b_y => blockStat d t mdens bs W H bx b_y) W H).width := by
    show 0 < min ((listMax (bl.map (fun b => b.1)) + 1) * bs) W -
      listMin (bl.map (fun b => b.1)) * bs
    have h1 : listMin (bl.map (fun b => b.1)) * bs <
        (listMax (bl.map (fun b => b.1)) + 1) * bs :=
      (Nat.mul_lt_mul_right hbs).mpr (by omega)
    have h2 : listMin (bl.map (fun b => b.1)) * bs <
        min ((listMax (bl.map (fun b => b.1)) + 1) * bs) W := lt_min h1 hminW
    omega
  have hhpos : 0 < (_compute_region_from_blocks bl bs
      (fun bx b_y => blockStat d t mdens bs W H bx b_y) W H).height := by
    show 0 < min ((listMax (bl.map (fun b => b.2)) + 1) * bs) H -
      listMin (bl.map (fun b => b.2)) * bs
    have h1 : listMin (bl.map (fun b => b.2)) * bs <
        (listMax (bl.map (fun b => b.2)) + 1) * bs :=
      (Nat.mul_lt_mul_right hbs).mpr (by omega)
    have h2 : listMin (bl.map (fun b => b.2)) * bs <
        min ((listMax (bl.map (fun b => b.2)) + 1) * bs) H := lt_min h1 hminH
    omega
  refine ⟨by rw [hpc, hcnt], Nat.mul_pos hwpos hhpos, ?_⟩
  have hsig : (_compute_region_from_blocks bl bs
      (fun bx b_y => blockStat d t mdens bs W H bx b_y) W H).significance =
      _compute_significance
        ((_compute_region_from_blocks bl bs
            (fun bx b_y => blockStat d t mdens bs W H bx b_y) W H).width *
          (_compute_region_from_blocks bl bs
            (fun bx b_y => blockStat d t mdens bs W H bx b_y) W H).height)
        (if 0 < (bl.map (fun b =>
            (blockStat d t mdens bs W H b.1 b.2).changed_pixel_count)).sum then
          (bl.map (fun b => (blockStat d t mdens bs W H b.1 b.2).total_color_diff)).sum /
            ((bl.map (fun b =>
              (blockStat d t mdens bs W H b.1 b.2).changed_pixel_count)).sum : α)
        else 0)
        (bl.map (fun b => (blockStat d t mdens bs W H b.1 b.2).changed_pixel_count)).sum :=
    rfl
  rw [hsig, hcnt, hsum]

end RegionAggregates

/-! ## LPIPS region lemmas -/

section LpipsLemmas

variable {α : Type} [LinearOrderedField α] [FloorRing α] {C : Type}

/-- Every raw LPIPS region's significance is `100 × mean(heatmap inside
its filled contour)`, or 0 for an empty mask. -/
theorem lpips_raw_regions_sig {cv : Lpips.CvOps α C} {hm : ℕ → ℕ → α}
    {mina Hh Ww : ℕ} {contours : List C} {r : Lpips.PolyRegion α}
    (hr : r ∈ Lpips.lpipsRawRegions cv hm mina Hh Ww contours) :
    ∃ c : C, r.significance =
      (if 0 < (Lpips.maskMembers (cv.fillMask c) Hh Ww).card then
        ((∑ p ∈ Lpips.maskMembers (cv.fillMask c) Hh Ww, hm p.1 p.2) /
          ((Lpips.maskMembers (cv.fillMask c) Hh Ww).card : α)) * 100
      else 0) := by
  unfold Lpips.lpipsRawRegions at hr
  obtain ⟨c, _, hsome⟩ := List.mem_filterMap.mp hr
  by_cases harea : cv.contourArea c < (mina : α)
  · rw [if_pos harea] at hsome
    cases hsome
  · rw [if_neg harea] at hsome
    refine ⟨c, ?_⟩
    have hrec := Option.some.inj hsome
    rw [← hrec]

/-- Heatmap values in `[0, 1]` over the grid bound every raw LPIPS
region's significance into `[0, 100]`. -/
theorem lpips_raw_bounds {cv : Lpips.CvOps α C} {hm : ℕ → ℕ → α}
    {mina Hh Ww : ℕ} {contours : List C}
    (hb : ∀ y x, y < Hh → x < Ww → 0 ≤ hm y x ∧ hm y x ≤ 1) :
    ∀ r ∈ Lpips.lpipsRawRegions cv hm mina Hh Ww contours,
      0 ≤ r.significance ∧ r.significance ≤ 100 := by
  intro r hr
  obtain ⟨c, hsig⟩ := lpips_raw_regions_sig hr
  rw [hsig]
  split
  · next hpos =>
    have hmem : ∀ p ∈ Lpips.maskMembers (cv.fillMask c) Hh Ww,
        p.1 < Hh ∧ p.2 < Ww := by
      intro p hp
      unfold Lpips.maskMembers at hp
      rw [Finset.mem_filter, Finset.mem_product, Finset.mem_range, Finset.mem_range] at hp
      exact ⟨hp.1.1, hp.1.2⟩
    have hsum0 : 0 ≤ ∑ p ∈ Lpips.maskMembers (cv.fillMask c) Hh Ww, hm p.1 p.2 :=
      Finset.sum_nonneg (fun p hp =>
        (hb p.1 p.2 (hmem p hp).1 (hmem p hp).2).1)
    have hsum1 : (∑ p ∈ Lpips.maskMembers (cv.fillMask c) Hh Ww, hm p.1 p.2) ≤
        ((Lpips.maskMembers (cv.fillMask c) Hh Ww).card : α) := by
      calc (∑ p ∈ Lpips.maskMembers (cv.fillMask c) Hh Ww, hm p.1 p.2)
          ≤ (Lpips.maskMembers (cv.fillMask c) Hh Ww).card • (1 : α) :=
            Finset.sum_le_card_nsmul _ _ 1 (fun p hp =>
              (hb p.1 p.2 (hmem p hp).1 (hmem p hp).2).2)
        _ = ((Lpips.maskMembers (cv.fillMask c) Hh Ww).card : α) := by
            rw [nsmul_eq_mul, mul_one]
    have hcard : (0:α) < ((Lpips.maskMembers (cv.fillMask c) Hh Ww).card : α) := by
      exact_mod_cast hpos
    constructor
    · positivity
    · have hdiv : (∑ p ∈ Lpips.maskMembers (cv.fillMask c) Hh Ww, hm p.1 p.2) /
          ((Lpips.maskMembers (cv.fillMask c) Hh Ww).card : α) ≤ 1 :=
        (div_le_one hcard).mpr hsum1
      calc (∑ p ∈ Lpips.maskMembers (cv.fillMask c) Hh Ww, hm p.1 p.2) /
            ((Lpips.maskMembers (cv.fillMask c) Hh Ww).card : α) * 100
          ≤ 1 * 100 := by
            apply mul_le_mul_of_nonneg_right hdiv
            norm_num
        _ = 100 := by norm_num
  · exact ⟨le_refl 0, by norm_num⟩

end LpipsLemmas

/-! ## Pipeline validation lemmas -/

section PipelineLemmas

variable {α : Type} [LinearOrderedField α] [FloorRing α] {C : Type}

/-- With at least two shape entries on the original, the resize step
always succeeds. -/
theorem resize_ok_of_len (resample : NdImage → ℕ → ℕ → NdImage)
    (original edited : NdImage) (hlen : 2 ≤ original.shape.length) :
    ∃ ed2, resizeIfNeeded resample original edited = Except.ok ed2 := by
  unfold resizeIfNeeded
  by_cases hc : original.shape.take 2 ≠ edited.shape.take 2
  · rw [if_pos hc]
    have h1 : original.shape.get? 1 = some (original.shape.get ⟨1, by omega⟩) :=
      List.get?_eq_get (by omega)
    have h0 : original.shape.get? 0 = some (original.shape.get ⟨0, by omega⟩) :=
      List.get?_eq_get (by omega)
    rw [h1, h0]
    exact ⟨_, rfl⟩
  · rw [if_neg hc]
    exact ⟨_, rfl⟩

/-- A well-formed original never raises: the deterministic pipeline
returns a result, whatever the edited image. -/
theorem detect_ok_of_shapeOk
    (deltaFn : (ℕ → ℕ → ℕ → ℕ) → (ℕ → ℕ → ℕ → ℕ) → ℕ → ℕ → α)
    (resample : NdImage → ℕ → ℕ → NdImage) (original edited : NdImage)
    (options : EditDetectionOptions α) (hok : shapeOk original.shape) :
    ∃ res, detect_edit_regions deltaFn resample original edited options =
      Except.ok res := by
  obtain ⟨ed2, hE⟩ := resize_ok_of_len resample original edited (by have := hok.1; omega)
  unfold detect_edit_regions
  rw [hE]
  dsimp only
  rw [if_pos hok]
  by_cases hb : options.use_block_comparison = true
  · rw [if_pos hb]
    exact ⟨_, rfl⟩
  · rw [if_neg hb]
    exact ⟨_, rfl⟩

/-- A malformed original (with at least two shape entries, so the resize
indexing succeeds) raises exactly the shape-naming ValueError. -/
theorem detect_err_of_not_shapeOk
    (deltaFn : (ℕ → ℕ → ℕ → ℕ) → (ℕ → ℕ → ℕ → ℕ) → ℕ → ℕ → α)
    (resample : NdImage → ℕ → ℕ → NdImage) (original edited : NdImage)
    (options : EditDetectionOptions α) (hok : ¬ shapeOk original.shape)
    (hlen : 2 ≤ original.shape.length) :
    detect_edit_regions deltaFn resample original edited options =
      Except.error (PyError.valueError (expectedRgbMsg original.shape)) := by
  obtain ⟨ed2, hE⟩ := resize_ok_of_len resample original edited hlen
  unfold detect_edit_regions
  rw [hE]
  dsimp only
  rw [if_neg hok]

/-- Deterministic-pipeline errors only arise from a malformed original. -/
theorem detect_err_shape
    (deltaFn : (ℕ → ℕ → ℕ → ℕ) → (ℕ → ℕ → ℕ → ℕ) → ℕ → ℕ → α)
    (resample : NdImage → ℕ → ℕ → NdImage) (original edited : NdImage)
    (options : EditDetectionOptions α) (e : PyError)
    (h : detect_edit_regions deltaFn resample original edited options =
      Except.error e) : ¬ shapeOk original.shape := by
  intro hok
  obtain ⟨res, hres⟩ :=
    detect_ok_of_shapeOk deltaFn resample original edited options hok
  rw [hres] at h
  exact Except.noConfusion h

/-- A well-formed original never raises in the perceptual pipeline. -/
theorem lpips_ok_of_shapeOk (cv : Lpips.CvOps α C)
    (resample : NdImage → ℕ → ℕ → NdImage)
    (score : (ℕ → ℕ → ℕ → α) → (ℕ → ℕ → ℕ → α) → α)
    (interpN interpC : List ((ℕ × ℕ) × α) → ℕ → ℕ → (ℕ → ℕ → α))
    (original edited : NdImage) (options : Lpips.LPIPSDetectionOptions α)
    (hok : shapeOk original.shape) :
    ∃ res, Lpips.detect_edit_regions_lpips cv resample score interpN interpC
      original edited options = Except.ok res := by
  obtain ⟨ed2, hE⟩ := resize_ok_of_len resample original edited (by have := hok.1; omega)
  unfold Lpips.detect_edit_regions_lpips
  rw [hE]
  dsimp only
  rw [if_pos hok]
  exact ⟨_, rfl⟩

/-- A malformed original raises exactly the shape-naming ValueError in the
perceptual pipeline. -/
theorem lpips_err_of_not_shapeOk (cv : Lpips.CvOps α C)
    (resample : NdImage → ℕ → ℕ → NdImage)
    (score : (ℕ → ℕ → ℕ → α) → (ℕ → ℕ → ℕ → α) → α)
    (interpN interpC : List ((ℕ × ℕ) × α) → ℕ → ℕ → (ℕ → ℕ → α))
    (original edited : NdImage) (options : Lpips.LPIPSDetectionOptions α)
    (hok : ¬ shapeOk original.shape) (hlen : 2 ≤ original.shape.length) :
    Lpips.detect_edit_regions_lpips cv resample score interpN interpC
      original edited options =
      Except.error (PyError.valueError (expectedRgbMsg original.shape)) := by
  obtain ⟨ed2, hE⟩ := resize_ok_of_len resample original edited hlen
  unfold Lpips.detect_edit_regions_lpips
  rw [hE]
  dsimp only
  rw [if_neg hok]

/-- Perceptual-pipeline errors only arise from a malformed original. -/
theorem lpips_err_shape (cv : Lpips.CvOps α C)
    (resample : NdImage → ℕ → ℕ → NdImage)
    (score : (ℕ → ℕ → ℕ → α) → (ℕ → ℕ → ℕ → α) → α)
    (interpN interpC : List ((ℕ × ℕ) × α) → ℕ → ℕ → (ℕ → ℕ → α))
    (original edited : NdImage) (options : Lpips.LPIPSDetectionOptions α)
    (e : PyError)
    (h : Lpips.detect_edit_regions_lpips cv resample score interpN interpC
      original edited options = Except.error e) : ¬ shapeOk original.shape := by
  intro hok
  obtain ⟨res, hres⟩ := lpips_ok_of_shapeOk cv resample score interpN interpC
    original edited options hok
  rw [hres] at h
  exact Except.noConfusion h

/-- Nonempty region lists render to nonempty line lists (deterministic
report). -/
theorem detRegionLines_ne_nil {i : ℕ} {rs : List (EditRegion α)}
    (h : rs ≠ []) : regionLines i rs ≠ [] := by
  cases rs with
  | nil => exact absurd rfl h
  | cons r rest => simp [regionLines]

/-- Nonempty region lists render to nonempty line lists (perceptual
report). -/
theorem lpipsRegionLines_ne_nil {i : ℕ} {rs : List (Lpips.PolyRegion α)}
    (h : rs ≠ []) : Lpips.regionLines i rs ≠ [] := by
  cases rs with
  | nil => exact absurd rfl h
  | cons r rest => simp [Lpips.regionLines]

/-- The deterministic report has one numbered line per region, numbered
consecutively from `i`, in list order. -/
theorem detRegionLines_enum :
    ∀ (rs : List (EditRegion α)) (i : ℕ),
      regionLines i rs = (List.enumFrom i rs).map (fun p => regionLine p.1 p.2) := by
  intro rs
  induction rs with
  | nil => intro i; rfl
  | cons r rest ih =>
    intro i
    rw [regionLines, ih (i + 1)]
    rfl

/-- The perceptual report has one numbered line per region, numbered
consecutively from `i`, in list order. -/
theorem lpipsRegionLines_enum :
    ∀ (rs : List (Lpips.PolyRegion α)) (i : ℕ),
      Lpips.regionLines i rs =
        (List.enumFrom i rs).map (fun p => Lpips.regionLine p.1 p.2) := by
  intro rs
  induction rs with
  | nil => intro i; rfl
  | cons r rest ih =>
    intro i
    rw [Lpips.regionLines, ih (i + 1)]
    rfl

/-- Below the fixed 64-pixel floor on either dimension, the heatmap
builder returns the all-zero heatmap. -/
theorem heatmap_small_zero
    (score : (ℕ → ℕ → ℕ → α) → (ℕ → ℕ → ℕ → α) → α)
    (interpN interpC : List ((ℕ × ℕ) × α) → ℕ → ℕ → (ℕ → ℕ → α))
    (original edited : ℕ → ℕ → ℕ → ℕ) (Hh Ww ps st : ℕ)
    (hsmall : Hh < 64 ∨ Ww < 64) :
    Lpips.compute_lpips_heatmap score interpN interpC original edited
      Hh Ww ps st = fun _ _ => 0 := by
  unfold Lpips.compute_lpips_heatmap
  dsimp only
  rw [if_pos hsmall]

end PipelineLemmas

/-! ## Claim theorems -/

/-- C1 (counterexample): the claim's significance formula clamps the
intensity term `avg_diff/100` at 1 and leaves the total unclamped, but
the code leaves the intensity unclamped and clamps the total at 100.  On
a 1×1 field whose single pixel has difference 200 (attainable: CIE76
Delta-E between saturated colours exceeds 200) with `min_region_size = 1`,
the pixel strategy's surviving region has area 1, average difference 200
and pixel count 1, and the code assigns it significance 100, while the
formula as claimed yields 60. -/
theorem claim_C1_counterexample :
    ((_detect_pixel_based (fun _ _ => (200 : ℚ)) 10 1 1 1).regions.map
      (fun r => (r.width, r.height, r.pixel_count, r.avg_color_diff, r.significance))) =
      [(1, 1, 1, 200, 100)] ∧
    specSignificanceClaimed (α := ℚ) 1 200 1 = 60 := by
  constructor
  · have hcomp : pixelComponents (fun _ _ => (200 : ℚ)) 10 1 1 1 = [[(0, 0)]] := by decide
    have hsig100 : _compute_significance (α := ℚ) 1 200 1 = 100 := by
      have heq : _compute_significance (α := ℚ) 1 200 1 =
          pyRound (min ((min (((1:ℕ) : ℚ) / 10000) 1 * (2/5) + (200:ℚ)/100 * (2/5) +
            (if (0:ℕ) < 1 then ((1:ℕ) : ℚ) / ((1:ℕ) : ℚ) else 0) * (1/5)) * 100) 100) := rfl
      have hmin1 : min (((1:ℕ) : ℚ) / 10000) 1 = 1/10000 := by
        rw [min_eq_left (by norm_num)]
        norm_num
      have hval : ((1:ℚ)/10000 * (2/5) + (200:ℚ) / 100 * (2/5) +
          ((1:ℕ) : ℚ) / ((1:ℕ) : ℚ) * (1/5)) * 100 = 25001/250 := by
        push_cast
        norm_num
      have hmin2 : min ((25001 : ℚ)/250) 100 = ((100 : ℤ) : ℚ) := by
        rw [min_eq_right (by norm_num)]
        norm_num
      rw [heq, if_pos (by norm_num : (0:ℕ) < 1), hmin1, hval, hmin2, pyRound_intCast]
    have havg : (_compute_region_from_pixels [((0 : ℕ), (0 : ℕ))]
        (fun _ _ => (200 : ℚ))).avg_color_diff = 200 := by
      show round1 (if ([((0 : ℕ), (0 : ℕ))] : List (ℕ × ℕ)) = [] then (0:ℚ)
        else (([((0 : ℕ), (0 : ℕ))].map (fun _ => (200:ℚ))).sum /
          (([((0 : ℕ), (0 : ℕ))] : List (ℕ × ℕ)).length : ℚ))) = 200
      rw [if_neg (by simp)]
      simp only [List.map_cons, List.map_nil, List.sum_cons, List.sum_nil,
        List.length_cons, List.length_nil]
      have hv : ((200:ℚ) + 0) / (((0 + 1 : ℕ)) : ℚ) = 200 := by norm_num
      rw [hv]
      unfold round1
      have h2000 : (200 : ℚ) * 10 = ((2000 : ℤ) : ℚ) := by norm_num
      rw [h2000, pyRound_intCast]
      norm_num
    have hsg : (_compute_region_from_pixels [((0 : ℕ), (0 : ℕ))]
        (fun _ _ => (200 : ℚ))).significance = 100 := by
      show _compute_significance (α := ℚ) 1
        (if ([((0 : ℕ), (0 : ℕ))] : List (ℕ × ℕ)) = [] then (0:ℚ)
          else (([((0 : ℕ), (0 : ℕ))].map (fun _ => (200:ℚ))).sum /
            (([((0 : ℕ), (0 : ℕ))] : List (ℕ × ℕ)).length : ℚ))) 1 = 100
      rw [if_neg (by simp)]
      simp only [List.map_cons, List.map_nil, List.sum_cons, List.sum_nil,
        List.length_cons, List.length_nil]
      have hv : ((200:ℚ) + 0) / (((0 + 1 : ℕ)) : ℚ) = 200 := by norm_num
      rw [hv]
      exact hsig100
    show ((sortDesc (fun r => r.significance)
      (pixelDiscovery (fun _ _ => (200 : ℚ)) 10 1 1 1)).map
        (fun r => (r.width, r.height, r.pixel_count, r.avg_color_diff, r.significance))) = _
    unfold pixelDiscovery
    rw [hcomp]
    simp only [List.map_cons, List.map_nil, sortDesc_singleton]
    rw [havg, hsg]
    rfl
  · unfold specSignificanceClaimed
    have hmin1 : min (((1:ℕ) : ℚ) / 10000) 1 = 1/10000 := by
      rw [min_eq_left (by norm_num)]
      norm_num
    have hmin2 : min ((200 : ℚ) / 100) 1 = 1 := min_eq_right (by norm_num)
    rw [hmin1, hmin2]
    have hval : ((1:ℚ)/10000 * (2/5) + 1 * (2/5) +
        ((1:ℕ) : ℚ) / ((1:ℕ) : ℚ) * (1/5)) * 100 = 60 + 1/250 := by
      push_cast
      norm_num
    rw [hval]
    exact pyRound_eq_low (by norm_num) (by norm_num)

/-- C1 (amended): for every surviving pixel component and block cluster,
the region's significance equals
`100 × (0.4×min(area/10000,1) + 0.4×(avg_diff/100) + 0.2×(pixel_count/area))`
— the intensity term unclamped — with the total clamped at 100 before
rounding to the nearest integer (half to even), where `area` is the
bounding-box area, `avg_diff` the mean difference over the region's member
pixels (the changed pixels of the member blocks, for the block strategy;
0 when there are none), and `pixel_count` the member-pixel count. -/
theorem claim_C1_amended {α : Type} [LinearOrderedField α] [FloorRing α]
    (d : ℕ → ℕ → α) (t mdens : α) (msize bs mcount W H : ℕ) (hbs : 0 < bs) :
    (∀ r ∈ (_detect_pixel_based d t msize W H).regions,
      ∃ S : Finset (ℕ × ℕ),
        (∃ s, IsCell (changedMask d t) W H s ∧
          ∀ q, q ∈ S ↔ Reach (changedMask d t) W H s q) ∧
        S.Nonempty ∧
        r.pixel_count = S.card ∧
        r.significance = specSignificanceAmended (r.width * r.height)
          ((∑ p ∈ S, d p.2 p.1) / (S.card : α)) S.card) ∧
    (∀ r ∈ (_detect_block_based d t bs mdens mcount W H).regions,
      ∃ bl : List (ℕ × ℕ),
        (∃ s, IsCell (blockChangedMask d t mdens bs W H) (ceilDiv W bs) (ceilDiv H bs) s ∧
          ∀ b, b ∈ bl ↔ Reach (blockChangedMask d t mdens bs W H)
            (ceilDiv W bs) (ceilDiv H bs) s b) ∧
        r.pixel_count = (clusterPixels d t bs W H bl).card ∧
        r.significance = specSignificanceAmended (r.width * r.height)
          (if 0 < (clusterPixels d t bs W H bl).card then
            (∑ p ∈ clusterPixels d t bs W H bl, d p.2 p.1) /
              ((clusterPixels d t bs W H bl).card : α)
          else 0)
          (clusterPixels d t bs W H bl).card) := by
  constructor
  · intro r hr
    obtain ⟨l, hl, rfl⟩ := pixel_regions_mem hr
    obtain ⟨A, _, _⟩ := @components_spec (changedMask d t) W H msize
    obtain ⟨s, hscell, hiff, hnd, _⟩ := A l hl
    have hsl : s ∈ l := (hiff s).mpr (RA_refl hscell (by simp))
    have hne : l ≠ [] := by
      intro h
      rw [h] at hsl
      cases hsl
    obtain ⟨hpc, hpos, hsig⟩ := region_from_pixels_spec (d := d) hnd hne
    refine ⟨l.toFinset, ⟨s, hscell, fun q => by rw [List.mem_toFinset]; exact hiff q⟩,
      ⟨s, List.mem_toFinset.mpr hsl⟩, hpc, ?_⟩
    rw [hsig, compute_significance_eq_amended _ _ _ hpos]
  · intro r hr
    obtain ⟨bl, hbl, rfl⟩ := block_regions_mem hr
    obtain ⟨A, _, _⟩ := @components_spec (blockChangedMask d t mdens bs W H)
      (ceilDiv W bs) (ceilDiv H bs) mcount
    obtain ⟨s, hscell, hiff, hnd, _⟩ := A bl hbl
    have hsl : s ∈ bl := (hiff s).mpr (RA_refl hscell (by simp))
    have hne : bl ≠ [] := by
      intro h
      rw [h] at hsl
      cases hsl
    have hcells : ∀ b ∈ bl, b.1 < ceilDiv W bs ∧ b.2 < ceilDiv H bs := by
      intro b hb
      have hcell : IsCell (blockChangedMask d t mdens bs W H)
          (ceilDiv W bs) (ceilDiv H bs) b := (RA_isCell_right ((hiff b).mp hb)).1
      exact ⟨hcell.1, hcell.2.1⟩
    obtain ⟨hpc, hpos, hsig⟩ := region_from_blocks_spec (d := d) (t := t) mdens
      hbs hnd hne hcells
    refine ⟨bl, ⟨s, hscell, hiff⟩, hpc, ?_⟩
    rw [hsig, compute_significance_eq_amended _ _ _ hpos]

/-- C1 (witness): the amended theorem instantiated at a concrete field
and options. -/
theorem claim_C1_witness :
    (∀ r ∈ (_detect_pixel_based c10Field 10 10 2 2).regions,
      ∃ S : Finset (ℕ × ℕ),
        (∃ s, IsCell (changedMask c10Field 10) 2 2 s ∧
          ∀ q, q ∈ S ↔ Reach (changedMask c10Field 10) 2 2 s q) ∧
        S.Nonempty ∧
        r.pixel_count = S.card ∧
        r.significance = specSignificanceAmended (r.width * r.height)
          ((∑ p ∈ S, c10Field p.2 p.1) / (S.card : ℚ)) S.card) ∧
    (∀ r ∈ (_detect_block_based c10Field 10 8 (1/4) 2 2 2).regions,
      ∃ bl : List (ℕ × ℕ),
        (∃ s, IsCell (blockChangedMask c10Field 10 (1/4) 8 2 2) (ceilDiv 2 8) (ceilDiv 2 8) s ∧
          ∀ b, b ∈ bl ↔ Reach (blockChangedMask c10Field 10 (1/4) 8 2 2)
            (ceilDiv 2 8) (ceilDiv 2 8) s b) ∧
        r.pixel_count = (clusterPixels c10Field 10 8 2 2 bl).card ∧
        r.significance = specSignificanceAmended (r.width * r.height)
          (if 0 < (clusterPixels c10Field 10 8 2 2 bl).card then
            (∑ p ∈ clusterPixels c10Field 10 8 2 2 bl, c10Field p.2 p.1) /
              ((clusterPixels c10Field 10 8 2 2 bl).card : ℚ)
          else 0)
          (clusterPixels c10Field 10 8 2 2 bl).card) :=
  claim_C1_amended c10Field 10 (1/4) 10 8 2 2 2 (by norm_num)

/-- C2 (amended): every deterministic-pipeline region (pixel or block
strategy, over a nonnegative difference field) has significance in
`[0, 100]`; a perceptual region's significance is `100 × mean` of the
heatmap inside it, which is unclamped: it lies in `[0, 100]` whenever the
heatmap values over the image grid lie in `[0, 1]`, but not in general. -/
theorem claim_C2_amended {α : Type} [LinearOrderedField α] [FloorRing α] {C : Type}
    (d : ℕ → ℕ → α) (t mdens : α) (msize bs mcount W H : ℕ)
    (cv : Lpips.CvOps α C) (resample : NdImage → ℕ → ℕ → NdImage)
    (score : (ℕ → ℕ → ℕ → α) → (ℕ → ℕ → ℕ → α) → α)
    (iN iC : List ((ℕ × ℕ) × α) → ℕ → ℕ → (ℕ → ℕ → α))
    (original edited : NdImage) (lopts : Lpips.LPIPSDetectionOptions α)
    (hd : ∀ y x, 0 ≤ d y x) (hbs : 0 < bs) :
    (∀ r ∈ (_detect_pixel_based d t msize W H).regions,
      0 ≤ r.significance ∧ r.significance ≤ 100) ∧
    (∀ r ∈ (_detect_block_based d t bs mdens mcount W H).regions,
      0 ≤ r.significance ∧ r.significance ≤ 100) ∧
    (∀ (hm : ℕ → ℕ → α) (contours : List C) (mina Hh Ww : ℕ),
      (∀ y x, y < Hh → x < Ww → 0 ≤ hm y x ∧ hm y x ≤ 1) →
      ∀ r ∈ Lpips.lpipsRawRegions cv hm mina Hh Ww contours,
        0 ≤ r.significance ∧ r.significance ≤ 100) ∧
    (∀ res, Lpips.detect_edit_regions_lpips cv resample score iN iC original edited lopts =
        Except.ok res →
      ∃ hm : ℕ → ℕ → α, ∃ contours : List C,
        res.regions = sortDesc (fun r => r.significance)
          (Lpips.lpipsRawRegions cv hm lopts.min_area res.image_height
            res.image_width contours) ∧
        ((∀ y x, y < res.image_height → x < res.image_width →
            0 ≤ hm y x ∧ hm y x ≤ 1) →
          ∀ r ∈ res.regions, 0 ≤ r.significance ∧ r.significance ≤ 100)) := by
  refine ⟨?_, ?_, ?_, ?_⟩
  · intro r hr
    obtain ⟨l, hl, rfl⟩ := pixel_regions_mem hr
    obtain ⟨A, _, _⟩ := @components_spec (changedMask d t) W H msize
    obtain ⟨s, hscell, hiff, hnd, _⟩ := A l hl
    have hsl : s ∈ l := (hiff s).mpr (RA_refl hscell (by simp))
    have hne : l ≠ [] := by
      intro h
      rw [h] at hsl
      cases hsl
    obtain ⟨_, _, hsig⟩ := region_from_pixels_spec (d := d) hnd hne
    rw [hsig]
    refine compute_significance_bounds _ _ ?_
    have hsum : 0 ≤ ∑ p ∈ l.toFinset, d p.2 p.1 :=
      Finset.sum_nonneg (fun p _ => hd p.2 p.1)
    positivity
  · intro r hr
    obtain ⟨bl, hbl, rfl⟩ := block_regions_mem hr
    obtain ⟨A, _, _⟩ := @components_spec (blockChangedMask d t mdens bs W H)
      (ceilDiv W bs) (ceilDiv H bs) mcount
    obtain ⟨s, hscell, hiff, hnd, _⟩ := A bl hbl
    have hsl : s ∈ bl := (hiff s).mpr (RA_refl hscell (by simp))
    have hne : bl ≠ [] := by
      intro h
      rw [h] at hsl
      cases hsl
    have hcells : ∀ b ∈ bl, b.1 < ceilDiv W bs ∧ b.2 < ceilDiv H bs := by
      intro b hb
      have hcell : IsCell (blockChangedMask d t mdens bs W H)
          (ceilDiv W bs) (ceilDiv H bs) b := (RA_isCell_right ((hiff b).mp hb)).1
      exact ⟨hcell.1, hcell.2.1⟩
    obtain ⟨_, _, hsig⟩ := region_from_blocks_spec (d := d) (t := t) mdens
      hbs hnd hne hcells
    rw [hsig]
    refine compute_significance_bounds _ _ ?_
    split
    · have hsum : 0 ≤ ∑ p ∈ clusterPixels d t bs W H bl, d p.2 p.1 :=
        Finset.sum_nonneg (fun p _ => hd p.2 p.1)
      positivity
    · exact le_refl 0
  · intro hm contours mina Hh Ww hb
    exact lpips_raw_bounds hb
  · intro res h
    unfold Lpips.detect_edit_regions_lpips at h
    cases hE : resizeIfNeeded resample original edited with
    | error e =>
      rw [hE] at h
      simp at h
    | ok ed2 =>
      rw [hE] at h
      dsimp only at h
      by_cases hs : shapeOk original.shape
      · rw [if_pos hs] at h
        have hrec := Except.ok.inj h
        refine ⟨Lpips.compute_lpips_heatmap score iN iC original.data ed2.data
          (original.shape.getD 0 0) (original.shape.getD 1 0)
          lopts.patch_size lopts.stride, ?_, ?_, ?_⟩
        · exact cv.findContours
            (cv.morphClose
              (cv.morphOpen (fun yy xx =>
                decide (lopts.threshold <
                  Lpips.compute_lpips_heatmap score iN iC original.data ed2.data
                    (original.shape.getD 0 0) (original.shape.getD 1 0)
                    lopts.patch_size lopts.stride yy xx))
                lopts.morphology_kernel_size
                (original.shape.getD 0 0) (original.shape.getD 1 0))
              lopts.morphology_kernel_size
              (original.shape.getD 0 0) (original.shape.getD 1 0))
            (original.shape.getD 0 0) (original.shape.getD 1 0)
        · rw [← hrec]
        · intro hb r hrm
          rw [← hrec] at hrm hb
          have hmem : r ∈ Lpips.lpipsRawRegions cv
              (Lpips.compute_lpips_heatmap score iN iC original.data ed2.data
                (original.shape.getD 0 0) (original.shape.getD 1 0)
                lopts.patch_size lopts.stride)
              lopts.min_area (original.shape.getD 0 0) (original.shape.getD 1 0) _ :=
            (sortDesc_perm _ _).mem_iff.mp hrm
          exact lpips_raw_bounds hb r hmem
      · rw [if_neg hs] at h
        simp at h

/-- C2 (witness): the first two conjuncts of the amended theorem at a
concrete field and options. -/
theorem claim_C2_witness :
    (∀ r ∈ (_detect_pixel_based c10Field 10 10 2 2).regions,
      0 ≤ r.significance ∧ r.significance ≤ 100) ∧
    (∀ r ∈ (_detect_block_based c10Field 10 8 (1/4) 2 2 2).regions,
      0 ≤ r.significance ∧ r.significance ≤ 100) :=
  ⟨(claim_C2_amended c10Field 10 (1/4) 10 8 2 2 2 cvEmpty resampleStub
      (fun _ _ => 0) (fun _ _ _ => fun _ _ => 0) (fun _ _ _ => fun _ _ => 0)
      img10 img10 {}
      (by intro y x; unfold c10Field; split <;> norm_num) (by norm_num)).1,
    (claim_C2_amended c10Field 10 (1/4) 10 8 2 2 2 cvEmpty resampleStub
      (fun _ _ => 0) (fun _ _ _ => fun _ _ => 0) (fun _ _ _ => fun _ _ => 0)
      img10 img10 {}
      (by intro y x; unfold c10Field; split <;> norm_num) (by norm_num)).2.1⟩

/-- C2 (counterexample): the perceptual pipeline does not clamp
significance to 100.  On a 64×64 pair whose patch scorer reports a
perceptual distance of 2 (LPIPS is unbounded above and exceeds 1 on very
different patches), with the cv2 routines behaving as they do on the
resulting all-true mask, the single detected region has significance
200 > 100. -/
theorem claim_C2_counterexample :
    ∃ res, Lpips.detect_edit_regions_lpips cvFull resampleStub (fun _ _ => (2:ℚ))
        (fun _ _ _ => fun _ _ => 0) (fun _ _ _ => fun _ _ => 0) img64 img64 {} =
        Except.ok res ∧
      res.regions.map (fun r => r.significance) = [200] := by
  have hhm : Lpips.compute_lpips_heatmap (α := ℚ) (fun _ _ => 2)
      (fun _ _ _ => fun _ _ => 0) (fun _ _ _ => fun _ _ => 0)
      img64.data img64.data 64 64 64 32 = fun _ _ => 2 := rfl
  have hE : resizeIfNeeded resampleStub img64 img64 = Except.ok img64 := by
    unfold resizeIfNeeded
    rw [if_neg (by simp)]
  unfold Lpips.detect_edit_regions_lpips
  rw [hE]
  dsimp only
  rw [if_pos (by decide : shapeOk img64.shape)]
  refine ⟨_, rfl, ?_⟩
  dsimp only
  simp only [show img64.shape.getD 0 0 = 64 from rfl,
    show img64.shape.getD 1 0 = 64 from rfl]
  rw [hhm]
  have hcont : cvFull.findContours
      (cvFull.morphClose (cvFull.morphOpen
        (fun yy xx => decide ((1/10 : ℚ) < (fun _ _ => (2:ℚ)) yy xx)) 5 64 64) 5 64 64)
      64 64 = [()] := rfl
  rw [hcont]
  have hcard : (Lpips.maskMembers (cvFull.fillMask ()) 64 64).card = 4096 := by
    have hfm : cvFull.fillMask () = fun _ _ => true := rfl
    rw [hfm]
    unfold Lpips.maskMembers
    rw [Finset.filter_true_of_mem (by intro p _; rfl)]
    rw [Finset.card_product, Finset.card_range]
  have hsum : (∑ p ∈ Lpips.maskMembers (cvFull.fillMask ()) 64 64,
      ((fun _ _ => (2:ℚ)) p.1 p.2)) = 8192 := by
    rw [Finset.sum_const, hcard]
    norm_num
  have hraw : Lpips.lpipsRawRegions cvFull (fun _ _ => (2:ℚ)) 100 64 64 [()] =
      [{ polygon := cvFull.approxPolyDP () ((1/50 : ℚ) * cvFull.arcLength ())
         bounding_box := cvFull.boundingRect ()
         center := if 0 < (cvFull.moments ()).1 then
             (pyTrunc ((cvFull.moments ()).2.1 / (cvFull.moments ()).1),
              pyTrunc ((cvFull.moments ()).2.2 / (cvFull.moments ()).1))
           else ((cvFull.boundingRect ()).1 +
               (((cvFull.boundingRect ()).2.2.1 / 2 : ℕ) : ℤ),
             (cvFull.boundingRect ()).2.1 +
               (((cvFull.boundingRect ()).2.2.2 / 2 : ℕ) : ℤ))
         area := pyTrunc (cvFull.contourArea ())
         significance :=
           if 0 < (Lpips.maskMembers (cvFull.fillMask ()) 64 64).card then
             ((∑ p ∈ Lpips.maskMembers (cvFull.fillMask ()) 64 64,
               ((fun _ _ => (2:ℚ)) p.1 p.2)) /
               ((Lpips.maskMembers (cvFull.fillMask ()) 64 64).card : ℚ)) * 100
           else 0 }] := by
    unfold Lpips.lpipsRawRegions
    rw [List.filterMap_cons, List.filterMap_nil]
    rw [if_neg (show ¬ (cvFull.contourArea () < ((100:ℕ) : ℚ)) by
      show ¬ ((3969:ℚ) < ((100:ℕ) : ℚ))
      push_cast
      norm_num)]
  rw [hraw, sortDesc_singleton, List.map_cons, List.map_nil]
  dsimp only
  rw [hsum, hcard, if_pos (by norm_num : (0:ℕ) < 4096)]
  norm_num

/-- C10: in both deterministic strategies, `total_changed_pixels` and
`percent_changed` are computed from the raw per-pixel threshold mask
before any density, `min_region_size` or `min_block_count` filtering (the
totals equal the raw changed-pixel count of the threshold mask, for every
choice of the filtering parameters, and agree between the strategies); and
for some inputs the result has `total_changed_pixels > 0` and
`percent_changed > 0` while its regions list is empty — witnessed by a
2×2 field with one changed pixel, for each strategy. -/
theorem claim_C10 {α : Type} [LinearOrderedField α] [FloorRing α]
    (d : ℕ → ℕ → α) (t : α) (m bs cnt W H : ℕ) (dens : α) :
    ((_detect_pixel_based d t m W H).total_changed_pixels =
        ((Finset.range W ×ˢ Finset.range H).filter (fun p => t < d p.2 p.1)).card ∧
      (_detect_block_based d t bs dens cnt W H).total_changed_pixels =
        ((Finset.range W ×ˢ Finset.range H).filter (fun p => t < d p.2 p.1)).card ∧
      (_detect_pixel_based d t m W H).percent_changed =
        ((((Finset.range W ×ˢ Finset.range H).filter
          (fun p => t < d p.2 p.1)).card : α) / ((W * H : ℕ) : α)) * 100 ∧
      (_detect_block_based d t bs dens cnt W H).percent_changed =
        ((((Finset.range W ×ˢ Finset.range H).filter
          (fun p => t < d p.2 p.1)).card : α) / ((W * H : ℕ) : α)) * 100) ∧
    ((_detect_pixel_based c10Field 10 10 2 2).regions = [] ∧
      0 < (_detect_pixel_based c10Field 10 10 2 2).total_changed_pixels ∧
      0 < (_detect_pixel_based c10Field 10 10 2 2).percent_changed) ∧
    ((_detect_block_based c10Field 10 8 (1/4) 2 2 2).regions = [] ∧
      0 < (_detect_block_based c10Field 10 8 (1/4) 2 2 2).total_changed_pixels ∧
      0 < (_detect_block_based c10Field 10 8 (1/4) 2 2 2).percent_changed) := by
  refine ⟨⟨rfl, rfl, rfl, rfl⟩, ⟨?_, ?_, ?_⟩, ⟨?_, ?_, ?_⟩⟩
  · have hcomp : pixelComponents c10Field 10 10 2 2 = [] := by decide
    show sortDesc (fun r => r.significance)
      (pixelDiscovery c10Field 10 10 2 2) = []
    unfold pixelDiscovery
    rw [hcomp]
    rfl
  · decide
  · have htot : totalChanged c10Field 10 2 2 = 1 := by decide
    show (0:ℚ) < ((totalChanged c10Field 10 2 2 : ℚ) / ((2 * 2 : ℕ) : ℚ)) * 100
    rw [htot]
    norm_num
  · have hmask : blockChangedMask c10Field 10 (1/4 : ℚ) 8 2 2 =
        fun bx b_y => decide (bx = 0 ∧ b_y = 0) := by
      funext bx b_y
      simp only [blockChangedMask, blockStat]
      by_cases h0 : bx = 0 ∧ b_y = 0
      · obtain ⟨rfl, rfl⟩ := h0
        have hpx : (blockPixels 8 2 2 0 0).card = 4 := by decide
        have hch : ((blockPixels 8 2 2 0 0).filter
            (fun p => (10:ℚ) < c10Field p.2 p.1)).card = 1 := by decide
        rw [hpx, hch, decide_eq_true (by push_cast; norm_num :
          (1/4 : ℚ) ≤ ((1:ℕ):ℚ)/((4:ℕ):ℚ))]
        decide
      · have hpx : blockPixels 8 2 2 bx b_y = ∅ := by
          unfold blockPixels
          rcases Nat.eq_zero_or_pos bx with rfl | hbx
          · rcases Nat.eq_zero_or_pos b_y with rfl | hby
            · exact absurd ⟨rfl, rfl⟩ h0
            · have h2 : Finset.Ico (b_y * 8) (min (b_y * 8 + 8) 2) = ∅ :=
                Finset.Ico_eq_empty (by omega)
              rw [h2, Finset.product_empty]
          · have h1 : Finset.Ico (bx * 8) (min (bx * 8 + 8) 2) = ∅ :=
              Finset.Ico_eq_empty (by omega)
            rw [h1, Finset.empty_product]
        rw [hpx]
        simp only [Finset.filter_empty, Finset.card_empty, Nat.cast_zero, div_zero]
        rw [decide_eq_false (by norm_num : ¬ ((1/4 : ℚ) ≤ 0)),
          decide_eq_false h0]
    have hcomp : blockComponents c10Field 10 (1/4 : ℚ) 8 2 2 2 = [] := by
      show scanCells (blockChangedMask c10Field 10 (1/4) 8 2 2) (ceilDiv 2 8)
        (ceilDiv 2 8) 2 (rowMajor (ceilDiv 2 8) (ceilDiv 2 8)) ∅ = []
      rw [hmask]
      decide
    show sortDesc (fun r => r.significance)
      (blockDiscovery c10Field 10 (1/4) 8 2 2 2) = []
    unfold blockDiscovery
    rw [hcomp]
    rfl
  · decide
  · have htot : totalChanged c10Field 10 2 2 = 1 := by decide
    show (0:ℚ) < ((totalChanged c10Field 10 2 2 : ℚ) / ((2 * 2 : ℕ) : ℚ)) * 100
    rw [htot]
    norm_num

set_option maxRecDepth 2000 in
/-- C3: for every difference field and threshold, the pixel strategy's
regions are, up to the final significance sort, exactly one region per
4-connected component of the changed-pixel mask having at least
`min_region_size` pixels (each output component is a full reachability
class, the components are pairwise disjoint, and every large-enough
component appears); concretely, the two-disjoint-squares scenario yields
exactly two regions and the L-shape scenario exactly one. -/
theorem claim_C3 :
    (∀ (β : Type) [instF : LinearOrderedField β] [instR : FloorRing β]
        (d : ℕ → ℕ → β) (t : β) (msize W H : ℕ),
      ∃ ps : List (List (ℕ × ℕ)),
        List.Perm (_detect_pixel_based d t msize W H).regions
          (ps.map (fun l => _compute_region_from_pixels l d)) ∧
        (∀ l ∈ ps, ∃ s, IsCell (changedMask d t) W H s ∧
            (∀ q, q ∈ l ↔ Reach (changedMask d t) W H s q) ∧
            l.Nodup ∧ msize ≤ l.length) ∧
        List.Pairwise (fun l1 l2 => ∀ q, q ∈ l1 → q ∉ l2) ps ∧
        (∀ p : ℕ × ℕ, IsCell (changedMask d t) W H p →
          msize ≤ Set.ncard {q | Reach (changedMask d t) W H p q} →
          ∃ l ∈ ps, p ∈ l)) ∧
    (_detect_pixel_based twoSquaresField (25:ℚ) 10 100 100).regions.length = 2 ∧
    (_detect_pixel_based lShapeField (25:ℚ) 10 100 100).regions.length = 1 := by
  refine ⟨?_, ?_, ?_⟩
  · intro β _ _ d t msize W H
    refine ⟨pixelComponents d t msize W H, ?_, ?_, ?_, ?_⟩
    · rw [detect_pixel_regions_eq]
      exact sortDesc_perm _ _
    · exact (@components_spec (changedMask d t) W H msize).1
    · exact (@components_spec (changedMask d t) W H msize).2.1
    · exact (@components_spec (changedMask d t) W H msize).2.2
  · rw [detect_pixel_regions_eq, (sortDesc_perm _ _).length_eq, List.length_map,
      twoSquares_components_length]
  · rw [detect_pixel_regions_eq, (sortDesc_perm _ _).length_eq, List.length_map,
      lShape_components_length]

set_option maxRecDepth 2000 in
/-- C4: on the 200×200 gray background with a 30×30 white square stamped
at `(20, 20)` — difference field `c4Field D` with `D` the gray-vs-white
Delta-E, 0 elsewhere — the pixel strategy with `min_region_size = 10` and
any threshold strictly between 0 and `D` returns exactly one region,
whose bounding box spans `x, y ∈ [20, 49]` (origin `(20, 20)`, size
30×30) and whose `pixel_count` is 900. -/
theorem claim_C4 {α : Type} [LinearOrderedField α] [FloorRing α] (D t : α)
    (ht0 : 0 < t) (htD : t < D) :
    ∃ r : EditRegion α,
      (_detect_pixel_based (c4Field D) t 10 200 200).regions = [r] ∧
      r.x = 20 ∧ r.y = 20 ∧ r.width = 30 ∧ r.height = 30 ∧
      r.pixel_count = 900 := by
  obtain ⟨l, hps, hnd, hmem⟩ := c4_components ht0 htD
  have h2020 : ((20, 20) : ℕ × ℕ) ∈ l := (hmem _).mpr (by decide)
  have h4920 : ((49, 20) : ℕ × ℕ) ∈ l := (hmem _).mpr (by decide)
  have h2049 : ((20, 49) : ℕ × ℕ) ∈ l := (hmem _).mpr (by decide)
  have hbounds : ∀ p ∈ l, 20 ≤ p.1 ∧ p.1 ≤ 49 ∧ 20 ≤ p.2 ∧ p.2 ≤ 49 := by
    intro p hp
    have hc := (hmem p).mp hp
    simp only [c4Square, Finset.mem_product, Finset.mem_Icc] at hc
    exact ⟨hc.1.1, hc.1.2, hc.2.1, hc.2.2⟩
  have hminx : listMin (l.map (fun p => p.1)) = 20 :=
    listMin_eq (List.mem_map.mpr ⟨(20, 20), h2020, rfl⟩)
      (by rintro v hv
          obtain ⟨p, hp, rfl⟩ := List.mem_map.mp hv
          exact (hbounds p hp).1)
  have hmaxx : listMax (l.map (fun p => p.1)) = 49 :=
    listMax_eq (List.mem_map.mpr ⟨(49, 20), h4920, rfl⟩)
      (by rintro v hv
          obtain ⟨p, hp, rfl⟩ := List.mem_map.mp hv
          exact (hbounds p hp).2.1)
  have hminy : listMin (l.map (fun p => p.2)) = 20 :=
    listMin_eq (List.mem_map.mpr ⟨(20, 20), h2020, rfl⟩)
      (by rintro v hv
          obtain ⟨p, hp, rfl⟩ := List.mem_map.mp hv
          exact (hbounds p hp).2.2.1)
  have hmaxy : listMax (l.map (fun p => p.2)) = 49 :=
    listMax_eq (List.mem_map.mpr ⟨(20, 49), h2049, rfl⟩)
      (by rintro v hv
          obtain ⟨p, hp, rfl⟩ := List.mem_map.mp hv
          exact (hbounds p hp).2.2.2)
  refine ⟨_compute_region_from_pixels l (c4Field D), ?_, ?_, ?_, ?_, ?_, ?_⟩
  · rw [detect_pixel_regions_eq, hps, List.map_cons, List.map_nil, sortDesc_singleton]
  · show listMin (l.map (fun p => p.1)) = 20
    exact hminx
  · show listMin (l.map (fun p => p.2)) = 20
    exact hminy
  · show listMax (l.map (fun p => p.1)) - listMin (l.map (fun p => p.1)) + 1 = 30
    rw [hminx, hmaxx]
  · show listMax (l.map (fun p => p.2)) - listMin (l.map (fun p => p.2)) + 1 = 30
    rw [hminy, hmaxy]
  · show l.length = 900
    rw [← List.toFinset_card_of_nodup hnd]
    have hset : l.toFinset = c4Square := by
      ext q
      rw [List.mem_toFinset]
      exact hmem q
    rw [hset]
    unfold c4Square
    rw [Finset.card_product, Nat.card_Icc]

/-- Witness for C4 over ℚ at `D = 2`, `t = 1`. -/
theorem claim_C4_witness :
    (0:ℚ) < 1 ∧ (1:ℚ) < 2 ∧
      ∃ r : EditRegion ℚ,
        (_detect_pixel_based (c4Field (2:ℚ)) 1 10 200 200).regions = [r] ∧
        r.x = 20 ∧ r.y = 20 ∧ r.width = 30 ∧ r.height = 30 ∧
        r.pixel_count = 900 :=
  ⟨by norm_num, by norm_num, claim_C4 (2:ℚ) 1 (by norm_num) (by norm_num)⟩

/-- C5: in both pipelines, whenever the two inputs' pixel dimensions
differ the edited image is resampled onto the original's grid before any
comparison (the run equals a run against exactly the resampled image, with
no further resampling), and every successfully returned result carries the
original image's dimensions (`shape[1]` as width, `shape[0]` as height). -/
theorem claim_C5 :
    (∀ (β : Type) [instF : LinearOrderedField β] [instR : FloorRing β]
        (deltaFn : (ℕ → ℕ → ℕ → ℕ) → (ℕ → ℕ → ℕ → ℕ) → ℕ → ℕ → β)
        (resample : NdImage → ℕ → ℕ → NdImage) (original edited : NdImage)
        (options : EditDetectionOptions β) (res : EditDetectionResult β),
      detect_edit_regions deltaFn resample original edited options = Except.ok res →
      res.image_width = original.shape.getD 1 0 ∧
        res.image_height = original.shape.getD 0 0) ∧
    (∀ (β : Type) [instF : LinearOrderedField β] [instR : FloorRing β] (C : Type)
        (cv : Lpips.CvOps β C) (resample : NdImage → ℕ → ℕ → NdImage)
        (score : (ℕ → ℕ → ℕ → β) → (ℕ → ℕ → ℕ → β) → β)
        (interpN interpC : List ((ℕ × ℕ) × β) → ℕ → ℕ → (ℕ → ℕ → β))
        (original edited : NdImage) (options : Lpips.LPIPSDetectionOptions β)
        (res : Lpips.LPIPSDetectionResult β),
      Lpips.detect_edit_regions_lpips cv resample score interpN interpC
          original edited options = Except.ok res →
      res.image_width = original.shape.getD 1 0 ∧
        res.image_height = original.shape.getD 0 0) ∧
    (∀ (β : Type) [instF : LinearOrderedField β] [instR : FloorRing β]
        (deltaFn : (ℕ → ℕ → ℕ → ℕ) → (ℕ → ℕ → ℕ → ℕ) → ℕ → ℕ → β)
        (resample : NdImage → ℕ → ℕ → NdImage) (original edited : NdImage)
        (options : EditDetectionOptions β) (w h : ℕ),
      original.shape.take 2 ≠ edited.shape.take 2 →
      original.shape.get? 1 = some w → original.shape.get? 0 = some h →
      detect_edit_regions deltaFn resample original edited options =
        detect_edit_regions deltaFn (fun img _ _ => img) original
          (resample edited w h) options) ∧
    (∀ (β : Type) [instF : LinearOrderedField β] [instR : FloorRing β] (C : Type)
        (cv : Lpips.CvOps β C) (resample : NdImage → ℕ → ℕ → NdImage)
        (score : (ℕ → ℕ → ℕ → β) → (ℕ → ℕ → ℕ → β) → β)
        (interpN interpC : List ((ℕ × ℕ) × β) → ℕ → ℕ → (ℕ → ℕ → β))
        (original edited : NdImage) (options : Lpips.LPIPSDetectionOptions β)
        (w h : ℕ),
      original.shape.take 2 ≠ edited.shape.take 2 →
      original.shape.get? 1 = some w → original.shape.get? 0 = some h →
      Lpips.detect_edit_regions_lpips cv resample score interpN interpC
          original edited options =
        Lpips.detect_edit_regions_lpips cv (fun img _ _ => img) score interpN interpC
          original (resample edited w h) options) := by
  refine ⟨?_, ?_, ?_, ?_⟩
  · intro β _ _ deltaFn resample original edited options res h
    unfold detect_edit_regions at h
    cases hE : resizeIfNeeded resample original edited with
    | error e =>
      rw [hE] at h
      dsimp only at h
      exact Except.noConfusion h
    | ok edited2 =>
      rw [hE] at h
      dsimp only at h
      by_cases hok : shapeOk original.shape
      · rw [if_pos hok] at h
        by_cases hb : options.use_block_comparison = true
        · rw [if_pos hb] at h
          injection h with h2
          subst h2
          exact ⟨rfl, rfl⟩
        · rw [if_neg hb] at h
          injection h with h2
          subst h2
          exact ⟨rfl, rfl⟩
      · rw [if_neg hok] at h
        exact Except.noConfusion h
  · intro β _ _ C cv resample score interpN interpC original edited options res h
    unfold Lpips.detect_edit_regions_lpips at h
    cases hE : resizeIfNeeded resample original edited with
    | error e =>
      rw [hE] at h
      dsimp only at h
      exact Except.noConfusion h
    | ok edited2 =>
      rw [hE] at h
      dsimp only at h
      by_cases hok : shapeOk original.shape
      · rw [if_pos hok] at h
        injection h with h2
        subst h2
        exact ⟨rfl, rfl⟩
      · rw [if_neg hok] at h
        exact Except.noConfusion h
  · intro β _ _ deltaFn resample original edited options w h hne hw hh
    have hE1 : resizeIfNeeded resample original edited =
        Except.ok (resample edited w h) := by
      unfold resizeIfNeeded
      rw [if_pos hne, hw, hh]
    have hE2 : resizeIfNeeded (fun img _ _ => img) original (resample edited w h) =
        Except.ok (resample edited w h) := by
      unfold resizeIfNeeded
      by_cases hc : original.shape.take 2 ≠ (resample edited w h).shape.take 2
      · rw [if_pos hc, hw, hh]
      · rw [if_neg hc]
    unfold detect_edit_regions
    rw [hE1, hE2]
  · intro β _ _ C cv resample score interpN interpC original edited options w h
      hne hw hh
    have hE1 : resizeIfNeeded resample original edited =
        Except.ok (resample edited w h) := by
      unfold resizeIfNeeded
      rw [if_pos hne, hw, hh]
    have hE2 : resizeIfNeeded (fun img _ _ => img) original (resample edited w h) =
        Except.ok (resample edited w h) := by
      unfold resizeIfNeeded
      by_cases hc : original.shape.take 2 ≠ (resample edited w h).shape.take 2
      · rw [if_pos hc, hw, hh]
      · rw [if_neg hc]
    unfold Lpips.detect_edit_regions_lpips
    rw [hE1, hE2]

/-- C6 (amended): both pipelines validate only the original image, with
the source's test `len(shape) == 3 and shape[2] >= 3`.  When the test
passes, no error is raised for any edited input — a dimension mismatch is
always resolved by resampling; when it fails (and the shape has at least
two entries, so the resize indexing is defined), the run raises exactly
the ValueError naming the offending shape; and every error implies the
original failed the test. -/
theorem claim_C6_amended :
    (∀ (β : Type) [instF : LinearOrderedField β] [instR : FloorRing β]
        (deltaFn : (ℕ → ℕ → ℕ → ℕ) → (ℕ → ℕ → ℕ → ℕ) → ℕ → ℕ → β)
        (resample : NdImage → ℕ → ℕ → NdImage) (original edited : NdImage)
        (options : EditDetectionOptions β),
      shapeOk original.shape →
      ∃ res, detect_edit_regions deltaFn resample original edited options =
        Except.ok res) ∧
    (∀ (β : Type) [instF : LinearOrderedField β] [instR : FloorRing β]
        (deltaFn : (ℕ → ℕ → ℕ → ℕ) → (ℕ → ℕ → ℕ → ℕ) → ℕ → ℕ → β)
        (resample : NdImage → ℕ → ℕ → NdImage) (original edited : NdImage)
        (options : EditDetectionOptions β),
      ¬ shapeOk original.shape → 2 ≤ original.shape.length →
      detect_edit_regions deltaFn resample original edited options =
        Except.error (PyError.valueError (expectedRgbMsg original.shape))) ∧
    (∀ (β : Type) [instF : LinearOrderedField β] [instR : FloorRing β]
        (deltaFn : (ℕ → ℕ → ℕ → ℕ) → (ℕ → ℕ → ℕ → ℕ) → ℕ → ℕ → β)
        (resample : NdImage → ℕ → ℕ → NdImage) (original edited : NdImage)
        (options : EditDetectionOptions β) (e : PyError),
      detect_edit_regions deltaFn resample original edited options =
        Except.error e → ¬ shapeOk original.shape) ∧
    (∀ (β : Type) [instF : LinearOrderedField β] [instR : FloorRing β] (C : Type)
        (cv : Lpips.CvOps β C) (resample : NdImage → ℕ → ℕ → NdImage)
        (score : (ℕ → ℕ → ℕ → β) → (ℕ → ℕ → ℕ → β) → β)
        (interpN interpC : List ((ℕ × ℕ) × β) → ℕ → ℕ → (ℕ → ℕ → β))
        (original edited : NdImage) (options : Lpips.LPIPSDetectionOptions β),
      shapeOk original.shape →
      ∃ res, Lpips.detect_edit_regions_lpips cv resample score interpN interpC
        original edited options = Except.ok res) ∧
    (∀ (β : Type) [instF : LinearOrderedField β] [instR : FloorRing β] (C : Type)
        (cv : Lpips.CvOps β C) (resample : NdImage → ℕ → ℕ → NdImage)
        (score : (ℕ → ℕ → ℕ → β) → (ℕ → ℕ → ℕ → β) → β)
        (interpN interpC : List ((ℕ × ℕ) × β) → ℕ → ℕ → (ℕ → ℕ → β))
        (original edited : NdImage) (options : Lpips.LPIPSDetectionOptions β),
      ¬ shapeOk original.shape → 2 ≤ original.shape.length →
      Lpips.detect_edit_regions_lpips cv resample score interpN interpC
        original edited options =
        Except.error (PyError.valueError (expectedRgbMsg original.shape))) ∧
    (∀ (β : Type) [instF : LinearOrderedField β] [instR : FloorRing β] (C : Type)
        (cv : Lpips.CvOps β C) (resample : NdImage → ℕ → ℕ → NdImage)
        (score : (ℕ → ℕ → ℕ → β) → (ℕ → ℕ → ℕ → β) → β)
        (interpN interpC : List ((ℕ × ℕ) × β) → ℕ → ℕ → (ℕ → ℕ → β))
        (original edited : NdImage) (options : Lpips.LPIPSDetectionOptions β)
        (e : PyError),
      Lpips.detect_edit_regions_lpips cv resample score interpN interpC
        original edited options = Except.error e → ¬ shapeOk original.shape) := by
  refine ⟨?_, ?_, ?_, ?_, ?_, ?_⟩
  · intro β _ _ deltaFn resample original edited options hok
    exact detect_ok_of_shapeOk deltaFn resample original edited options hok
  · intro β _ _ deltaFn resample original edited options hok hlen
    exact detect_err_of_not_shapeOk deltaFn resample original edited options hok hlen
  · intro β _ _ deltaFn resample original edited options e h
    exact detect_err_shape deltaFn resample original edited options e h
  · intro β _ _ C cv resample score interpN interpC original edited options hok
    exact lpips_ok_of_shapeOk cv resample score interpN interpC
      original edited options hok
  · intro β _ _ C cv resample score interpN interpC original edited options hok hlen
    exact lpips_err_of_not_shapeOk cv resample score interpN interpC
      original edited options hok hlen
  · intro β _ _ C cv resample score interpN interpC original edited options e h
    exact lpips_err_shape cv resample score interpN interpC
      original edited options e h

/-- C6 (counterexample): a 10×10 5-channel array is malformed in the
claim's sense (a colour array must have 3 or 4 channels), yet the
deterministic detector accepts it — both as original and as edited — and
returns a result instead of raising the shape validation error. -/
theorem claim_C6_counterexample :
    specMalformedShape img5.shape ∧
      ∃ res, detect_edit_regions (fun _ _ => fun _ _ => (0:ℚ)) resampleStub
        img5 img5 {} = Except.ok res :=
  ⟨by decide,
   detect_ok_of_shapeOk (fun _ _ => fun _ _ => (0:ℚ)) resampleStub
     img5 img5 {} (by decide)⟩

/-- C7: when either spatial dimension is below the fixed floor 64, the
heatmap builder returns the all-zero H×W heatmap for every scorer and
interpolator (no exception); and the perceptual pipeline — for cv2
routines that preserve an all-false mask under morphology and find no
contours in it, and any nonnegative threshold — returns a result with an
empty region list, zero total changed area and zero percent, with no
exception; concretely so on a 10×10 RGB pair. -/
theorem claim_C7 :
    (∀ (β : Type) [instF : LinearOrderedField β] [instR : FloorRing β]
        (score : (ℕ → ℕ → ℕ → β) → (ℕ → ℕ → ℕ → β) → β)
        (interpN interpC : List ((ℕ × ℕ) × β) → ℕ → ℕ → (ℕ → ℕ → β))
        (original edited : ℕ → ℕ → ℕ → ℕ) (Hh Ww ps st : ℕ),
      Hh < 64 ∨ Ww < 64 →
      Lpips.compute_lpips_heatmap score interpN interpC original edited
        Hh Ww ps st = fun _ _ => 0) ∧
    (∀ (β : Type) [instF : LinearOrderedField β] [instR : FloorRing β] (C : Type)
        (cv : Lpips.CvOps β C) (resample : NdImage → ℕ → ℕ → NdImage)
        (score : (ℕ → ℕ → ℕ → β) → (ℕ → ℕ → ℕ → β) → β)
        (interpN interpC : List ((ℕ × ℕ) × β) → ℕ → ℕ → (ℕ → ℕ → β))
        (original edited : NdImage) (options : Lpips.LPIPSDetectionOptions β),
      0 ≤ options.threshold →
      shapeOk original.shape →
      original.shape.getD 0 0 < 64 ∨ original.shape.getD 1 0 < 64 →
      (∀ k h w, cv.morphOpen (fun _ _ => false) k h w = fun _ _ => false) →
      (∀ k h w, cv.morphClose (fun _ _ => false) k h w = fun _ _ => false) →
      (∀ h w, cv.findContours (fun _ _ => false) h w = []) →
      ∃ res, Lpips.detect_edit_regions_lpips cv resample score interpN interpC
          original edited options = Except.ok res ∧
        res.regions = [] ∧ res.total_changed_area = 0 ∧
        res.percent_changed = 0) ∧
    (∃ res, Lpips.detect_edit_regions_lpips cvEmpty resampleStub
        (fun _ _ => (0:ℚ)) (fun _ _ _ => fun _ _ => 0) (fun _ _ _ => fun _ _ => 0)
        img10 img10 {} = Except.ok res ∧ res.regions = []) := by
  have hB : ∀ (β : Type) [instF : LinearOrderedField β] [instR : FloorRing β]
      (C : Type)
      (cv : Lpips.CvOps β C) (resample : NdImage → ℕ → ℕ → NdImage)
      (score : (ℕ → ℕ → ℕ → β) → (ℕ → ℕ → ℕ → β) → β)
      (interpN interpC : List ((ℕ × ℕ) × β) → ℕ → ℕ → (ℕ → ℕ → β))
      (original edited : NdImage) (options : Lpips.LPIPSDetectionOptions β),
      0 ≤ options.threshold →
      shapeOk original.shape →
      original.shape.getD 0 0 < 64 ∨ original.shape.getD 1 0 < 64 →
      (∀ k h w, cv.morphOpen (fun _ _ => false) k h w = fun _ _ => false) →
      (∀ k h w, cv.morphClose (fun _ _ => false) k h w = fun _ _ => false) →
      (∀ h w, cv.findContours (fun _ _ => false) h w = []) →
      ∃ res, Lpips.detect_edit_regions_lpips cv resample score interpN interpC
          original edited options = Except.ok res ∧
        res.regions = [] ∧ res.total_changed_area = 0 ∧
        res.percent_changed = 0 := by
    intro β _ _ C cv resample score interpN interpC original edited options
      hth hok hsmall hmo hmc hfc
    obtain ⟨ed2, hE⟩ := resize_ok_of_len resample original edited (by have := hok.1; omega)
    have hhm : Lpips.compute_lpips_heatmap score interpN interpC
        original.data ed2.data (original.shape.getD 0 0) (original.shape.getD 1 0)
        options.patch_size options.stride = fun _ _ => (0:β) :=
      heatmap_small_zero score interpN interpC original.data ed2.data
        (original.shape.getD 0 0) (original.shape.getD 1 0)
        options.patch_size options.stride hsmall
    have hbin : (fun (yy xx : ℕ) =>
        decide (options.threshold < (fun (_ _ : ℕ) => (0:β)) yy xx)) =
        (fun (_ _ : ℕ) => false) := by
      funext yy xx
      exact decide_eq_false (not_lt.mpr hth)
    unfold Lpips.detect_edit_regions_lpips
    rw [hE]
    dsimp only
    rw [if_pos hok, hhm, hbin, hmo, hmc, hfc]
    refine ⟨_, rfl, ?_, ?_, ?_⟩
    · rfl
    · rfl
    · dsimp only
      split
      · norm_num
        exact Or.inl rfl
      · rfl
  refine ⟨?_, hB, ?_⟩
  · intro β _ _ score interpN interpC original edited Hh Ww ps st hsmall
    exact heatmap_small_zero score interpN interpC original edited
      Hh Ww ps st hsmall
  · obtain ⟨res, h1, h2, _, _⟩ := hB ℚ Unit cvEmpty resampleStub
      (fun _ _ => (0:ℚ)) (fun _ _ _ => fun _ _ => 0) (fun _ _ _ => fun _ _ => 0)
      img10 img10 {} (by norm_num) (by decide) (Or.inl (by decide))
      (fun k h w => rfl) (fun k h w => rfl) (fun h w => rfl)
    exact ⟨res, h1, h2⟩

/-- C8: in all three detectors the returned region list is the stable
descending-significance sort of the discovery-order list: it is pairwise
sorted by descending significance, is a permutation of the discovery
list, and filtering both lists to any fixed significance value gives
identical sublists (so equal-significance regions keep their discovery
order). -/
theorem claim_C8 :
    (∀ (β : Type) [instF : LinearOrderedField β] [instR : FloorRing β]
        (d : ℕ → ℕ → β) (t : β) (msize W H : ℕ),
      List.Pairwise (fun a b => b.significance ≤ a.significance)
        (_detect_pixel_based d t msize W H).regions ∧
      List.Perm (_detect_pixel_based d t msize W H).regions
        (pixelDiscovery d t msize W H) ∧
      ∀ k : ℤ, (_detect_pixel_based d t msize W H).regions.filter
          (fun r => decide (r.significance = k)) =
        (pixelDiscovery d t msize W H).filter
          (fun r => decide (r.significance = k))) ∧
    (∀ (β : Type) [instF : LinearOrderedField β] [instR : FloorRing β]
        (d : ℕ → ℕ → β) (t : β) (bs : ℕ) (mdens : β) (mcount W H : ℕ),
      List.Pairwise (fun a b => b.significance ≤ a.significance)
        (_detect_block_based d t bs mdens mcount W H).regions ∧
      List.Perm (_detect_block_based d t bs mdens mcount W H).regions
        (blockDiscovery d t mdens bs mcount W H) ∧
      ∀ k : ℤ, (_detect_block_based d t bs mdens mcount W H).regions.filter
          (fun r => decide (r.significance = k)) =
        (blockDiscovery d t mdens bs mcount W H).filter
          (fun r => decide (r.significance = k))) ∧
    (∀ (β : Type) [instF : LinearOrderedField β] [instR : FloorRing β] (C : Type)
        (cv : Lpips.CvOps β C) (resample : NdImage → ℕ → ℕ → NdImage)
        (score : (ℕ → ℕ → ℕ → β) → (ℕ → ℕ → ℕ → β) → β)
        (interpN interpC : List ((ℕ × ℕ) × β) → ℕ → ℕ → (ℕ → ℕ → β))
        (original edited ed2 : NdImage)
        (options : Lpips.LPIPSDetectionOptions β)
        (res : Lpips.LPIPSDetectionResult β),
      resizeIfNeeded resample original edited = Except.ok ed2 →
      Lpips.detect_edit_regions_lpips cv resample score interpN interpC
        original edited options = Except.ok res →
      List.Pairwise (fun a b => b.significance ≤ a.significance) res.regions ∧
      List.Perm res.regions
        (Lpips.lpipsDiscovery cv score interpN interpC original ed2 options) ∧
      ∀ k : β, res.regions.filter (fun r => decide (r.significance = k)) =
        (Lpips.lpipsDiscovery cv score interpN interpC original ed2
          options).filter (fun r => decide (r.significance = k))) := by
  refine ⟨?_, ?_, ?_⟩
  · intro β _ _ d t msize W H
    refine ⟨?_, ?_, ?_⟩
    · rw [detect_pixel_regions_eq]
      exact sortDesc_sorted _ _
    · rw [detect_pixel_regions_eq]
      exact sortDesc_perm _ _
    · intro k
      rw [detect_pixel_regions_eq]
      exact sortDesc_stable _ _ k
  · intro β _ _ d t bs mdens mcount W H
    refine ⟨?_, ?_, ?_⟩
    · rw [detect_block_regions_eq]
      exact sortDesc_sorted _ _
    · rw [detect_block_regions_eq]
      exact sortDesc_perm _ _
    · intro k
      rw [detect_block_regions_eq]
      exact sortDesc_stable _ _ k
  · intro β _ _ C cv resample score interpN interpC original edited ed2 options res
      hE h
    unfold Lpips.detect_edit_regions_lpips at h
    rw [hE] at h
    dsimp only at h
    by_cases hok : shapeOk original.shape
    · rw [if_pos hok] at h
      injection h with h2
      subst h2
      refine ⟨?_, ?_, ?_⟩
      · exact sortDesc_sorted _ _
      · exact sortDesc_perm _ _
      · intro k
        exact sortDesc_stable _ _ k
    · rw [if_neg hok] at h
      exact Except.noConfusion h

/-- C9: both report formatters return exactly the fixed no-changes
sentinel on an empty region list; on a nonempty result the report is the
newline-join of a header line, one numbered line per region in list
order (numbered consecutively from 1), a blank line, the totals line and
the dimensions line; and each formatter is a deterministic function of
the result. -/
theorem claim_C9 :
    (∀ (β : Type) [instF : LinearOrderedField β] [instR : FloorRing β]
        (res : EditDetectionResult β),
      res.regions = [] →
      format_edit_regions_for_prompt res = noChangesSentinel) ∧
    (∀ (β : Type) [instF : LinearOrderedField β] [instR : FloorRing β]
        (res : EditDetectionResult β),
      res.regions ≠ [] →
      format_edit_regions_for_prompt res =
        pyJoin "\n" ("DETECTED EDIT LOCATIONS (sorted by significance):" ::
          regionLines 1 res.regions ++
          ["", totalsLine res, dimensionsLine res])) ∧
    (∀ (β : Type) [instF : LinearOrderedField β] [instR : FloorRing β]
        (rs : List (EditRegion β)) (i : ℕ),
      regionLines i rs =
        (List.enumFrom i rs).map (fun p => regionLine p.1 p.2)) ∧
    (∀ (β : Type) [instF : LinearOrderedField β] [instR : FloorRing β]
        (res1 res2 : EditDetectionResult β),
      res1 = res2 →
      format_edit_regions_for_prompt res1 = format_edit_regions_for_prompt res2) ∧
    (∀ (β : Type) [instF : LinearOrderedField β] [instR : FloorRing β]
        (res : Lpips.LPIPSDetectionResult β),
      res.regions = [] →
      Lpips.format_edit_regions_for_prompt res = noChangesSentinel) ∧
    (∀ (β : Type) [instF : LinearOrderedField β] [instR : FloorRing β]
        (res : Lpips.LPIPSDetectionResult β),
      res.regions ≠ [] →
      Lpips.format_edit_regions_for_prompt res =
        pyJoin "\n"
          ("DETECTED EDIT LOCATIONS (by perceptual difference, sorted by significance):" ::
          Lpips.regionLines 1 res.regions ++
          ["", Lpips.totalsLine res, Lpips.dimensionsLine res])) ∧
    (∀ (β : Type) [instF : LinearOrderedField β] [instR : FloorRing β]
        (rs : List (Lpips.PolyRegion β)) (i : ℕ),
      Lpips.regionLines i rs =
        (List.enumFrom i rs).map (fun p => Lpips.regionLine p.1 p.2)) ∧
    (∀ (β : Type) [instF : LinearOrderedField β] [instR : FloorRing β]
        (res1 res2 : Lpips.LPIPSDetectionResult β),
      res1 = res2 →
      Lpips.format_edit_regions_for_prompt res1 =
        Lpips.format_edit_regions_for_prompt res2) := by
  refine ⟨?_, ?_, ?_, ?_, ?_, ?_, ?_, ?_⟩
  · intro β _ _ res h
    unfold format_edit_regions_for_prompt
    rw [if_pos (by simp [h])]
  · intro β _ _ res hne
    unfold format_edit_regions_for_prompt
    rw [if_neg (by simpa using hne)]
    rw [pyJoin_append
        (show "DETECTED EDIT LOCATIONS (sorted by significance):" ::
          regionLines 1 res.regions ≠ [] by simp)
        (show ["", totalsLine res, dimensionsLine res] ≠ [] by simp),
      pyJoin_cons (detRegionLines_ne_nil hne)]
    have hJ : pyJoin "\n" ["", totalsLine res, dimensionsLine res] =
        "" ++ "\n" ++ (totalsLine res ++ "\n" ++ dimensionsLine res) := rfl
    rw [hJ]
    simp [String.append_assoc]
    rw [show ("\n\n" : String) = "\n" ++ "\n" from rfl, String.append_assoc]
  · intro β _ _ rs i
    exact detRegionLines_enum rs i
  · intro β _ _ res1 res2 h
    rw [h]
  · intro β _ _ res h
    unfold Lpips.format_edit_regions_for_prompt
    rw [if_pos (by simp [h])]
  · intro β _ _ res hne
    unfold Lpips.format_edit_regions_for_prompt
    rw [if_neg (by simpa using hne)]
    rw [pyJoin_append
        (show "DETECTED EDIT LOCATIONS (by perceptual difference, sorted by significance):" ::
          Lpips.regionLines 1 res.regions ≠ [] by simp)
        (show ["", Lpips.totalsLine res, Lpips.dimensionsLine res] ≠ [] by simp),
      pyJoin_cons (lpipsRegionLines_ne_nil hne)]
    have hJ : pyJoin "\n" ["", Lpips.totalsLine res, Lpips.dimensionsLine res] =
        "" ++ "\n" ++ (Lpips.totalsLine res ++ "\n" ++ Lpips.dimensionsLine res) := rfl
    rw [hJ]
    simp [String.append_assoc]
    rw [show ("\n\n" : String) = "\n" ++ "\n" from rfl, String.append_assoc]
  · intro β _ _ rs i
    exact lpipsRegionLines_enum rs i
  · intro β _ _ res1 res2 h
    rw [h]

end ImageCompare
